import Mathlib

/-!
# blastn: k-mer index, ungapped extension, seed search and merge

A shallow embedding of `index.cpp`, `scoring.cpp`, `search.cpp` and of `main.cpp` up to the
index build (argument loop, exits, step 2) with the comparator of its ranking step:
definitions first, then lemmas and the theorems for the claims of the specification.

Conventions of the embedding.
* `std::string` is `List Char`; `s[i]` is `charAt s i`.  Reading at `i = |s|` gives NUL as in
  C++; reads further outside the string are undefined in C++ and also read as NUL here.
* `uint32_t` is `Nat` reduced `% 2^32` after every shift.
* `int` is `Int` (positions, scores); string lengths are assumed to stay below `2^30`, so that
  no `int` computation of the source wraps.
* `double` identity is read as an exact rational (`ℚ`).
* The `while` loops of `scoring.cpp` recurse on an iteration bound that the callers set to a
  value the loop cannot exceed (`rightLoop_fuel`, `leftLoop_fuel`, `scoreLoop_fuel`,
  `identityLoop_fuel` show that a larger bound gives the same result).
* `std::unordered_map<uint32_t, std::vector<std::pair<int,int>>>` is an association list with
  pairwise distinct keys; only `operator[]` followed by `push_back`, and `find`, are used by
  the source.
* `std::sort` in `mergeHSPs` does not fix the order of equal keys: `mergeHSPsWith` takes the
  sorting function as an argument, and the theorems hold for every function that returns a
  permutation in ascending `db_start`.
* `std::stoi` is `stoi`, with `none` for a thrown exception; `main` does not catch it.  The
  file reading of `parseDatabase` and `parseQueries` is an argument of `mainToIndex`.
-/

namespace Blastn

/-! ## fasta.h -/

/-- The `Sequence` record of `fasta.h` (fields `id`, `species`, `seq`, `index`). -/
structure Sequence where
  id : List Char
  species : List Char
  seq : List Char
  index : Int
  deriving DecidableEq, Repr

/-- The `Query` record of `fasta.h` (fields `name`, `seq`). -/
structure Query where
  name : List Char
  seq : List Char
  deriving DecidableEq, Repr

/-! ## index.cpp -/

/-- The predicate of the inner validity loop of `buildIndex` / `findHSPs`:
the character is one of `A C G T a c g t`. -/
def isNucleotide (c : Char) : Bool :=
  !(c != 'A' && c != 'C' && c != 'G' && c != 'T' &&
    c != 'a' && c != 'c' && c != 'g' && c != 't')

/-- The `switch` of `encodeKmer`: the 2-bit code of a base, `none` for the `default` branch. -/
def baseCode (c : Char) : Option Nat :=
  if c = 'A' ∨ c = 'a' then some 0
  else if c = 'C' ∨ c = 'c' then some 1
  else if c = 'G' ∨ c = 'g' then some 2
  else if c = 'T' ∨ c = 't' then some 3
  else none

/-- The loop of `encodeKmer`, started from accumulator `encoded`: shift left by two bits in
32-bit arithmetic, or in the base code; the `default` branch returns `0` at once. -/
def encodeKmerFrom : List Char → Nat → Nat
  | [], encoded => encoded
  | c :: cs, encoded =>
    let shifted := (encoded <<< 2) % 2 ^ 32
    match baseCode c with
    | some b => encodeKmerFrom cs (shifted ||| b)
    | none => 0

/-- `uint32_t encodeKmer(const std::string& kmer)`. -/
def encodeKmer (kmer : List Char) : Nat :=
  encodeKmerFrom kmer 0

/-- `seq.substr(pos, k)` for `pos ≤ |seq|`. -/
def substr (seq : List Char) (pos k : Nat) : List Char :=
  (seq.drop pos).take k

/-- `uint32_t getKmerAt(const std::string& seq, int pos, int k)`. -/
def getKmerAt (seq : List Char) (pos k : Nat) : Nat :=
  if pos + k > seq.length then 0
  else encodeKmer (substr seq pos k)

/-- `s[i]` on a `std::string`, NUL outside the characters of the string. -/
def charAt (s : List Char) (i : Int) : Char :=
  if 0 ≤ i then s.getD i.toNat (Char.ofNat 0) else Char.ofNat 0

/-- The inner loop `for (j = 0; j < k; ++j)` of `buildIndex`: `valid` stays true exactly when
every `sequence[i + j]` is a nucleotide letter. -/
def windowValid (sequence : List Char) (i k : Nat) : Bool :=
  (List.range k).all fun j => isNucleotide (charAt sequence ((i : Int) + (j : Int)))

/-- An occurrence `(sequence_index, position)`. -/
abbrev Occurrence := Int × Int

/-- The type `KmerIndex` of `index.h`. -/
abbrev KmerIndex := List (Nat × List Occurrence)

/-- `index.find(key)`: the stored vector, `none` for `index.end()`. -/
def KmerIndex.find (index : KmerIndex) (key : Nat) : Option (List Occurrence) :=
  match index with
  | [] => none
  | (k', occs) :: rest => if k' = key then some occs else KmerIndex.find rest key

/-- The occurrence list under `key`, empty when the key is absent. -/
def KmerIndex.occs (index : KmerIndex) (key : Nat) : List Occurrence :=
  (index.find key).getD []

/-- `index[key].push_back(occ)`. -/
def KmerIndex.pushBack (index : KmerIndex) (key : Nat) (occ : Occurrence) : KmerIndex :=
  match index with
  | [] => [(key, [occ])]
  | (k', occs) :: rest =>
    if k' = key then (k', occs ++ [occ]) :: rest
    else (k', occs) :: KmerIndex.pushBack rest key occ

/-- One iteration of the position loop of `buildIndex` for sequence `seq` at position `i`. -/
def indexPosition (seq : Sequence) (k : Nat) (index : KmerIndex) (i : Nat) : KmerIndex :=
  let kmer_key := getKmerAt seq.seq i k
  if kmer_key = 0 ∧ k > 0 ∧ windowValid seq.seq i k = false then index
  else index.pushBack kmer_key (seq.index, (i : Int))

/-- The position loop `for (int i = 0; i <= |sequence| - k; ++i)` of `buildIndex`. -/
def indexSequence (seq : Sequence) (k : Nat) (index : KmerIndex) : KmerIndex :=
  (List.range (seq.seq.length + 1 - k)).foldl (indexPosition seq k) index

/-- `KmerIndex buildIndex(const std::vector<Sequence>& database, int k)` for `k ≥ 0`
(with a negative `k` the source's `substr` call leaves the string; not modelled). -/
def buildIndex (database : List Sequence) (k : Nat) : KmerIndex :=
  database.foldl (fun index seq => indexSequence seq k index) []

/-! ## scoring.cpp -/

/-- The struct `ExtensionResult` of `scoring.h`; `identity` as an exact rational. -/
structure ExtensionResult where
  db_start : Int
  db_end : Int
  q_start : Int
  q_end : Int
  score : Int
  identity : ℚ
  deriving DecidableEq

/-- The local variables of one directional pass of `extendUngapped`: the cursor
`(db_pos, q_pos)`, the running score (`right_score` / `left_score`), the best score and the
position pair at which it was reached. -/
structure PassState where
  db_pos : Int
  q_pos : Int
  score : Int
  best_score : Int
  best_db : Int
  best_q : Int
  deriving DecidableEq

/-- The body shared by the two directional loops of `extendUngapped`, up to the drop test:
move the cursor by `delta` (`db_pos++; q_pos++` for `delta = 1`, `db_pos--; q_pos--` for
`delta = -1`), add `+2` for a match and `-1` for a mismatch to the running score, and record
a new best score with its position pair when the running score exceeds the best. -/
def passStep (db_seq query : List Char) (delta : Int) (st : PassState) : PassState :=
  let db_pos := st.db_pos + delta
  let q_pos := st.q_pos + delta
  let score :=
    if charAt db_seq db_pos = charAt query q_pos then st.score + 2 else st.score - 1
  if score > st.best_score then PassState.mk db_pos q_pos score score db_pos q_pos
  else PassState.mk db_pos q_pos score st.best_score st.best_db st.best_q

/-- The rightward `while (db_pos + 1 < db_len && q_pos + 1 < q_len)` loop of `extendUngapped`
with its `break` when `right_score < best_right_score - 20`; the first argument bounds the
number of iterations. -/
def rightLoop (db_seq query : List Char) : Nat → PassState → PassState
  | 0, st => st
  | fuel + 1, st =>
    if st.db_pos + 1 < (db_seq.length : Int) ∧ st.q_pos + 1 < (query.length : Int) then
      let st1 := passStep db_seq query 1 st
      if st1.score < st1.best_score - 20 then st1
      else rightLoop db_seq query fuel st1
    else st

/-- The leftward `while (db_pos > 0 && q_pos > 0)` loop of `extendUngapped` with its `break`
when `left_score < best_left_score - 20`; the first argument bounds the number of
iterations. -/
def leftLoop (db_seq query : List Char) : Nat → PassState → PassState
  | 0, st => st
  | fuel + 1, st =>
    if st.db_pos > 0 ∧ st.q_pos > 0 then
      let st1 := passStep db_seq query (-1) st
      if st1.score < st1.best_score - 20 then st1
      else leftLoop db_seq query fuel st1
    else st

/-- The rightward pass from the seed; at most `db_len - db_seed_pos` iterations can happen. -/
def rightPass (db_seq query : List Char) (db_seed_pos q_seed_pos : Int) : PassState :=
  rightLoop db_seq query ((db_seq.length : Int) - db_seed_pos).toNat
    (PassState.mk db_seed_pos q_seed_pos 0 0 db_seed_pos q_seed_pos)

/-- The leftward pass from the seed; at most `db_seed_pos` iterations can happen. -/
def leftPass (db_seq query : List Char) (db_seed_pos q_seed_pos : Int) : PassState :=
  leftLoop db_seq query db_seed_pos.toNat
    (PassState.mk db_seed_pos q_seed_pos 0 0 db_seed_pos q_seed_pos)

/-- The recomputation loop `while (db_pos <= result.db_end && q_pos <= result.q_end)` of
`extendUngapped`, carrying `total_score`. -/
def scoreLoop (db_seq query : List Char) (db_end q_end : Int) : Nat → Int → Int → Int → Int
  | 0, _, _, total_score => total_score
  | fuel + 1, db_pos, q_pos, total_score =>
    if db_pos ≤ db_end ∧ q_pos ≤ q_end then
      scoreLoop db_seq query db_end q_end fuel (db_pos + 1) (q_pos + 1)
        (if charAt db_seq db_pos = charAt query q_pos then total_score + 2
         else total_score - 1)
    else total_score

/-- The loop of `calculateIdentity`, carrying `(matches, total)`. -/
def identityLoop (db_seq query : List Char) (db_end q_end : Int) :
    Nat → Int → Int → Int × Int → Int × Int
  | 0, _, _, mt => mt
  | fuel + 1, db_pos, q_pos, mt =>
    if db_pos ≤ db_end ∧ q_pos ≤ q_end then
      identityLoop db_seq query db_end q_end fuel (db_pos + 1) (q_pos + 1)
        (if charAt db_seq db_pos = charAt query q_pos then (mt.1 + 1, mt.2 + 1)
         else (mt.1, mt.2 + 1))
    else mt

/-- `double calculateIdentity(db_seq, query, db_start, db_end, q_start, q_end)`. -/
def calculateIdentity (db_seq query : List Char) (db_start db_end q_start q_end : Int) : ℚ :=
  if db_end < db_start ∨ q_end < q_start then 0
  else
    let mt := identityLoop db_seq query db_end q_end (db_end - db_start + 1).toNat
      db_start q_start (0, 0)
    if mt.2 = 0 then 0
    else (100 * (mt.1 : ℚ)) / (mt.2 : ℚ)

/-- `ExtensionResult extendUngapped(db_seq, query, db_seed_pos, q_seed_pos)`. -/
def extendUngapped (db_seq query : List Char) (db_seed_pos q_seed_pos : Int) :
    ExtensionResult :=
  let right := rightPass db_seq query db_seed_pos q_seed_pos
  let left := leftPass db_seq query db_seed_pos q_seed_pos
  let db_start := left.best_db
  let db_end := right.best_db
  let q_start := left.best_q
  let q_end := right.best_q
  let total_score :=
    scoreLoop db_seq query db_end q_end (db_end - db_start + 1).toNat db_start q_start 0
  ExtensionResult.mk db_start db_end q_start q_end total_score
    (calculateIdentity db_seq query db_start db_end q_start q_end)

/-! ## search.cpp -/

/-- The struct `HSP` of `search.h`; `identity` as an exact rational. -/
structure HSP where
  sid : Int
  db_start : Int
  db_end : Int
  q_start : Int
  q_end : Int
  score : Int
  identity : ℚ
  deriving DecidableEq

/-- `database[db_seq_idx].seq`; an index outside the vector is undefined in C++ and reads as
the empty string here. -/
def dbSeqAt (database : List Sequence) (db_seq_idx : Int) : List Char :=
  if 0 ≤ db_seq_idx then
    match database[db_seq_idx.toNat]? with
    | some seq => seq.seq
    | none => []
  else []

/-- The body of the hit loop of `findHSPs`: extend the seed `(hit.second, q_pos)` in sequence
`hit.first` and build the HSP from the extension result. -/
def seedHSP (query : List Char) (database : List Sequence) (q_pos : Nat) (hit : Occurrence) :
    HSP :=
  let db_seq_idx := hit.1
  let db_seed_pos := hit.2
  let ext := extendUngapped (dbSeqAt database db_seq_idx) query db_seed_pos (q_pos : Int)
  HSP.mk db_seq_idx ext.db_start ext.db_end ext.q_start ext.q_end ext.score ext.identity

/-- One iteration of the position loop of `findHSPs` at query position `q_pos`: skip the
position when the key is 0 and the window has an invalid character, otherwise push one HSP
per hit found under the key. -/
def findAtPosition (query : List Char) (database : List Sequence) (index : KmerIndex)
    (k : Nat) (hsps : List HSP) (q_pos : Nat) : List HSP :=
  let kmer_key := getKmerAt query q_pos k
  if kmer_key = 0 ∧ windowValid query q_pos k = false then hsps
  else
    match index.find kmer_key with
    | some hits => hsps ++ hits.map (seedHSP query database q_pos)
    | none => hsps

/-- `std::vector<HSP> findHSPs(query, database, index, k)` for `k ≥ 0`. -/
def findHSPs (query : List Char) (database : List Sequence) (index : KmerIndex) (k : Nat) :
    List HSP :=
  (List.range (query.length + 1 - k)).foldl (findAtPosition query database index k) []

/-- The overlap test of `mergeHSPs` for an incoming HSP `h` and a kept HSP `m`:
`!(h.db_end < m.db_start || m.db_end < h.db_start)`. -/
def overlaps (h m : HSP) : Bool :=
  !(decide (h.db_end < m.db_start) || decide (m.db_end < h.db_start))

/-- The replacement test of `mergeHSPs`: `h.score > m.score ||
(h.score == m.score && h.identity > m.identity)`. -/
def better (h m : HSP) : Bool :=
  decide (h.score > m.score) || (decide (h.score = m.score) && decide (h.identity > m.identity))

/-- The grouping step of `mergeHSPs`: `std::find` of `hsp.sid` among the group ids, then
`push_back` on the group found, or a new id with the group `{hsp}` at the end.  The parallel
vectors `seq_ids` and `by_sequence` are one list of pairs. -/
def groupPush (groups : List (Int × List HSP)) (hsp : HSP) : List (Int × List HSP) :=
  match groups with
  | [] => [(hsp.sid, [hsp])]
  | (id, g) :: rest =>
    if id = hsp.sid then (id, g ++ [hsp]) :: rest
    else (id, g) :: groupPush rest hsp

/-- The grouping loop of `mergeHSPs`. -/
def groupBySequence (hsps : List HSP) : List (Int × List HSP) :=
  hsps.foldl groupPush []

/-- The first inner loop of `mergeHSPs`: does `h` overlap an already merged HSP of its
sequence. -/
def hasOverlap (merged : List HSP) (h : HSP) : Bool :=
  merged.any fun m => decide (m.sid = h.sid) && overlaps h m

/-- The second inner loop of `mergeHSPs`: at the first merged HSP of the same sequence that
overlaps `h`, assign `h` when `h` is better, and stop. -/
def replaceOverlapping (merged : List HSP) (h : HSP) : List HSP :=
  match merged with
  | [] => []
  | m :: rest =>
    if m.sid = h.sid ∧ overlaps h m = true then
      if better h m = true then h :: rest else m :: rest
    else m :: replaceOverlapping rest h

/-- The body of the sweep loop of `mergeHSPs` for one HSP `h` of a sorted group. -/
def mergeStep (merged : List HSP) (h : HSP) : List HSP :=
  if hasOverlap merged h = false then merged ++ [h]
  else replaceOverlapping merged h

/-- The sweep loop of `mergeHSPs` over a sorted group. -/
def sweep (merged : List HSP) (seq_hsps : List HSP) : List HSP :=
  seq_hsps.foldl mergeStep merged

/-- The function `mergeHSPs` with the result of `std::sort` on a group given by `sort`.
`std::sort` leaves the order of HSPs with equal `db_start` unspecified, so the theorems are
stated for every `sort` that returns a permutation ordered by `db_start`. -/
def mergeHSPsWith (sort : List HSP → List HSP) (hsps : List HSP) : List HSP :=
  if hsps.isEmpty then hsps
  else (groupBySequence hsps).foldl (fun merged g => sweep merged (sort g.2)) []

/-- The loop of `getAlignment`, carrying `(db_line, match_line, q_line)`; the first argument
bounds the number of iterations. -/
def alignLoop (db_seq query : List Char) (db_end q_end : Int) :
    Nat → Int → Int → List Char × List Char × List Char → List Char × List Char × List Char
  | 0, _, _, lines => lines
  | fuel + 1, db_pos, q_pos, lines =>
    if db_pos ≤ db_end ∧ q_pos ≤ q_end then
      let db_char := charAt db_seq db_pos
      let q_char := charAt query q_pos
      alignLoop db_seq query db_end q_end fuel (db_pos + 1) (q_pos + 1)
        (lines.1 ++ [db_char],
          lines.2.1 ++ [if db_char = q_char then '|' else ' '],
          lines.2.2 ++ [q_char])
    else lines

/-- The three lines built by `getAlignment` when neither range is inverted. -/
def alignmentLines (db_seq query : List Char) (db_start db_end q_start q_end : Int) :
    List Char × List Char × List Char :=
  alignLoop db_seq query db_end q_end (db_end - db_start + 1).toNat db_start q_start
    ([], [], [])

/-- `std::string getAlignment(db_seq, query, db_start, db_end, q_start, q_end)`; the line
feed is `Char.ofNat 10`. -/
def getAlignment (db_seq query : List Char) (db_start db_end q_start q_end : Int) :
    List Char :=
  if db_end < db_start ∨ q_end < q_start then []
  else
    let lines := alignmentLines db_seq query db_start db_end q_start q_end
    lines.1 ++ [Char.ofNat 10] ++ lines.2.1 ++ [Char.ofNat 10] ++ lines.2.2

/-! ## main.cpp: arguments, exits and the index build -/

/-- `std::isspace` in the "C" locale: space, and the control characters 9 .. 13. -/
def isSpace (c : Char) : Bool :=
  c = ' ' || (9 ≤ c.toNat && c.toNat ≤ 13)

/-- The value of a string of decimal digits. -/
def decimalValue (digits : List Char) : Int :=
  digits.foldl (fun acc c => acc * 10 + ((c.toNat : Int) - 48)) 0

/-- `std::stoi(str)` (base 10): white space is skipped, then an optional sign and the longest
run of decimal digits are read, and what follows is ignored.  The result is `none` when the
call throws: `std::invalid_argument` when there is no digit, `std::out_of_range` when the
value is not an `int`. -/
def stoi (str : List Char) : Option Int :=
  let s := str.dropWhile isSpace
  let negative := s.head? = some '-'
  let body := if s.head? = some '-' ∨ s.head? = some '+' then s.tail else s
  let digits := body.takeWhile Char.isDigit
  if digits = [] then none
  else
    let value := if negative then - decimalValue digits else decimalValue digits
    if value < -2147483648 ∨ value > 2147483647 then none
    else some value

/-- The variables `db_file`, `query_file`, `k` and `top_n` of `main`. -/
structure MainArgs where
  db_file : List Char
  query_file : List Char
  k : Int
  top_n : Int
  deriving DecidableEq, Repr

/-- The `return` statements of `main` that come before step 2 (the index build):
`Error: k must be between 1 and 16` (returns 1), `Error: top must be non-negative`
(returns 1), the usage text of `--help` / `-h` (returns 0), `Error: --db and --query are
required` (returns 1), `Error: No sequences found in database file` (returns 1) and
`Error: No queries found in query file` (returns 1). -/
inductive MainExit where
  | kOutOfRange
  | topNegative
  | help
  | missingFiles
  | emptyDatabase
  | noQueries
  deriving DecidableEq, Repr

/-- The value `main` returns at an exit. -/
def MainExit.code : MainExit → Int
  | MainExit.help => 0
  | _ => 1

/-- How the argument loop of `main` ends: it runs through all arguments, it returns from
`main`, or `std::stoi` throws (`main` has no handler, so the program is terminated). -/
inductive ArgResult where
  | done (args : MainArgs)
  | exited (e : MainExit)
  | terminated
  deriving DecidableEq, Repr

/-- The loop `for (int i = 1; i < argc; ++i)` of `main` over the arguments not yet read.  An
option that takes a value is recognised only when a further argument follows
(`i + 1 < argc`), and then consumes it (`argv[++i]`); any other argument is skipped. -/
def argLoop : List (List Char) → MainArgs → ArgResult
  | [], a => ArgResult.done a
  | [arg], a =>
    if arg = "--help".toList ∨ arg = "-h".toList then ArgResult.exited MainExit.help
    else ArgResult.done a
  | arg :: value :: rest, a =>
    if arg = "--db".toList then argLoop rest (MainArgs.mk value a.query_file a.k a.top_n)
    else if arg = "--query".toList then argLoop rest (MainArgs.mk a.db_file value a.k a.top_n)
    else if arg = "--k".toList then
      match stoi value with
      | none => ArgResult.terminated
      | some k =>
        if k < 1 ∨ k > 16 then ArgResult.exited MainExit.kOutOfRange
        else argLoop rest (MainArgs.mk a.db_file a.query_file k a.top_n)
    else if arg = "--top".toList then
      match stoi value with
      | none => ArgResult.terminated
      | some top_n =>
        if top_n < 0 then ArgResult.exited MainExit.topNegative
        else argLoop rest (MainArgs.mk a.db_file a.query_file a.k top_n)
    else if arg = "--help".toList ∨ arg = "-h".toList then ArgResult.exited MainExit.help
    else argLoop (value :: rest) a

/-- How `main` gets to step 2: it returns before, it is terminated by an exception of
`std::stoi`, or it calls `buildIndex(database, k)`. -/
inductive MainOutcome where
  | exited (e : MainExit)
  | terminated
  | indexBuilt (database : List Sequence) (k : Int) (index : KmerIndex)
  deriving DecidableEq, Repr

/-- The function `main` up to and including step 2.  `argv` is the argument vector with the
program name first; `parseDatabase` and `parseQueries` give the content that the functions of
`fasta.cpp` read from a file name.  `k` starts at 11 and `top_n` at 2.  The `int k` handed
to `buildIndex` is at least 1 (`argLoop_k_range`), so reading it as a natural number changes
nothing. -/
def mainToIndex (parseDatabase : List Char → List Sequence)
    (parseQueries : List Char → List Query) (argv : List (List Char)) : MainOutcome :=
  match argLoop argv.tail (MainArgs.mk [] [] 11 2) with
  | ArgResult.exited e => MainOutcome.exited e
  | ArgResult.terminated => MainOutcome.terminated
  | ArgResult.done a =>
    if a.db_file.isEmpty ∨ a.query_file.isEmpty then MainOutcome.exited MainExit.missingFiles
    else if (parseDatabase a.db_file).isEmpty then MainOutcome.exited MainExit.emptyDatabase
    else if (parseQueries a.query_file).isEmpty then MainOutcome.exited MainExit.noQueries
    else MainOutcome.indexBuilt (parseDatabase a.db_file) a.k
      (buildIndex (parseDatabase a.db_file) a.k.toNat)

/-! ## main.cpp: ranking -/

/-- The comparator of step 5 of `main`, passed to `std::sort`:
`if (a.score != b.score) return a.score > b.score; return a.identity > b.identity;`. -/
def rankBefore (a b : HSP) : Bool :=
  if a.score ≠ b.score then decide (a.score > b.score)
  else decide (a.identity > b.identity)

/-! ## Specification-side definitions for the index -/

/-- The nucleotide alphabet, both cases. -/
def alphabet : List Char := ['A', 'C', 'G', 'T', 'a', 'c', 'g', 't']

/-- The uppercase nucleotide alphabet. -/
def upperAlphabet : List Char := ['A', 'C', 'G', 'T']

/-- The 2-bit code of an uppercase base: A=0, C=1, G=2, T=3. -/
def baseDigit (c : Char) : Nat :=
  if c = 'A' then 0 else if c = 'C' then 1 else if c = 'G' then 2 else 3

/-- The left-to-right 2-bit fold on unbounded naturals: start at 0, shift the accumulator left
by two bits and or in the code of the base. -/
def foldKmer (s : List Char) : Nat :=
  s.foldl (fun acc c => (acc <<< 2) ||| baseDigit c) 0

/-- Base-4 value of a string of bases of either case, first base most significant. -/
def kmerValue (s : List Char) : Nat :=
  s.foldl (fun acc c => acc * 4 + (baseCode c).getD 0) 0

/-- Letter of a base-4 digit: 0,1,2,3 are A,C,G,T. -/
def digitBase (d : Nat) : Char :=
  if d = 0 then 'A' else if d = 1 then 'C' else if d = 2 then 'G' else 'T'

/-- Canonical decoder: the `k` base-4 digits of `key`, most significant first, as letters. -/
def decodeKmer : Nat → Nat → List Char
  | 0, _ => []
  | k + 1, key => decodeKmer k (key / 4) ++ [digitBase (key % 4)]

/-- The length-`k` window of `seq` at `i` is over the alphabet and encodes to `key`. -/
def windowHasKey (seq : Sequence) (k key : Nat) (i : Nat) : Bool :=
  (substr seq.seq i k).all (fun c => decide (c ∈ alphabet)) &&
    encodeKmer (substr seq.seq i k) == key

/-- Start positions `i` in `[0, |seq| - k]` of one sequence, ascending, whose window is over
the alphabet and encodes to `key`, each paired with the sequence's index. -/
def seqOccurrences (seq : Sequence) (k key : Nat) : List Occurrence :=
  List.map (fun (i : Nat) => (seq.index, (i : Int)))
    ((List.range (seq.seq.length + 1 - k)).filter (windowHasKey seq k key))

/-- Occurrences of `key` over the database, in database order and then by position. -/
def dbOccurrences (database : List Sequence) (k key : Nat) : List Occurrence :=
  database.flatMap fun seq => seqOccurrences seq k key

/-! ## Specification-side definitions for the extension -/

/-- The score of one aligned pair: `+2` for equal characters, `-1` otherwise. -/
def pairScore (db_seq query : List Char) (db_pos q_pos : Int) : Int :=
  if charAt db_seq db_pos = charAt query q_pos then 2 else -1

/-- Number of `i < n` with `db_seq[db_start + i] = query[q_start + i]`. -/
def matchCount (db_seq query : List Char) (db_start q_start : Int) (n : Nat) : Nat :=
  ∑ i ∈ Finset.range n,
    if charAt db_seq (db_start + (i : Int)) = charAt query (q_start + (i : Int)) then 1 else 0

/-- The pair reached after `i` steps from the seed in direction `delta` is a mismatch. -/
def stepMismatch (db_seq query : List Char) (ds qs delta : Int) (i : Nat) : Prop :=
  charAt db_seq (ds + delta * (i : Int)) ≠ charAt query (qs + delta * (i : Int))

/-- Among the steps `1 .. m` from the seed in direction `delta`, no 21 consecutive steps are
all mismatches. -/
def noLongRun (db_seq query : List Char) (ds qs delta : Int) (m : Nat) : Prop :=
  ∀ j : Nat, 1 ≤ j → j + 20 ≤ m → ∃ t : Nat, t ≤ 20 ∧ ¬ stepMismatch db_seq query ds qs delta (j + t)

/-- The invariant of a directional pass behind the X-drop bound: the cursor is `n` steps and
the best pair `b ≤ n` steps from the seed; the running score is at most the best score, and
lower by at least `r` after `r` trailing mismatches; no long run of mismatches lies within
the first `b` steps, nor within the first `n` steps unless the drop test has fired. -/
def XdropInv (db_seq query : List Char) (ds qs delta : Int) (s : PassState) : Prop :=
  ∃ n b : Nat,
    s.db_pos = ds + delta * (n : Int) ∧ s.q_pos = qs + delta * (n : Int) ∧
    s.best_db = ds + delta * (b : Int) ∧ b ≤ n ∧ s.score ≤ s.best_score ∧
    (∀ r : Nat, r ≤ n → (∀ t : Nat, t < r → stepMismatch db_seq query ds qs delta (n - t)) →
      s.score + (r : Int) ≤ s.best_score) ∧
    noLongRun db_seq query ds qs delta b ∧
    (¬ s.score < s.best_score - 20 → noLongRun db_seq query ds qs delta n)

/-! ## Specification-side definitions for search and merge -/

/-- The seeds of query position `p`: nothing when the length-`k` window at `p` has a character
outside the alphabet, otherwise one HSP per occurrence `(s, i)` listed by the index under
the key of the window, namely `sid = s` with the fields of
`extendUngapped(database[s].seq, query, i, p)`. -/
def seedsAt (query : List Char) (database : List Sequence) (index : KmerIndex) (k p : Nat) :
    List HSP :=
  if (substr query p k).all (fun c => decide (c ∈ alphabet)) = true then
    (index.occs (encodeKmer (substr query p k))).map fun (occ : Occurrence) =>
      let ext := extendUngapped (dbSeqAt database occ.1) query occ.2 (p : Int)
      HSP.mk occ.1 ext.db_start ext.db_end ext.q_start ext.q_end ext.score ext.identity
  else []

/-- The seed enumeration: the seeds of the query positions `0 .. |query| - k`, in order. -/
def seedEnumeration (query : List Char) (database : List Sequence) (index : KmerIndex)
    (k : Nat) : List HSP :=
  (List.range (query.length + 1 - k)).flatMap (seedsAt query database index k)

/-- Number of occurrences the index lists for the valid windows of the query. -/
def seedCount (query : List Char) (index : KmerIndex) (k : Nat) : Nat :=
  ((List.range (query.length + 1 - k)).map fun p =>
    if (substr query p k).all (fun c => decide (c ∈ alphabet)) = true then
      (index.occs (encodeKmer (substr query p k))).length
    else 0).sum

/-- What `std::sort` with the comparator `a.db_start < b.db_start` guarantees of its result:
a permutation of the group in ascending `db_start`. -/
def IsSortByStart (sort : List HSP → List HSP) : Prop :=
  ∀ l, (sort l).Perm l ∧ (sort l).Pairwise (fun a b => a.db_start ≤ b.db_start)

/-- One function with the property `IsSortByStart`, used to evaluate `mergeHSPsWith` on
examples: insertion sort by ascending `db_start`.  It is not the library's `std::sort`,
whose order of equal keys differs on longer groups. -/
def sortByStart (seq_hsps : List HSP) : List HSP :=
  List.insertionSort (fun a b => a.db_start ≤ b.db_start) seq_hsps

/-- Two HSPs are on the same sequence and their database ranges intersect. -/
def conflict (a b : HSP) : Prop :=
  a.sid = b.sid ∧ overlaps a b = true

/-- One supersession among the HSPs of `input`: `y` is an input HSP on the sequence of `x`
whose database range intersects that of `x` and whose score is at least that of `x`. -/
def supersededBy (input : List HSP) (x y : HSP) : Prop :=
  y ∈ input ∧ x.sid = y.sid ∧ overlaps x y = true ∧ x.score ≤ y.score

/-- Total number of occurrences with sequence index `s` over all keys of an index. -/
def occurrenceCount (index : KmerIndex) (s : Int) : Nat :=
  (index.map fun entry => entry.2.countP fun occ => decide (occ.1 = s)).sum

/-- Number of start positions of `seq` whose length-`k` window is over the alphabet. -/
def validWindowCount (seq : List Char) (k : Nat) : Nat :=
  ((List.range (seq.length + 1 - k)).filter fun i =>
    (substr seq i k).all fun c => decide (c ∈ alphabet)).length

/-! ## Specification-side definitions for ranking and the directional scores -/

/-- The database of the failing input of C23: twenty sequences `ACGTTGCAAGCT`, with the
indices 0 .. 19 that `parseDatabase` assigns. -/
def tiedDb : List Sequence :=
  (List.range 20).map fun (s : Nat) => Sequence.mk [] [] "ACGTTGCAAGCT".toList (s : Int)

/-- The merged list that steps 3 and 4 of `main` give for the query `ACGTTGCAAGCT` and the
database `tiedDb` with `k = 11` (`mergeHSPsWith_tiedDb`): one HSP per sequence, in database
order, each with database and query range 0-11, score 24 and identity 100. -/
def tiedHits : List HSP :=
  (List.range 20).map fun (s : Nat) => HSP.mk (s : Int) 0 11 0 11 24 100

/-- Cumulative score of the first `i` steps from the seed in direction `delta`: the sum of
`+2` / `-1` over the pairs `(ds + delta*t, qs + delta*t)` for `t = 1 .. i`. -/
def cumScore (db_seq query : List Char) (ds qs delta : Int) (i : Nat) : Int :=
  ∑ t ∈ Finset.range i,
    pairScore db_seq query (ds + delta * ((t : Int) + 1)) (qs + delta * ((t : Int) + 1))

/-- The relation of a directional pass to the cumulative scores: the cursor is `n` steps and
the best pair `b ≤ n` steps from the seed, the running score is the cumulative score of `n`
steps, the best score that of `b` steps, and no cumulative score of at most `n` steps
exceeds the best score. -/
def RunningMax (db_seq query : List Char) (ds qs delta : Int) (s : PassState) : Prop :=
  ∃ n b : Nat,
    s.db_pos = ds + delta * (n : Int) ∧ s.q_pos = qs + delta * (n : Int) ∧
    s.best_db = ds + delta * (b : Int) ∧ s.best_q = qs + delta * (b : Int) ∧ b ≤ n ∧
    s.score = cumScore db_seq query ds qs delta n ∧
    s.best_score = cumScore db_seq query ds qs delta b ∧
    ∀ i : Nat, i ≤ n → cumScore db_seq query ds qs delta i ≤ s.best_score

/-- The best cumulative score among the first `i` steps from the seed in direction `delta`,
the empty extension (score 0) included. -/
def bestUpTo (db_seq query : List Char) (ds qs delta : Int) : Nat → Int
  | 0 => 0
  | i + 1 => max (bestUpTo db_seq query ds qs delta i) (cumScore db_seq query ds qs delta (i + 1))

/-- The drop test after `i` steps in direction `delta`: the cumulative score is more than 20
below the best cumulative score of the steps so far. -/
def dropped (db_seq query : List Char) (ds qs delta : Int) (i : Nat) : Bool :=
  decide (cumScore db_seq query ds qs delta i < bestUpTo db_seq query ds qs delta i - 20)

/-- The relation of a directional pass to the stop rule: the cursor is `n` steps and the best
pair `b ≤ n` steps from the seed; the running score is the cumulative score of `n` steps and
the best score is the best cumulative score of the first `n` steps, first reached after `b`
steps; the drop test has fired at none of the steps before `n`. -/
def StopRule (db_seq query : List Char) (ds qs delta : Int) (s : PassState) : Prop :=
  ∃ n b : Nat,
    s.db_pos = ds + delta * (n : Int) ∧ s.q_pos = qs + delta * (n : Int) ∧
    s.best_db = ds + delta * (b : Int) ∧ s.best_q = qs + delta * (b : Int) ∧ b ≤ n ∧
    s.score = cumScore db_seq query ds qs delta n ∧
    s.best_score = bestUpTo db_seq query ds qs delta n ∧
    cumScore db_seq query ds qs delta b = bestUpTo db_seq query ds qs delta n ∧
    (∀ i : Nat, i < b →
      cumScore db_seq query ds qs delta i < cumScore db_seq query ds qs delta b) ∧
    (∀ i : Nat, i < n → dropped db_seq query ds qs delta i = false)

/-- The database string of the example for C20: eleven `G`, twenty `C`, the seed letter `A`,
twenty `C`, eleven `G`. -/
def xdropDb : List Char :=
  List.replicate 11 'G' ++ List.replicate 20 'C' ++ ['A'] ++ List.replicate 20 'C' ++
    List.replicate 11 'G'

/-- The query string of the example for C20: as `xdropDb` with the forty `C` replaced by
`T`, so that a run of exactly 20 mismatches lies on each side of the seed at position 31. -/
def xdropQuery : List Char :=
  List.replicate 11 'G' ++ List.replicate 20 'T' ++ ['A'] ++ List.replicate 20 'T' ++
    List.replicate 11 'G'

/-! ## Lemmas: codec -/

theorem isNucleotide_eq (c : Char) : isNucleotide c = decide (c ∈ alphabet) := by
  rw [Bool.eq_iff_iff]
  simp only [isNucleotide, alphabet, bne_iff_ne, ne_eq, Bool.not_eq_true', Bool.and_eq_false_imp,
    Bool.and_eq_true, decide_eq_true_eq, List.mem_cons, List.mem_singleton, Bool.decide_eq_true,
    Bool.decide_eq_false, Bool.not_eq_eq_eq_not, Bool.not_true, List.not_mem_nil, or_false,
    bne_eq_false_iff_eq]
  tauto

theorem isNucleotide_iff (c : Char) : isNucleotide c = true ↔ c ∈ alphabet := by
  rw [isNucleotide_eq]; simp

theorem isNucleotide_false_iff (c : Char) : isNucleotide c = false ↔ c ∉ alphabet := by
  rw [isNucleotide_eq]; simp

theorem baseCode_lt {c : Char} {b : Nat} (h : baseCode c = some b) : b < 4 := by
  unfold baseCode at h
  split_ifs at h <;> simp at h <;> omega

theorem baseCode_eq_none {c : Char} (h : isNucleotide c = false) : baseCode c = none := by
  unfold baseCode
  simp only [isNucleotide, bne_iff_ne, ne_eq, Bool.not_eq_false', Bool.and_eq_true,
    decide_eq_true_eq, Bool.decide_eq_true] at h
  simp [h]

theorem baseCode_isSome {c : Char} (h : isNucleotide c = true) : ∃ b, baseCode c = some b := by
  unfold baseCode
  by_cases h1 : c = 'A' ∨ c = 'a'
  · exact ⟨0, by simp [h1]⟩
  by_cases h2 : c = 'C' ∨ c = 'c'
  · exact ⟨1, by simp [h1, h2]⟩
  by_cases h3 : c = 'G' ∨ c = 'g'
  · exact ⟨2, by simp [h1, h2, h3]⟩
  by_cases h4 : c = 'T' ∨ c = 't'
  · exact ⟨3, by simp [h1, h2, h3, h4]⟩
  · exfalso
    simp only [not_or] at h1 h2 h3 h4
    simp [isNucleotide, h1, h2, h3, h4] at h

theorem shift_or_eq {e b : Nat} (he : e * 4 < 2 ^ 32) (hb : b < 4) :
    ((e <<< 2) % 2 ^ 32) ||| b = e * 4 + b := by
  have h1 : e <<< 2 = e * 4 := by simp [Nat.shiftLeft_eq]
  rw [h1, Nat.mod_eq_of_lt he]
  have := Nat.mul_add_lt_is_or (i := 2) (b := b) (by simpa using hb) e
  simp only [Nat.reducePow] at this
  rw [Nat.mul_comm e 4, ← this]

theorem encodeKmerFrom_invalid (s : List Char) (e : Nat)
    (h : ∃ c ∈ s, isNucleotide c = false) : encodeKmerFrom s e = 0 := by
  induction s generalizing e with
  | nil => simp at h
  | cons c cs ih =>
    unfold encodeKmerFrom
    cases hc : baseCode c with
    | none => rfl
    | some b =>
      simp only
      apply ih
      obtain ⟨d, hd, hdn⟩ := h
      rcases List.mem_cons.1 hd with rfl | hd
      · rw [baseCode_eq_none hdn] at hc; cases hc
      · exact ⟨d, hd, hdn⟩

/-- Base-4 fold started from an accumulator. -/
theorem kmerValue_foldl (s : List Char) (e : Nat) :
    s.foldl (fun acc c => acc * 4 + (baseCode c).getD 0) e = e * 4 ^ s.length + kmerValue s := by
  unfold kmerValue
  induction s generalizing e with
  | nil => simp
  | cons c cs ih =>
    simp only [List.foldl_cons, List.length_cons]
    rw [ih, ih (0 * 4 + _)]
    ring

theorem kmerValue_cons (c : Char) (cs : List Char) :
    kmerValue (c :: cs) = (baseCode c).getD 0 * 4 ^ cs.length + kmerValue cs := by
  have := kmerValue_foldl cs (0 * 4 + (baseCode c).getD 0)
  simp only [kmerValue, List.foldl_cons] at this ⊢
  rw [this]; simp

theorem kmerValue_lt (s : List Char) : kmerValue s < 4 ^ s.length := by
  induction s with
  | nil => simp [kmerValue]
  | cons c cs ih =>
    rw [kmerValue_cons, List.length_cons, pow_succ]
    have hb : (baseCode c).getD 0 < 4 := by
      cases hc : baseCode c with
      | none => simp
      | some b => simpa using baseCode_lt hc
    nlinarith

theorem encodeKmerFrom_valid (s : List Char) (e : Nat)
    (hv : ∀ c ∈ s, isNucleotide c = true) (hb : (e + 1) * 4 ^ s.length ≤ 2 ^ 32) :
    encodeKmerFrom s e = e * 4 ^ s.length + kmerValue s := by
  induction s generalizing e with
  | nil => simp [encodeKmerFrom, kmerValue]
  | cons c cs ih =>
    obtain ⟨b, hc⟩ := baseCode_isSome (hv c (List.mem_cons_self _ _))
    have hb4 := baseCode_lt hc
    have hpos : 0 < 4 ^ cs.length := by positivity
    rw [List.length_cons, pow_succ] at hb
    have he : e * 4 < 2 ^ 32 := by nlinarith
    have hnext : (e * 4 + b + 1) * 4 ^ cs.length ≤ 2 ^ 32 := by
      have : (e * 4 + b + 1) * 4 ^ cs.length ≤ (e * 4 + 4) * 4 ^ cs.length :=
        Nat.mul_le_mul_right _ (by omega)
      nlinarith
    unfold encodeKmerFrom
    simp only [hc]
    rw [shift_or_eq he hb4, ih _ (fun d hd => hv d (List.mem_cons_of_mem _ hd)) hnext,
      kmerValue_cons, hc, List.length_cons, pow_succ]
    simp; ring

theorem encodeKmer_valid (s : List Char) (hv : ∀ c ∈ s, isNucleotide c = true)
    (hk : s.length ≤ 16) : encodeKmer s = kmerValue s := by
  have hp : 4 ^ s.length ≤ 4 ^ 16 := Nat.pow_le_pow_right (by norm_num) hk
  have := encodeKmerFrom_valid s 0 hv (by simpa using hp)
  simpa [encodeKmer] using this

theorem encodeKmer_invalid (s : List Char) (h : ∃ c ∈ s, isNucleotide c = false) :
    encodeKmer s = 0 :=
  encodeKmerFrom_invalid s 0 h

/-! ## Lemmas: index -/

theorem charAt_natCast (s : List Char) (n : Nat) (h : n < s.length) :
    charAt s (n : Int) = s.get ⟨n, h⟩ := by
  simp [charAt, List.getD_eq_getElem?_getD, List.getElem?_eq_getElem h]

theorem substr_length (seq : List Char) (i k : Nat) (h : i + k ≤ seq.length) :
    (substr seq i k).length = k := by
  simp [substr]; omega

theorem mem_substr_iff (seq : List Char) (i k : Nat) (h : i + k ≤ seq.length) (c : Char) :
    c ∈ substr seq i k ↔ ∃ j, j < k ∧ charAt seq ((i : Int) + (j : Int)) = c := by
  constructor
  · intro hc
    obtain ⟨j, hj, rfl⟩ := List.getElem_of_mem hc
    have hjk : j < k := by simpa [substr_length seq i k h] using hj
    refine ⟨j, hjk, ?_⟩
    have : ((i : Int) + (j : Int)) = ((i + j : Nat) : Int) := by push_cast; rfl
    rw [this, charAt_natCast seq (i + j) (by omega)]
    simp [substr, List.getElem_take, List.getElem_drop]
  · rintro ⟨j, hj, rfl⟩
    have : ((i : Int) + (j : Int)) = ((i + j : Nat) : Int) := by push_cast; rfl
    rw [this, charAt_natCast seq (i + j) (by omega)]
    have hlen : j < (substr seq i k).length := by rw [substr_length seq i k h]; exact hj
    have : (substr seq i k)[j] = seq.get ⟨i + j, by omega⟩ := by
      simp [substr, List.getElem_take, List.getElem_drop]
    rw [← this]
    exact List.getElem_mem hlen

theorem windowValid_eq (seq : List Char) (i k : Nat) (h : i + k ≤ seq.length) :
    windowValid seq i k = (substr seq i k).all isNucleotide := by
  rw [Bool.eq_iff_iff]
  simp only [windowValid, List.all_eq_true, List.mem_range]
  constructor
  · intro hw c hc
    obtain ⟨j, hj, rfl⟩ := (mem_substr_iff seq i k h c).1 hc
    exact hw j hj
  · intro hs j hj
    exact hs _ ((mem_substr_iff seq i k h _).2 ⟨j, hj, rfl⟩)

theorem indexPosition_eq (seq : Sequence) (k : Nat) (index : KmerIndex) (i : Nat)
    (h : i + k ≤ seq.seq.length) :
    indexPosition seq k index i =
      if (substr seq.seq i k).all isNucleotide = true then
        index.pushBack (encodeKmer (substr seq.seq i k)) (seq.index, (i : Int))
      else index := by
  have hg : getKmerAt seq.seq i k = encodeKmer (substr seq.seq i k) := by
    simp [getKmerAt, Nat.not_lt.2 h]
  unfold indexPosition
  simp only [hg, windowValid_eq seq.seq i k h]
  by_cases hv : (substr seq.seq i k).all isNucleotide = true
  · simp [hv]
  · have hinv : ∃ c ∈ substr seq.seq i k, isNucleotide c = false := by
      simpa [List.all_eq_true] using hv
    have hk : k > 0 := by
      obtain ⟨c, hc, _⟩ := hinv
      have := List.length_pos_of_mem hc
      rwa [substr_length seq.seq i k h] at this
    simp [hv, encodeKmer_invalid _ hinv, hk]

theorem find_pushBack (index : KmerIndex) (key : Nat) (occ : Occurrence) (K : Nat) :
    (index.pushBack key occ).find K =
      if K = key then some (index.occs K ++ [occ]) else index.find K := by
  induction index with
  | nil =>
    by_cases hK : K = key
    · subst hK; simp [KmerIndex.pushBack, KmerIndex.find, KmerIndex.occs]
    · simp [KmerIndex.pushBack, KmerIndex.find, hK, Ne.symm hK]
  | cons p rest ih =>
    obtain ⟨k', l⟩ := p
    by_cases hk : k' = key
    · subst hk
      by_cases hK : K = k'
      · subst hK; simp [KmerIndex.pushBack, KmerIndex.find, KmerIndex.occs]
      · simp [KmerIndex.pushBack, KmerIndex.find, hK, Ne.symm hK]
    · by_cases hK : K = key
      · subst hK
        simp [KmerIndex.pushBack, KmerIndex.find, KmerIndex.occs, hk, ih] 
      · by_cases hK2 : k' = K
        · simp [KmerIndex.pushBack, KmerIndex.find, hk, hK, hK2]
        · simp [KmerIndex.pushBack, KmerIndex.find, hk, hK, hK2, ih]

theorem occs_pushBack (index : KmerIndex) (key : Nat) (occ : Occurrence) (K : Nat) :
    (index.pushBack key occ).occs K =
      if K = key then index.occs K ++ [occ] else index.occs K := by
  unfold KmerIndex.occs
  rw [find_pushBack]
  split_ifs <;> simp [KmerIndex.occs]

theorem occs_foldl_indexPosition (seq : Sequence) (k : Nat) (K : Nat) (n : Nat)
    (hn : n ≤ seq.seq.length + 1 - k) (index : KmerIndex) :
    ((List.range n).foldl (indexPosition seq k) index).occs K =
      index.occs K ++ List.map (fun (i : Nat) => (seq.index, (i : Int)))
        ((List.range n).filter (windowHasKey seq k K)) := by
  induction n with
  | zero => simp
  | succ n ih =>
    have hin : n + k ≤ seq.seq.length := by omega
    rw [List.range_succ, List.foldl_append, List.filter_append, List.map_append,
      ← List.append_assoc, ← ih (by omega)]
    simp only [List.foldl_cons, List.foldl_nil]
    rw [indexPosition_eq seq k _ n hin]
    by_cases hv : (substr seq.seq n k).all isNucleotide = true
    · rw [if_pos hv, occs_pushBack]
      by_cases hK : K = encodeKmer (substr seq.seq n k)
      · simp [List.filter_cons, windowHasKey, ← isNucleotide_eq, hv, hK]
      · simp [List.filter_cons, windowHasKey, ← isNucleotide_eq, hv, hK, Ne.symm hK]
    · rw [if_neg hv]
      simp [List.filter_cons, windowHasKey, ← isNucleotide_eq, hv]

theorem occs_indexSequence (seq : Sequence) (k K : Nat) (index : KmerIndex) :
    (indexSequence seq k index).occs K = index.occs K ++ seqOccurrences seq k K :=
  occs_foldl_indexPosition seq k K _ (Nat.le_refl _) index

theorem occs_foldl_indexSequence (database : List Sequence) (k K : Nat) (index : KmerIndex) :
    (database.foldl (fun index seq => indexSequence seq k index) index).occs K =
      index.occs K ++ dbOccurrences database k K := by
  induction database generalizing index with
  | nil => simp [dbOccurrences]
  | cons s rest ih =>
    rw [List.foldl_cons, ih, occs_indexSequence]
    simp [dbOccurrences, List.flatMap_cons]

theorem occs_buildIndex (database : List Sequence) (k K : Nat) :
    (buildIndex database k).occs K = dbOccurrences database k K := by
  unfold buildIndex
  rw [occs_foldl_indexSequence]
  simp [KmerIndex.occs, KmerIndex.find]

/-! ## Lemmas: enumeration and decoder -/

theorem mem_dbOccurrences {database : List Sequence} {k K : Nat} {s i : Int} :
    (s, i) ∈ dbOccurrences database k K ↔
      ∃ seq ∈ database, ∃ n : Nat, n + k ≤ seq.seq.length ∧
        (∀ c ∈ substr seq.seq n k, c ∈ alphabet) ∧ encodeKmer (substr seq.seq n k) = K ∧
        s = seq.index ∧ i = (n : Int) := by
  simp only [dbOccurrences, seqOccurrences, windowHasKey, List.mem_flatMap, List.mem_map,
    List.mem_filter, List.mem_range, Bool.and_eq_true, List.all_eq_true, decide_eq_true_eq,
    beq_iff_eq, Prod.mk.injEq]
  constructor
  · rintro ⟨seq, hseq, n, ⟨hn, hv, hK⟩, hs, hi⟩
    exact ⟨seq, hseq, n, by omega, hv, hK, hs.symm, hi.symm⟩
  · rintro ⟨seq, hseq, n, hn, hv, hK, hs, hi⟩
    exact ⟨seq, hseq, n, ⟨by omega, hv, hK⟩, hs.symm, hi.symm⟩

theorem baseDigit_eq {c : Char} (hc : c ∈ upperAlphabet) :
    baseCode c = some (baseDigit c) ∧ baseDigit c < 4 ∧ digitBase (baseDigit c) = c := by
  simp only [upperAlphabet, List.mem_cons, List.mem_singleton, List.not_mem_nil, or_false] at hc
  rcases hc with rfl | rfl | rfl | rfl <;> decide

theorem upper_subset {c : Char} (hc : c ∈ upperAlphabet) : c ∈ alphabet := by
  simp only [upperAlphabet, List.mem_cons, List.mem_singleton, List.not_mem_nil, or_false] at hc
  rcases hc with rfl | rfl | rfl | rfl <;> decide

theorem foldKmer_foldl (s : List Char) (hs : ∀ c ∈ s, c ∈ upperAlphabet) (e : Nat) :
    s.foldl (fun acc c => (acc <<< 2) ||| baseDigit c) e =
      s.foldl (fun acc c => acc * 4 + (baseCode c).getD 0) e := by
  induction s generalizing e with
  | nil => rfl
  | cons c cs ih =>
    obtain ⟨h1, h2, _⟩ := baseDigit_eq (hs c (List.mem_cons_self _ _))
    simp only [List.foldl_cons, h1, Option.getD_some]
    have h3 := Nat.mul_add_lt_is_or (i := 2) (b := baseDigit c) (by simpa using h2) e
    have h4 : e <<< 2 = 2 ^ 2 * e := by simp [Nat.shiftLeft_eq, Nat.mul_comm]
    rw [h4, ← h3, ih (fun d hd => hs d (List.mem_cons_of_mem _ hd))]
    congr 1; ring

theorem foldKmer_eq (s : List Char) (hs : ∀ c ∈ s, c ∈ upperAlphabet) :
    foldKmer s = kmerValue s :=
  foldKmer_foldl s hs 0

theorem decodeKmer_kmerValue (s : List Char) (hs : ∀ c ∈ s, c ∈ upperAlphabet) :
    decodeKmer s.length (kmerValue s) = s := by
  induction s using List.reverseRecOn with
  | nil => rfl
  | append_singleton cs c ih =>
    obtain ⟨h1, h2, h3⟩ := baseDigit_eq (hs c (by simp))
    have hv : kmerValue (cs ++ [c]) = kmerValue cs * 4 + baseDigit c := by
      simp [kmerValue, List.foldl_append, h1]
    rw [List.length_append, List.length_singleton, decodeKmer, hv]
    have e1 : (kmerValue cs * 4 + baseDigit c) / 4 = kmerValue cs := by omega
    have e2 : (kmerValue cs * 4 + baseDigit c) % 4 = baseDigit c := by omega
    rw [e1, e2, h3, ih (fun d hd => hs d (by simp [hd]))]

/-! ## Claims: codec and index -/

/-- C1 (index soundness). For a database whose entries carry `index` equal to their list
position and `k` in `[1,16]`, every occurrence `(s, i)` stored under key `K` by `buildIndex`
has `0 ≤ i`, names an entry `database[s]` with `i + k ≤ |database[s].seq|`, the window
`database[s].seq[i .. i+k)` consists of characters of `A C G T a c g t` only, and
`encodeKmer` of that window is `K`, a number below `4^k`. -/
theorem buildIndex_sound (database : List Sequence) (k : Nat)
    (hidx : ∀ (n : Nat) (h : n < database.length), (database.get ⟨n, h⟩).index = (n : Int))
    (_hk1 : 1 ≤ k) (hk16 : k ≤ 16) (K : Nat) (s i : Int)
    (hmem : (s, i) ∈ (buildIndex database k).occs K) :
    0 ≤ s ∧ 0 ≤ i ∧ ∃ seq, database[s.toNat]? = some seq ∧
      i + (k : Int) ≤ (seq.seq.length : Int) ∧
      (substr seq.seq i.toNat k).length = k ∧
      (∀ c ∈ substr seq.seq i.toNat k, c ∈ alphabet) ∧
      encodeKmer (substr seq.seq i.toNat k) = K ∧ K < 4 ^ k := by
  rw [occs_buildIndex] at hmem
  obtain ⟨seq, hseq, n, hn, hv, hK, rfl, rfl⟩ := mem_dbOccurrences.1 hmem
  obtain ⟨m, hm, rfl⟩ := List.getElem_of_mem hseq
  have him : (database.get ⟨m, hm⟩).index = (m : Int) := hidx m hm
  simp only [List.get_eq_getElem] at him
  refine ⟨by rw [him]; exact Int.natCast_nonneg m, Int.natCast_nonneg n, database[m], ?_, ?_, ?_, ?_, ?_⟩
  · rw [him, Int.toNat_natCast]; exact List.getElem?_eq_getElem hm
  · exact_mod_cast hn
  · rw [Int.toNat_natCast]; exact substr_length _ _ _ hn
  · rw [Int.toNat_natCast]; exact hv
  · rw [Int.toNat_natCast]
    refine ⟨hK, ?_⟩
    have hlen := substr_length _ _ _ hn
    have hv2 : ∀ c ∈ substr database[m].seq n k, isNucleotide c = true :=
      fun c hc => (isNucleotide_iff c).2 (hv c hc)
    rw [← hK, encodeKmer_valid _ hv2 (by omega)]
    simpa [hlen] using kmerValue_lt (substr database[m].seq n k)

/-- Witness for C1 on the database `[AAACCCGGGTTT]`, `k = 3`, key 21 (`CCC`), occurrence
`(0, 3)`. -/
theorem buildIndex_sound_witness :
    0 ≤ (0 : Int) ∧ 0 ≤ (3 : Int) ∧
      ∃ seq, [Sequence.mk [] [] "AAACCCGGGTTT".toList 0][(0 : Int).toNat]? = some seq ∧
        (3 : Int) + ((3 : Nat) : Int) ≤ (seq.seq.length : Int) ∧
        (substr seq.seq (3 : Int).toNat 3).length = 3 ∧
        (∀ c ∈ substr seq.seq (3 : Int).toNat 3, c ∈ alphabet) ∧
        encodeKmer (substr seq.seq (3 : Int).toNat 3) = 21 ∧ 21 < 4 ^ 3 :=
  buildIndex_sound [Sequence.mk [] [] "AAACCCGGGTTT".toList 0] 3
    (by intro n h; have : n = 0 := by simpa using h
        subst this; rfl)
    (by decide) (by decide) 21 0 3 (by decide)

/-- C2 (index completeness and order). For `k` in `[1,16]` the list stored by `buildIndex`
under each key `K` is exactly the enumeration `dbOccurrences`: the pairs `(seq.index, i)` in
database order and then ascending `i`, over the start positions `i` in `[0, |seq| - k]` whose
window is over the alphabet and encodes to `K`; and every such window is found under the key
that is its base-4 value (0 for an all-A window). -/
theorem buildIndex_complete (database : List Sequence) (k : Nat) (_hk1 : 1 ≤ k) (hk16 : k ≤ 16)
    (K : Nat) :
    (buildIndex database k).occs K = dbOccurrences database k K ∧
    (∀ seq ∈ database, ∀ i : Nat, i + k ≤ seq.seq.length →
      (∀ c ∈ substr seq.seq i k, c ∈ alphabet) →
      (seq.index, (i : Int)) ∈ (buildIndex database k).occs (kmerValue (substr seq.seq i k))) := by
  refine ⟨occs_buildIndex database k K, ?_⟩
  intro seq hseq i hi hv
  have hlen := substr_length _ _ _ hi
  have hv2 : ∀ c ∈ substr seq.seq i k, isNucleotide c = true :=
    fun c hc => (isNucleotide_iff c).2 (hv c hc)
  rw [occs_buildIndex, ← encodeKmer_valid _ hv2 (by omega)]
  exact mem_dbOccurrences.2 ⟨seq, hseq, i, hi, hv, rfl, rfl, rfl⟩

/-- Witness for C2 on the database `[AAAA, CAAAN]` with `k = 3` and the all-A key 0. -/
theorem buildIndex_complete_witness :
    (buildIndex [Sequence.mk [] [] "AAAA".toList 0, Sequence.mk [] [] "CAAAN".toList 1] 3).occs 0
      = [(0, 0), (0, 1), (1, 1)] :=
  (buildIndex_complete [Sequence.mk [] [] "AAAA".toList 0, Sequence.mk [] [] "CAAAN".toList 1] 3
    (by decide) (by decide) 0).1.trans (by decide)

/-- C3 (invalid windows are never indexed). For every database in which the `index` field of
an entry is its position in the vector (`fasta.h`; `parseDatabase` assigns `seq_index++`),
every `k ≥ 1`, every sequence of the database and every start position `i` whose length-`k`
window contains a character outside `A C G T a c g t`, the pair `(seq.index, i)` is in no
occurrence list of `buildIndex database k`. -/
theorem invalid_window_not_indexed (database : List Sequence) (k : Nat)
    (hidx : ∀ (n : Nat) (h : n < database.length), (database.get ⟨n, h⟩).index = (n : Int))
    (_hk1 : 1 ≤ k)
    (seq : Sequence) (hseq : seq ∈ database) (i : Nat) (_hi : i + k ≤ seq.seq.length)
    (hbad : ∃ c ∈ substr seq.seq i k, c ∉ alphabet) (K : Nat) :
    (seq.index, (i : Int)) ∉ (buildIndex database k).occs K := by
  intro hmem
  rw [occs_buildIndex] at hmem
  obtain ⟨seq2, hseq2, n, _, hv, _, hs, hn⟩ := mem_dbOccurrences.1 hmem
  have heq : seq = seq2 := by
    obtain ⟨m1, hm1, rfl⟩ := List.getElem_of_mem hseq
    obtain ⟨m2, hm2, rfl⟩ := List.getElem_of_mem hseq2
    have h1 : (database.get ⟨m1, hm1⟩).index = (m1 : Int) := hidx m1 hm1
    have h2 : (database.get ⟨m2, hm2⟩).index = (m2 : Int) := hidx m2 hm2
    simp only [List.get_eq_getElem] at h1 h2
    have h12 : m1 = m2 := by
      have : (m1 : Int) = (m2 : Int) := by rw [← h1, ← h2]; exact hs
      exact_mod_cast this
    subst h12
    rfl
  subst heq
  have hin : i = n := by exact_mod_cast hn
  subst hin
  obtain ⟨c, hc, hcn⟩ := hbad
  exact hcn (hv c hc)

/-- Witness for C3: the sequence `ACGTN` with `k = 5` has its only window spoilt by `N`;
the pair `(0, 0)` is under no key (here key 0), and the index built is empty. -/
theorem invalid_window_not_indexed_witness :
    ((0 : Int), (0 : Int)) ∉ (buildIndex [Sequence.mk [] [] "ACGTN".toList 0] 5).occs 0 ∧
      buildIndex [Sequence.mk [] [] "ACGTN".toList 0] 5 = [] :=
  ⟨invalid_window_not_indexed [Sequence.mk [] [] "ACGTN".toList 0] 5
    (by intro n h; have : n = 0 := by simpa using h
        subst this; rfl)
    (by decide)
    (Sequence.mk [] [] "ACGTN".toList 0) (by simp) 0 (by decide) ⟨'N', by decide, by decide⟩ 0,
   by decide⟩

/-- C4 (encode/decode round trip). For `k` in `[1,16]` and strings `s`, `t` of length `k` over
the uppercase alphabet, `encodeKmer s` is the left-to-right 2-bit fold `foldKmer s`, is below
`4^k`, the canonical decoder returns `s` from it, and equal keys force `s = t`. -/
theorem encodeKmer_roundtrip (k : Nat) (s t : List Char) (_hk1 : 1 ≤ k) (hk16 : k ≤ 16)
    (hs : s.length = k) (hsU : ∀ c ∈ s, c ∈ upperAlphabet)
    (ht : t.length = k) (htU : ∀ c ∈ t, c ∈ upperAlphabet) :
    encodeKmer s = foldKmer s ∧ encodeKmer s < 4 ^ k ∧ decodeKmer k (encodeKmer s) = s ∧
      (encodeKmer s = encodeKmer t → s = t) := by
  have es : encodeKmer s = kmerValue s :=
    encodeKmer_valid s (fun c hc => (isNucleotide_iff c).2 (upper_subset (hsU c hc))) (by omega)
  have et : encodeKmer t = kmerValue t :=
    encodeKmer_valid t (fun c hc => (isNucleotide_iff c).2 (upper_subset (htU c hc))) (by omega)
  have ds := decodeKmer_kmerValue s hsU
  have dt := decodeKmer_kmerValue t htU
  rw [hs] at ds
  rw [ht] at dt
  refine ⟨by rw [es, foldKmer_eq s hsU], ?_, by rw [es, ds], ?_⟩
  · rw [es, ← hs]; exact kmerValue_lt s
  · intro h
    rw [es, et] at h
    rw [← ds, ← dt, h]

/-- Witness for C4 at `k = 4`, `s = ACGT`, `t = ACGA`. -/
theorem encodeKmer_roundtrip_witness :
    encodeKmer "ACGT".toList = foldKmer "ACGT".toList ∧ encodeKmer "ACGT".toList < 4 ^ 4 ∧
      decodeKmer 4 (encodeKmer "ACGT".toList) = "ACGT".toList ∧
      (encodeKmer "ACGT".toList = encodeKmer "ACGA".toList → "ACGT".toList = "ACGA".toList) :=
  encodeKmer_roundtrip 4 "ACGT".toList "ACGA".toList (by decide) (by decide) (by decide)
    (by decide) (by decide) (by decide)

/-- C5 as stated fails: on `ACGTN`, which contains the letter `N` outside the alphabet,
`encodeKmer` returns the number 0, the same value as the key of the all-A 5-mer. -/
theorem encodeKmer_sentinel_counterexample :
    'N' ∈ "ACGTN".toList ∧ 'N' ∉ alphabet ∧ encodeKmer "ACGTN".toList = 0 ∧
      (∀ c ∈ "AAAAA".toList, c ∈ alphabet) ∧ encodeKmer "AAAAA".toList = 0 := by
  decide

/-- C5 (amended). For every string that contains a character outside `A C G T a c g t`,
`encodeKmer` returns 0. -/
theorem encodeKmer_invalid_returns_zero (s : List Char) (h : ∃ c ∈ s, c ∉ alphabet) :
    encodeKmer s = 0 := by
  obtain ⟨c, hc, hcn⟩ := h
  exact encodeKmer_invalid s ⟨c, hc, (isNucleotide_false_iff c).2 hcn⟩

/-- Witness for C5 (amended) on `GATTACA-N`. -/
theorem encodeKmer_invalid_returns_zero_witness : encodeKmer "GATTACANC".toList = 0 :=
  encodeKmer_invalid_returns_zero "GATTACANC".toList ⟨'N', by decide, by decide⟩

/-! ## Lemmas: the argument loop of `main` -/

/-- Values of `stoi`: signs, leading white space and trailing text, the `int` bounds, and
the two exceptions. -/
theorem stoi_examples :
    stoi "11".toList = some 11 ∧ stoi "0".toList = some 0 ∧ stoi "17".toList = some 17 ∧
      stoi "-3".toList = some (-3) ∧ stoi " 16x".toList = some 16 ∧
      stoi "99999999999".toList = none ∧ stoi "abc".toList = none ∧
      stoi "2147483647".toList = some 2147483647 ∧ stoi "2147483648".toList = none := by
  decide

theorem argLoop_nil (a : MainArgs) : argLoop [] a = ArgResult.done a := rfl

theorem argLoop_single (arg : List Char) (a : MainArgs) :
    argLoop [arg] a =
      if arg = "--help".toList ∨ arg = "-h".toList then ArgResult.exited MainExit.help
      else ArgResult.done a := rfl

theorem argLoop_cons (arg value : List Char) (rest : List (List Char)) (a : MainArgs) :
    argLoop (arg :: value :: rest) a =
      if arg = "--db".toList then argLoop rest (MainArgs.mk value a.query_file a.k a.top_n)
      else if arg = "--query".toList then
        argLoop rest (MainArgs.mk a.db_file value a.k a.top_n)
      else if arg = "--k".toList then
        match stoi value with
        | none => ArgResult.terminated
        | some k =>
          if k < 1 ∨ k > 16 then ArgResult.exited MainExit.kOutOfRange
          else argLoop rest (MainArgs.mk a.db_file a.query_file k a.top_n)
      else if arg = "--top".toList then
        match stoi value with
        | none => ArgResult.terminated
        | some top_n =>
          if top_n < 0 then ArgResult.exited MainExit.topNegative
          else argLoop rest (MainArgs.mk a.db_file a.query_file a.k top_n)
      else if arg = "--help".toList ∨ arg = "-h".toList then ArgResult.exited MainExit.help
      else argLoop (value :: rest) a := rfl

/-- The argument loop at a `--k` option that has a value. -/
theorem argLoop_k_option (value : List Char) (rest : List (List Char)) (a : MainArgs) :
    argLoop ("--k".toList :: value :: rest) a =
      match stoi value with
      | none => ArgResult.terminated
      | some k =>
        if k < 1 ∨ k > 16 then ArgResult.exited MainExit.kOutOfRange
        else argLoop rest (MainArgs.mk a.db_file a.query_file k a.top_n) := by
  rw [argLoop_cons, if_neg (by decide), if_neg (by decide), if_pos rfl]

/-- The argument loop keeps `k` within `[1,16]`. -/
theorem argLoop_k_range (n : Nat) : ∀ (args : List (List Char)) (a a1 : MainArgs),
    args.length ≤ n → argLoop args a = ArgResult.done a1 → 1 ≤ a.k ∧ a.k ≤ 16 →
    1 ≤ a1.k ∧ a1.k ≤ 16 := by
  induction n with
  | zero =>
    intro args a a1 hlen h hk
    have : args = [] := List.length_eq_zero.1 (by omega)
    subst this
    rw [argLoop_nil] at h
    cases h
    exact hk
  | succ n ih =>
    intro args a a1 hlen h hk
    match args, hlen, h with
    | [], _, h =>
      rw [argLoop_nil] at h
      cases h
      exact hk
    | [arg], _, h =>
      rw [argLoop_single] at h
      split_ifs at h
      cases h
      exact hk
    | arg :: value :: rest, hlen, h =>
      have hl1 : rest.length ≤ n := by simp at hlen; omega
      have hl2 : (value :: rest).length ≤ n := by simp at hlen ⊢; omega
      rw [argLoop_cons] at h
      split_ifs at h with h1 h2 h3 h4 h5
      · exact ih rest _ a1 hl1 h hk
      · exact ih rest _ a1 hl1 h hk
      · cases hs : stoi value with
        | none => rw [hs] at h; cases h
        | some k =>
          rw [hs] at h
          simp only at h
          split_ifs at h with h6
          exact ih rest _ a1 hl1 h (by simp only; omega)
      · cases hs : stoi value with
        | none => rw [hs] at h; cases h
        | some t =>
          rw [hs] at h
          simp only at h
          split_ifs at h with h6
          exact ih rest _ a1 hl1 h hk
      · exact ih (value :: rest) a a1 hl2 h hk

/-- The argument loop leaves with the `k` error only at a `--k` option whose value
`std::stoi` converts to an `int` outside `[1,16]`. -/
theorem argLoop_kOutOfRange (n : Nat) : ∀ (args : List (List Char)) (a : MainArgs),
    args.length ≤ n → argLoop args a = ArgResult.exited MainExit.kOutOfRange →
    ∃ (pre : List (List Char)) (value : List Char) (post : List (List Char)) (k : Int),
      args = pre ++ "--k".toList :: value :: post ∧ stoi value = some k ∧ (k < 1 ∨ k > 16) := by
  induction n with
  | zero =>
    intro args a hlen h
    have : args = [] := List.length_eq_zero.1 (by omega)
    subst this
    rw [argLoop_nil] at h
    cases h
  | succ n ih =>
    intro args a hlen h
    match args, hlen, h with
    | [], _, h =>
      rw [argLoop_nil] at h
      cases h
    | [arg], _, h =>
      rw [argLoop_single] at h
      split_ifs at h
      cases h
    | arg :: value :: rest, hlen, h =>
      have hl1 : rest.length ≤ n := by simp at hlen; omega
      have hl2 : (value :: rest).length ≤ n := by simp at hlen ⊢; omega
      rw [argLoop_cons] at h
      split_ifs at h with h1 h2 h3 h4 h5
      · obtain ⟨pre, v, post, k, e, hs, hk⟩ := ih rest _ hl1 h
        exact ⟨arg :: value :: pre, v, post, k, by rw [e]; rfl, hs, hk⟩
      · obtain ⟨pre, v, post, k, e, hs, hk⟩ := ih rest _ hl1 h
        exact ⟨arg :: value :: pre, v, post, k, by rw [e]; rfl, hs, hk⟩
      · cases hs : stoi value with
        | none => rw [hs] at h; cases h
        | some k =>
          rw [hs] at h
          simp only at h
          split_ifs at h with h6
          · exact ⟨[], value, rest, k, by rw [h3]; rfl, hs, h6⟩
          · obtain ⟨pre, v, post, k2, e, hs2, hk⟩ := ih rest _ hl1 h
            exact ⟨arg :: value :: pre, v, post, k2, by rw [e]; rfl, hs2, hk⟩
      · cases hs : stoi value with
        | none => rw [hs] at h; cases h
        | some t =>
          rw [hs] at h
          simp only at h
          split_ifs at h with h6
          · cases h
          · obtain ⟨pre, v, post, k2, e, hs2, hk⟩ := ih rest _ hl1 h
            exact ⟨arg :: value :: pre, v, post, k2, by rw [e]; rfl, hs2, hk⟩
      · cases h
      · obtain ⟨pre, v, post, k, e, hs, hk⟩ := ih (value :: rest) a hl2 h
        exact ⟨arg :: pre, v, post, k, by rw [e]; rfl, hs, hk⟩

/-! ## Claims: the `k` check -/

/-- C6 as stated fails: `buildIndex` has no parameter check; with `k = 17` it stores the
17-mer of a 17-letter sequence under a wrapped 32-bit key, and with `k = 0` it stores every
position `0 .. |seq|` under key 0. -/
theorem buildIndex_unchecked_counterexample :
    buildIndex [Sequence.mk [] [] "ACGTACGTACGTACGTC".toList 0] 17 = [(1819044973, [(0, 0)])] ∧
    buildIndex [Sequence.mk [] [] "AN".toList 0] 0 = [(0, [(0, 0), (0, 1), (0, 2)])] := by
  decide

/-- C6 (amended). `buildIndex` itself makes no check on `k`; the range check is made by its
only caller.  Whenever `main` reaches step 2 it calls `buildIndex(database, k)` with
`1 ≤ k ≤ 16` and a non-empty database.  `main` returns with `Error: k must be between 1
and 16` only when its argument loop reads a `--k` option whose value `std::stoi` converts to
an `int` outside `[1,16]`, and it then does so whatever the files hold, before any file is
read or index built.  A `--k` option first on the command line with such a value (0 or 17,
say) gives that error; with `--db`, `--query` and then `--k` with a value in `[1,16]`, or no
`--k` at all (`k = 11`), and non-empty inputs, `main` builds the index with that `k`. -/
theorem mainToIndex_k_guard (parseDatabase : List Char → List Sequence)
    (parseQueries : List Char → List Query) (argv : List (List Char)) :
    (∀ (database : List Sequence) (k : Int) (index : KmerIndex),
      mainToIndex parseDatabase parseQueries argv = MainOutcome.indexBuilt database k index →
      1 ≤ k ∧ k ≤ 16 ∧ index = buildIndex database k.toNat ∧ database ≠ []) ∧
    (mainToIndex parseDatabase parseQueries argv = MainOutcome.exited MainExit.kOutOfRange →
      (∃ (pre : List (List Char)) (value : List Char) (post : List (List Char)) (k : Int),
        argv.tail = pre ++ "--k".toList :: value :: post ∧ stoi value = some k ∧
          (k < 1 ∨ k > 16)) ∧
      ∀ (parseDatabase2 : List Char → List Sequence) (parseQueries2 : List Char → List Query),
        mainToIndex parseDatabase2 parseQueries2 argv =
          MainOutcome.exited MainExit.kOutOfRange) ∧
    (∀ (program value : List Char) (rest : List (List Char)) (k : Int),
      argv = program :: "--k".toList :: value :: rest → stoi value = some k →
      (k < 1 ∨ k > 16) →
      mainToIndex parseDatabase parseQueries argv = MainOutcome.exited MainExit.kOutOfRange) ∧
    (∀ (program db_file query_file value : List Char) (k : Int),
      argv = [program, "--db".toList, db_file, "--query".toList, query_file, "--k".toList,
        value] →
      stoi value = some k → 1 ≤ k → k ≤ 16 → db_file ≠ [] → query_file ≠ [] →
      parseDatabase db_file ≠ [] → parseQueries query_file ≠ [] →
      mainToIndex parseDatabase parseQueries argv =
        MainOutcome.indexBuilt (parseDatabase db_file) k
          (buildIndex (parseDatabase db_file) k.toNat)) ∧
    (∀ (program db_file query_file : List Char),
      argv = [program, "--db".toList, db_file, "--query".toList, query_file] →
      db_file ≠ [] → query_file ≠ [] →
      parseDatabase db_file ≠ [] → parseQueries query_file ≠ [] →
      mainToIndex parseDatabase parseQueries argv =
        MainOutcome.indexBuilt (parseDatabase db_file) 11
          (buildIndex (parseDatabase db_file) 11)) := by
  refine ⟨?_, ?_, ?_, ?_, ?_⟩
  · intro database k index h
    unfold mainToIndex at h
    cases hr : argLoop argv.tail (MainArgs.mk [] [] 11 2) with
    | exited e => rw [hr] at h; cases h
    | terminated => rw [hr] at h; cases h
    | done a =>
      rw [hr] at h
      simp only at h
      have hk := argLoop_k_range _ _ _ _ (le_refl _) hr (by decide)
      split_ifs at h with h1 h2 h3
      cases h
      refine ⟨hk.1, hk.2, rfl, ?_⟩
      intro he
      apply h2
      rw [he]
      rfl
  · intro h
    have key : argLoop argv.tail (MainArgs.mk [] [] 11 2) =
        ArgResult.exited MainExit.kOutOfRange := by
      unfold mainToIndex at h
      cases hr : argLoop argv.tail (MainArgs.mk [] [] 11 2) with
      | exited e =>
        rw [hr] at h
        simp only at h
        cases h
        rfl
      | terminated => rw [hr] at h; cases h
      | done a =>
        rw [hr] at h
        simp only at h
        split_ifs at h <;> cases h
    refine ⟨argLoop_kOutOfRange _ _ _ (le_refl _) key, ?_⟩
    intro pd2 pq2
    unfold mainToIndex
    rw [key]
  · intro program value rest k hargv hs hk
    subst hargv
    unfold mainToIndex
    rw [List.tail_cons, argLoop_k_option, hs]
    simp only [if_pos hk]
  · intro program db_file query_file value k hargv hs hk1 hk16 hd hq hpd hpq
    subst hargv
    unfold mainToIndex
    rw [List.tail_cons, argLoop_cons, if_pos rfl, argLoop_cons, if_neg (by decide),
      if_pos rfl, argLoop_k_option, hs]
    simp only
    rw [if_neg (by omega), argLoop_nil]
    simp only
    rw [if_neg (by simp [hd, hq]), if_neg (by simp [hpd]), if_neg (by simp [hpq])]
  · intro program db_file query_file hargv hd hq hpd hpq
    subst hargv
    unfold mainToIndex
    rw [List.tail_cons, argLoop_cons, if_pos rfl, argLoop_cons, if_neg (by decide),
      if_pos rfl, argLoop_nil]
    simp only
    rw [if_neg (by simp [hd, hq]), if_neg (by simp [hpd]), if_neg (by simp [hpq])]
    rfl

/-- Witness for C6 (amended): with `--k 11` the index is built with `k = 11`; `--k 0` and
`--k 17` return with the `k` error; `--k 99999999999` is terminated by the exception of
`std::stoi`; `--help` before `--k 17` returns first; an empty database returns with its own
error although `--k 5` was accepted. -/
theorem mainToIndex_k_guard_witness :
    mainToIndex (fun _ => [Sequence.mk [] [] "ACGTACGTACGT".toList 0])
        (fun _ => [Query.mk [] "ACGT".toList])
        ["blastn".toList, "--db".toList, "db.fa".toList, "--query".toList, "q.fa".toList,
          "--k".toList, "11".toList] =
      MainOutcome.indexBuilt [Sequence.mk [] [] "ACGTACGTACGT".toList 0] 11
        (buildIndex [Sequence.mk [] [] "ACGTACGTACGT".toList 0] 11) ∧
    (1 ≤ (11 : Int) ∧ (11 : Int) ≤ 16 ∧
      buildIndex [Sequence.mk [] [] "ACGTACGTACGT".toList 0] 11 =
        buildIndex [Sequence.mk [] [] "ACGTACGTACGT".toList 0] (11 : Int).toNat ∧
      [Sequence.mk [] [] "ACGTACGTACGT".toList 0] ≠ []) ∧
    mainToIndex (fun _ => [Sequence.mk [] [] "ACGTACGTACGT".toList 0])
        (fun _ => [Query.mk [] "ACGT".toList])
        ["blastn".toList, "--db".toList, "db.fa".toList, "--query".toList, "q.fa".toList,
          "--k".toList, "0".toList] = MainOutcome.exited MainExit.kOutOfRange ∧
    mainToIndex (fun _ => [Sequence.mk [] [] "ACGTACGTACGT".toList 0])
        (fun _ => [Query.mk [] "ACGT".toList])
        ["blastn".toList, "--db".toList, "db.fa".toList, "--query".toList, "q.fa".toList,
          "--k".toList, "17".toList] = MainOutcome.exited MainExit.kOutOfRange ∧
    mainToIndex (fun _ => [Sequence.mk [] [] "ACGTACGTACGT".toList 0])
        (fun _ => [Query.mk [] "ACGT".toList])
        ["blastn".toList, "--db".toList, "db.fa".toList, "--query".toList, "q.fa".toList,
          "--k".toList, "99999999999".toList] = MainOutcome.terminated ∧
    mainToIndex (fun _ => [Sequence.mk [] [] "ACGTACGTACGT".toList 0])
        (fun _ => [Query.mk [] "ACGT".toList])
        ["blastn".toList, "--help".toList, "--k".toList, "17".toList] =
          MainOutcome.exited MainExit.help ∧
    mainToIndex (fun _ => []) (fun _ => [Query.mk [] "ACGT".toList])
        ["blastn".toList, "--k".toList, "5".toList, "--db".toList, "db.fa".toList,
          "--query".toList, "q.fa".toList] = MainOutcome.exited MainExit.emptyDatabase :=
  ⟨by decide,
    (mainToIndex_k_guard (fun _ => [Sequence.mk [] [] "ACGTACGTACGT".toList 0])
      (fun _ => [Query.mk [] "ACGT".toList])
      ["blastn".toList, "--db".toList, "db.fa".toList, "--query".toList, "q.fa".toList,
        "--k".toList, "11".toList]).1
      [Sequence.mk [] [] "ACGTACGTACGT".toList 0] 11
      (buildIndex [Sequence.mk [] [] "ACGTACGTACGT".toList 0] 11) (by decide),
    by decide, by decide, by decide, by decide, by decide⟩

/-! ## Lemmas: directional passes -/

theorem passStep_db_pos (db_seq query : List Char) (delta : Int) (st : PassState) :
    (passStep db_seq query delta st).db_pos = st.db_pos + delta := by
  unfold passStep; simp only; split_ifs <;> rfl

theorem passStep_q_pos (db_seq query : List Char) (delta : Int) (st : PassState) :
    (passStep db_seq query delta st).q_pos = st.q_pos + delta := by
  unfold passStep; simp only; split_ifs <;> rfl

theorem passStep_score (db_seq query : List Char) (delta : Int) (st : PassState) :
    (passStep db_seq query delta st).score =
      st.score + pairScore db_seq query (st.db_pos + delta) (st.q_pos + delta) := by
  unfold passStep pairScore; simp only; split_ifs <;> simp <;> omega

theorem passStep_best (db_seq query : List Char) (delta : Int) (st : PassState) :
    ((passStep db_seq query delta st).best_db = st.best_db ∧
      (passStep db_seq query delta st).best_q = st.best_q ∧
      (passStep db_seq query delta st).best_score = st.best_score ∧
      (passStep db_seq query delta st).score ≤ st.best_score) ∨
    ((passStep db_seq query delta st).best_db = st.db_pos + delta ∧
      (passStep db_seq query delta st).best_q = st.q_pos + delta ∧
      (passStep db_seq query delta st).best_score = (passStep db_seq query delta st).score ∧
      st.best_score < (passStep db_seq query delta st).score) := by
  unfold passStep; simp only; split_ifs <;> simp <;> omega

theorem rightLoop_succ (db_seq query : List Char) (n : Nat) (st : PassState) :
    rightLoop db_seq query (n + 1) st =
      if st.db_pos + 1 < (db_seq.length : Int) ∧ st.q_pos + 1 < (query.length : Int) then
        if (passStep db_seq query 1 st).score < (passStep db_seq query 1 st).best_score - 20 then
          passStep db_seq query 1 st
        else rightLoop db_seq query n (passStep db_seq query 1 st)
      else st := rfl

theorem leftLoop_succ (db_seq query : List Char) (n : Nat) (st : PassState) :
    leftLoop db_seq query (n + 1) st =
      if st.db_pos > 0 ∧ st.q_pos > 0 then
        if (passStep db_seq query (-1) st).score <
            (passStep db_seq query (-1) st).best_score - 20 then
          passStep db_seq query (-1) st
        else leftLoop db_seq query n (passStep db_seq query (-1) st)
      else st := rfl

theorem scoreLoop_succ (db_seq query : List Char) (db_end q_end : Int) (n : Nat)
    (db_pos q_pos total : Int) :
    scoreLoop db_seq query db_end q_end (n + 1) db_pos q_pos total =
      if db_pos ≤ db_end ∧ q_pos ≤ q_end then
        scoreLoop db_seq query db_end q_end n (db_pos + 1) (q_pos + 1)
          (total + pairScore db_seq query db_pos q_pos)
      else total := by
  unfold pairScore
  rw [scoreLoop]
  by_cases h : charAt db_seq db_pos = charAt query q_pos
  · simp only [h, if_true]
  · simp only [h, if_false]; rfl

theorem identityLoop_succ (db_seq query : List Char) (db_end q_end : Int) (n : Nat)
    (db_pos q_pos : Int) (mt : Int × Int) :
    identityLoop db_seq query db_end q_end (n + 1) db_pos q_pos mt =
      if db_pos ≤ db_end ∧ q_pos ≤ q_end then
        identityLoop db_seq query db_end q_end n (db_pos + 1) (q_pos + 1)
          (mt.1 + (if charAt db_seq db_pos = charAt query q_pos then 1 else 0), mt.2 + 1)
      else mt := by
  rw [identityLoop]
  by_cases h : charAt db_seq db_pos = charAt query q_pos
  · simp only [h, if_true]
  · simp only [h, if_false, add_zero]

/-- Invariants of the rightward loop: a property kept by every executed iteration holds of
the loop's result. -/
theorem rightLoop_induct (db_seq query : List Char) (P : PassState → Prop)
    (hstep : ∀ s, P s → s.db_pos + 1 < (db_seq.length : Int) →
      s.q_pos + 1 < (query.length : Int) → P (passStep db_seq query 1 s))
    (fuel : Nat) (st : PassState) (h0 : P st) : P (rightLoop db_seq query fuel st) := by
  induction fuel generalizing st with
  | zero => exact h0
  | succ n ih =>
    rw [rightLoop_succ]
    split_ifs with hc hb
    · exact hstep st h0 hc.1 hc.2
    · exact ih _ (hstep st h0 hc.1 hc.2)
    · exact h0

/-- Invariants of the leftward loop. -/
theorem leftLoop_induct (db_seq query : List Char) (P : PassState → Prop)
    (hstep : ∀ s, P s → s.db_pos > 0 → s.q_pos > 0 → P (passStep db_seq query (-1) s))
    (fuel : Nat) (st : PassState) (h0 : P st) : P (leftLoop db_seq query fuel st) := by
  induction fuel generalizing st with
  | zero => exact h0
  | succ n ih =>
    rw [leftLoop_succ]
    split_ifs with hc hb
    · exact hstep st h0 hc.1 hc.2
    · exact ih _ (hstep st h0 hc.1 hc.2)
    · exact h0

/-- With an iteration bound of at least `db_len - db_pos`, the rightward loop ends because
its condition fails or because of the drop test, never because the bound is used up. -/
theorem rightLoop_exit (db_seq query : List Char) (fuel : Nat) (st : PassState)
    (hf : (db_seq.length : Int) - st.db_pos ≤ (fuel : Int)) :
    ¬ ((rightLoop db_seq query fuel st).db_pos + 1 < (db_seq.length : Int) ∧
        (rightLoop db_seq query fuel st).q_pos + 1 < (query.length : Int)) ∨
      (rightLoop db_seq query fuel st).score <
        (rightLoop db_seq query fuel st).best_score - 20 := by
  induction fuel generalizing st with
  | zero =>
    left; simp only [rightLoop]; intro h
    have : (db_seq.length : Int) - st.db_pos ≤ 0 := by simpa using hf
    omega
  | succ n ih =>
    rw [rightLoop_succ]
    split_ifs with hc hb
    · right; exact hb
    · apply ih
      rw [passStep_db_pos]; push_cast at hf; omega
    · left; exact hc

/-- With an iteration bound of at least `db_pos`, the leftward loop ends because its
condition fails or because of the drop test. -/
theorem leftLoop_exit (db_seq query : List Char) (fuel : Nat) (st : PassState)
    (hf : st.db_pos ≤ (fuel : Int)) :
    ¬ ((leftLoop db_seq query fuel st).db_pos > 0 ∧ (leftLoop db_seq query fuel st).q_pos > 0) ∨
      (leftLoop db_seq query fuel st).score <
        (leftLoop db_seq query fuel st).best_score - 20 := by
  induction fuel generalizing st with
  | zero =>
    left; simp only [leftLoop]; intro h
    have : st.db_pos ≤ 0 := by simpa using hf
    omega
  | succ n ih =>
    rw [leftLoop_succ]
    split_ifs with hc hb
    · right; exact hb
    · apply ih
      rw [passStep_db_pos]; push_cast at hf; omega
    · left; exact hc

/-- A larger iteration bound does not change the result of the rightward loop. -/
theorem rightLoop_fuel (db_seq query : List Char) (fuel m : Nat) (st : PassState)
    (hf : (db_seq.length : Int) - st.db_pos ≤ (fuel : Int)) :
    rightLoop db_seq query (fuel + m) st = rightLoop db_seq query fuel st := by
  induction fuel generalizing st with
  | zero =>
    have h0 : (db_seq.length : Int) - st.db_pos ≤ 0 := by simpa using hf
    cases m with
    | zero => rfl
    | succ m =>
      rw [Nat.zero_add, rightLoop_succ, if_neg (by omega)]; rfl
  | succ n ih =>
    rw [Nat.add_right_comm, rightLoop_succ, rightLoop_succ]
    split_ifs with hc hb
    · rfl
    · apply ih
      rw [passStep_db_pos]; push_cast at hf; omega
    · rfl

/-- A larger iteration bound does not change the result of the leftward loop. -/
theorem leftLoop_fuel (db_seq query : List Char) (fuel m : Nat) (st : PassState)
    (hf : st.db_pos ≤ (fuel : Int)) :
    leftLoop db_seq query (fuel + m) st = leftLoop db_seq query fuel st := by
  induction fuel generalizing st with
  | zero =>
    have h0 : st.db_pos ≤ 0 := by simpa using hf
    cases m with
    | zero => rfl
    | succ m =>
      rw [Nat.zero_add, leftLoop_succ, if_neg (by omega)]; rfl
  | succ n ih =>
    rw [Nat.add_right_comm, leftLoop_succ, leftLoop_succ]
    split_ifs with hc hb
    · rfl
    · apply ih
      rw [passStep_db_pos]; push_cast at hf; omega
    · rfl

/-! ## Lemmas: recomputation loops -/

theorem scoreLoop_eq (db_seq query : List Char) (db_end q_end : Int) (n : Nat)
    (db_pos q_pos total : Int) (hn : db_end - db_pos + 1 = (n : Int))
    (hq : q_end - q_pos = db_end - db_pos) :
    scoreLoop db_seq query db_end q_end n db_pos q_pos total =
      total + ∑ i ∈ Finset.range n,
        pairScore db_seq query (db_pos + (i : Int)) (q_pos + (i : Int)) := by
  induction n generalizing db_pos q_pos total with
  | zero => simp [scoreLoop]
  | succ n ih =>
    push_cast at hn
    rw [scoreLoop_succ, if_pos (by constructor <;> omega), ih _ _ _ (by omega) (by omega),
      Finset.sum_range_succ']
    have e : ∀ i : Nat, pairScore db_seq query (db_pos + 1 + (i : Int)) (q_pos + 1 + (i : Int)) =
        pairScore db_seq query (db_pos + ((i + 1 : Nat) : Int)) (q_pos + ((i + 1 : Nat) : Int)) := by
      intro i; push_cast; rw [add_assoc, add_assoc, add_comm 1]
    simp only [e, Nat.cast_zero, add_zero]
    ring

/-- A larger iteration bound does not change the result of the recomputation loop. -/
theorem scoreLoop_fuel (db_seq query : List Char) (db_end q_end : Int) (n m : Nat)
    (db_pos q_pos total : Int) (hn : db_end - db_pos + 1 ≤ (n : Int)) :
    scoreLoop db_seq query db_end q_end (n + m) db_pos q_pos total =
      scoreLoop db_seq query db_end q_end n db_pos q_pos total := by
  induction n generalizing db_pos q_pos total with
  | zero =>
    have h0 : db_end - db_pos + 1 ≤ 0 := by simpa using hn
    cases m with
    | zero => rfl
    | succ m =>
      rw [Nat.zero_add, scoreLoop_succ, if_neg (by omega)]; rfl
  | succ n ih =>
    push_cast at hn
    rw [Nat.add_right_comm, scoreLoop_succ, scoreLoop_succ]
    split_ifs with hc
    · exact ih _ _ _ (by omega)
    · rfl

theorem identityLoop_eq (db_seq query : List Char) (db_end q_end : Int) (n : Nat)
    (db_pos q_pos : Int) (mt : Int × Int) (hn : db_end - db_pos + 1 = (n : Int))
    (hq : q_end - q_pos = db_end - db_pos) :
    identityLoop db_seq query db_end q_end n db_pos q_pos mt =
      (mt.1 + (matchCount db_seq query db_pos q_pos n : Int), mt.2 + (n : Int)) := by
  induction n generalizing db_pos q_pos mt with
  | zero => simp [identityLoop, matchCount]
  | succ n ih =>
    push_cast at hn
    rw [identityLoop_succ, if_pos (by constructor <;> omega), ih _ _ _ (by omega) (by omega)]
    unfold matchCount
    rw [Finset.sum_range_succ' _ n]
    have e : ∀ i : Nat, (db_pos + 1 + (i : Int) = db_pos + ((i + 1 : Nat) : Int)) ∧
        (q_pos + 1 + (i : Int) = q_pos + ((i + 1 : Nat) : Int)) := by
      intro i; constructor <;> (push_cast; ring)
    simp only [fun i => (e i).1, fun i => (e i).2, Nat.cast_zero, add_zero]
    refine Prod.ext ?_ ?_
    · simp only; split_ifs <;> push_cast <;> ring
    · simp only; push_cast; ring

/-- A larger iteration bound does not change the result of the loop of `calculateIdentity`. -/
theorem identityLoop_fuel (db_seq query : List Char) (db_end q_end : Int) (n m : Nat)
    (db_pos q_pos : Int) (mt : Int × Int) (hn : db_end - db_pos + 1 ≤ (n : Int)) :
    identityLoop db_seq query db_end q_end (n + m) db_pos q_pos mt =
      identityLoop db_seq query db_end q_end n db_pos q_pos mt := by
  induction n generalizing db_pos q_pos mt with
  | zero =>
    have h0 : db_end - db_pos + 1 ≤ 0 := by simpa using hn
    cases m with
    | zero => rfl
    | succ m =>
      rw [Nat.zero_add, identityLoop_succ, if_neg (by omega)]; rfl
  | succ n ih =>
    push_cast at hn
    rw [Nat.add_right_comm, identityLoop_succ, identityLoop_succ]
    by_cases hc : db_pos ≤ db_end ∧ q_pos ≤ q_end
    · rw [if_pos hc, if_pos hc]
      exact ih _ _ _ (by omega)
    · rw [if_neg hc, if_neg hc]

theorem matchCount_le (db_seq query : List Char) (db_start q_start : Int) (n : Nat) :
    matchCount db_seq query db_start q_start n ≤ n := by
  unfold matchCount
  calc _ ≤ ∑ _i ∈ Finset.range n, 1 := Finset.sum_le_sum (fun i _ => by split_ifs <;> omega)
    _ = n := by simp

theorem sum_pairScore (db_seq query : List Char) (db_start q_start : Int) (n : Nat) :
    ∑ i ∈ Finset.range n, pairScore db_seq query (db_start + (i : Int)) (q_start + (i : Int)) =
      3 * (matchCount db_seq query db_start q_start n : Int) - (n : Int) := by
  unfold matchCount
  induction n with
  | zero => simp
  | succ n ih =>
    rw [Finset.sum_range_succ, Finset.sum_range_succ, ih]
    unfold pairScore
    split_ifs <;> push_cast <;> ring

/-! ## Lemmas: `extendUngapped` -/

theorem extendUngapped_db_start (db_seq query : List Char) (ds qs : Int) :
    (extendUngapped db_seq query ds qs).db_start = (leftPass db_seq query ds qs).best_db := rfl

theorem extendUngapped_db_end (db_seq query : List Char) (ds qs : Int) :
    (extendUngapped db_seq query ds qs).db_end = (rightPass db_seq query ds qs).best_db := rfl

theorem extendUngapped_q_start (db_seq query : List Char) (ds qs : Int) :
    (extendUngapped db_seq query ds qs).q_start = (leftPass db_seq query ds qs).best_q := rfl

theorem extendUngapped_q_end (db_seq query : List Char) (ds qs : Int) :
    (extendUngapped db_seq query ds qs).q_end = (rightPass db_seq query ds qs).best_q := rfl

theorem extendUngapped_score (db_seq query : List Char) (ds qs : Int) :
    (extendUngapped db_seq query ds qs).score =
      scoreLoop db_seq query (extendUngapped db_seq query ds qs).db_end
        (extendUngapped db_seq query ds qs).q_end
        ((extendUngapped db_seq query ds qs).db_end -
          (extendUngapped db_seq query ds qs).db_start + 1).toNat
        (extendUngapped db_seq query ds qs).db_start
        (extendUngapped db_seq query ds qs).q_start 0 := rfl

theorem extendUngapped_identity (db_seq query : List Char) (ds qs : Int) :
    (extendUngapped db_seq query ds qs).identity =
      calculateIdentity db_seq query (extendUngapped db_seq query ds qs).db_start
        (extendUngapped db_seq query ds qs).db_end
        (extendUngapped db_seq query ds qs).q_start
        (extendUngapped db_seq query ds qs).q_end := rfl

/-- The rightward pass keeps cursor and best pair on the seed's diagonal, the best pair
between the seed and the cursor. -/
theorem rightPass_inv (db_seq query : List Char) (ds qs : Int) :
    (rightPass db_seq query ds qs).db_pos - (rightPass db_seq query ds qs).q_pos = ds - qs ∧
    (rightPass db_seq query ds qs).best_db - (rightPass db_seq query ds qs).best_q = ds - qs ∧
    ds ≤ (rightPass db_seq query ds qs).best_db ∧
    (rightPass db_seq query ds qs).best_db ≤ (rightPass db_seq query ds qs).db_pos ∧
    (ds < (db_seq.length : Int) → (rightPass db_seq query ds qs).db_pos < (db_seq.length : Int)) ∧
    (qs < (query.length : Int) → (rightPass db_seq query ds qs).q_pos < (query.length : Int)) := by
  unfold rightPass
  apply rightLoop_induct db_seq query (fun s =>
    s.db_pos - s.q_pos = ds - qs ∧ s.best_db - s.best_q = ds - qs ∧ ds ≤ s.best_db ∧
    s.best_db ≤ s.db_pos ∧ (ds < (db_seq.length : Int) → s.db_pos < (db_seq.length : Int)) ∧
    (qs < (query.length : Int) → s.q_pos < (query.length : Int)))
  · intro s ⟨h1, h2, h3, h4, h5, h6⟩ hc1 hc2
    rw [passStep_db_pos, passStep_q_pos]
    rcases passStep_best db_seq query 1 s with ⟨b1, b2, _, _⟩ | ⟨b1, b2, _, _⟩ <;>
      rw [b1, b2] <;> refine ⟨?_, ?_, ?_, ?_, ?_, ?_⟩ <;> omega
  · simp

/-- The leftward pass keeps cursor and best pair on the seed's diagonal, the best pair
between the cursor and the seed. -/
theorem leftPass_inv (db_seq query : List Char) (ds qs : Int) :
    (leftPass db_seq query ds qs).db_pos - (leftPass db_seq query ds qs).q_pos = ds - qs ∧
    (leftPass db_seq query ds qs).best_db - (leftPass db_seq query ds qs).best_q = ds - qs ∧
    (leftPass db_seq query ds qs).best_db ≤ ds ∧
    (leftPass db_seq query ds qs).db_pos ≤ (leftPass db_seq query ds qs).best_db ∧
    (0 ≤ ds → 0 ≤ (leftPass db_seq query ds qs).db_pos) ∧
    (0 ≤ qs → 0 ≤ (leftPass db_seq query ds qs).q_pos) := by
  unfold leftPass
  apply leftLoop_induct db_seq query (fun s =>
    s.db_pos - s.q_pos = ds - qs ∧ s.best_db - s.best_q = ds - qs ∧ s.best_db ≤ ds ∧
    s.db_pos ≤ s.best_db ∧ (0 ≤ ds → 0 ≤ s.db_pos) ∧ (0 ≤ qs → 0 ≤ s.q_pos))
  · intro s ⟨h1, h2, h3, h4, h5, h6⟩ hc1 hc2
    rw [passStep_db_pos, passStep_q_pos]
    rcases passStep_best db_seq query (-1) s with ⟨b1, b2, _, _⟩ | ⟨b1, b2, _, _⟩ <;>
      rw [b1, b2] <;> refine ⟨?_, ?_, ?_, ?_, ?_, ?_⟩ <;> omega
  · simp

/-- Shape of every result of `extendUngapped`: lockstep on the seed's diagonal, the seed
inside the inclusive range. -/
theorem extendUngapped_shape (db_seq query : List Char) (ds qs : Int) :
    (extendUngapped db_seq query ds qs).db_start - (extendUngapped db_seq query ds qs).q_start
      = ds - qs ∧
    (extendUngapped db_seq query ds qs).db_end - (extendUngapped db_seq query ds qs).q_end
      = ds - qs ∧
    (extendUngapped db_seq query ds qs).db_start ≤ ds ∧
    ds ≤ (extendUngapped db_seq query ds qs).db_end := by
  rw [extendUngapped_db_start, extendUngapped_db_end, extendUngapped_q_start,
    extendUngapped_q_end]
  obtain ⟨_, r2, r3, _, _, _⟩ := rightPass_inv db_seq query ds qs
  obtain ⟨_, l2, l3, _, _, _⟩ := leftPass_inv db_seq query ds qs
  exact ⟨l2, r2, l3, r3⟩

/-- With the seed inside both sequences, the result range is inside both sequences. -/
theorem extendUngapped_bounds (db_seq query : List Char) (ds qs : Int)
    (hd0 : 0 ≤ ds) (hd1 : ds < (db_seq.length : Int))
    (hq0 : 0 ≤ qs) (hq1 : qs < (query.length : Int)) :
    0 ≤ (extendUngapped db_seq query ds qs).db_start ∧
    (extendUngapped db_seq query ds qs).db_end < (db_seq.length : Int) ∧
    0 ≤ (extendUngapped db_seq query ds qs).q_start ∧
    (extendUngapped db_seq query ds qs).q_end < (query.length : Int) := by
  rw [extendUngapped_db_start, extendUngapped_db_end, extendUngapped_q_start,
    extendUngapped_q_end]
  obtain ⟨r1, r2, r3, r4, r5, r6⟩ := rightPass_inv db_seq query ds qs
  obtain ⟨l1, l2, l3, l4, l5, l6⟩ := leftPass_inv db_seq query ds qs
  have := r5 hd1
  have := r6 hq1
  have := l5 hd0
  have := l6 hq0
  refine ⟨?_, ?_, ?_, ?_⟩ <;> omega

/-- The recomputed score as a sum over the inclusive result range. -/
theorem extendUngapped_score_sum (db_seq query : List Char) (ds qs : Int) :
    (extendUngapped db_seq query ds qs).score =
      ∑ i ∈ Finset.range ((extendUngapped db_seq query ds qs).db_end -
          (extendUngapped db_seq query ds qs).db_start + 1).toNat,
        pairScore db_seq query ((extendUngapped db_seq query ds qs).db_start + (i : Int))
          ((extendUngapped db_seq query ds qs).q_start + (i : Int)) := by
  obtain ⟨h1, h2, h3, h4⟩ := extendUngapped_shape db_seq query ds qs
  rw [extendUngapped_score, scoreLoop_eq _ _ _ _ _ _ _ _ (by rw [Int.toNat_of_nonneg]; omega)
    (by omega)]
  simp

/-- The identity of the result as a quotient over the inclusive result range. -/
theorem extendUngapped_identity_eq (db_seq query : List Char) (ds qs : Int) :
    (extendUngapped db_seq query ds qs).identity =
      100 * ((matchCount db_seq query (extendUngapped db_seq query ds qs).db_start
          (extendUngapped db_seq query ds qs).q_start
          ((extendUngapped db_seq query ds qs).db_end -
            (extendUngapped db_seq query ds qs).db_start + 1).toNat : Nat) : ℚ) /
        (((extendUngapped db_seq query ds qs).db_end -
            (extendUngapped db_seq query ds qs).db_start + 1 : Int) : ℚ) := by
  obtain ⟨h1, h2, h3, h4⟩ := extendUngapped_shape db_seq query ds qs
  have hn : (extendUngapped db_seq query ds qs).db_end -
      (extendUngapped db_seq query ds qs).db_start + 1 =
      ((((extendUngapped db_seq query ds qs).db_end -
        (extendUngapped db_seq query ds qs).db_start + 1).toNat : Nat) : Int) := by
    rw [Int.toNat_of_nonneg]; omega
  rw [extendUngapped_identity, calculateIdentity, if_neg (by omega)]
  simp only
  rw [identityLoop_eq _ _ _ _ _ _ _ _ hn (by omega)]
  simp only [zero_add]
  rw [if_neg (by omega)]
  rw [← hn]
  push_cast
  rfl

theorem matchCount_all (db_seq query : List Char) (db_start q_start : Int) (n : Nat)
    (h : ∀ i : Nat, i < n →
      charAt db_seq (db_start + (i : Int)) = charAt query (q_start + (i : Int))) :
    matchCount db_seq query db_start q_start n = n := by
  unfold matchCount
  rw [Finset.sum_congr rfl (g := fun _ => 1)
    (fun i hi => by rw [if_pos (h i (Finset.mem_range.1 hi))])]
  simp

theorem charAt_substr (seq : List Char) (i k j : Nat) (h : i + k ≤ seq.length) (hj : j < k) :
    charAt (substr seq i k) (j : Int) = charAt seq ((i : Int) + (j : Int)) := by
  have e : ((i : Int) + (j : Int)) = ((i + j : Nat) : Int) := by push_cast; rfl
  rw [e, charAt_natCast seq (i + j) (by omega),
    charAt_natCast (substr seq i k) j (by rw [substr_length seq i k h]; exact hj)]
  simp [substr, List.getElem_take, List.getElem_drop]

theorem passStep_match (db_seq query : List Char) (delta : Int) (st : PassState)
    (hm : charAt db_seq (st.db_pos + delta) = charAt query (st.q_pos + delta))
    (hb : st.best_score = st.score) :
    passStep db_seq query delta st =
      PassState.mk (st.db_pos + delta) (st.q_pos + delta) (st.score + 2) (st.score + 2)
        (st.db_pos + delta) (st.q_pos + delta) := by
  unfold passStep
  simp [hm, hb]

/-- Both passes on a verbatim occurrence of the query: the rightward pass ends with its best
pair at the last query position, the leftward pass at the first. -/
theorem passes_exact (d q : List Char) (o p : Nat) (hlen : o + q.length ≤ d.length)
    (hm : ∀ j : Nat, j < q.length → charAt d ((o : Int) + (j : Int)) = charAt q (j : Int))
    (hp : p < q.length) :
    (rightPass d q ((o : Int) + (p : Int)) (p : Int)).best_q = (q.length : Int) - 1 ∧
    (rightPass d q ((o : Int) + (p : Int)) (p : Int)).best_db = (o : Int) + (q.length : Int) - 1 ∧
    (leftPass d q ((o : Int) + (p : Int)) (p : Int)).best_q = 0 ∧
    (leftPass d q ((o : Int) + (p : Int)) (p : Int)).best_db = (o : Int) := by
  have hmI : ∀ t : Int, 0 ≤ t → t < (q.length : Int) → charAt d ((o : Int) + t) = charAt q t := by
    intro t h0 h1
    have := hm t.toNat (by omega)
    rwa [Int.toNat_of_nonneg h0] at this
  have hR := rightLoop_induct d q (fun s : PassState => s.db_pos = (o : Int) + s.q_pos ∧
      s.best_db = s.db_pos ∧ s.best_q = s.q_pos ∧ s.best_score = s.score ∧ 0 ≤ s.q_pos) (by
      intro s ⟨h1, h2, h3, h4, h5⟩ _ hc2
      have hmm : charAt d (s.db_pos + 1) = charAt q (s.q_pos + 1) := by
        rw [h1, add_assoc]; exact hmI _ (by omega) hc2
      rw [passStep_match d q 1 s hmm h4]
      simp only [and_self, and_true, true_and]
      omega) ((d.length : Int) - ((o : Int) + (p : Int))).toNat
    (PassState.mk ((o : Int) + (p : Int)) (p : Int) 0 0 ((o : Int) + (p : Int)) (p : Int))
    (by simp)
  have hL := leftLoop_induct d q (fun s : PassState => s.db_pos = (o : Int) + s.q_pos ∧
      s.best_db = s.db_pos ∧ s.best_q = s.q_pos ∧ s.best_score = s.score ∧ 0 ≤ s.q_pos ∧
      s.q_pos ≤ (p : Int)) (by
      intro s ⟨h1, h2, h3, h4, h5, h6⟩ _ hc2
      have hmm : charAt d (s.db_pos + -1) = charAt q (s.q_pos + -1) := by
        rw [h1, add_assoc]; exact hmI _ (by omega) (by omega)
      rw [passStep_match d q (-1) s hmm h4]
      simp only [and_self, and_true, true_and]
      omega) ((o : Int) + (p : Int)).toNat
    (PassState.mk ((o : Int) + (p : Int)) (p : Int) 0 0 ((o : Int) + (p : Int)) (p : Int))
    (by simp)
  have hRx := rightLoop_exit d q ((d.length : Int) - ((o : Int) + (p : Int))).toNat
    (PassState.mk ((o : Int) + (p : Int)) (p : Int) 0 0 ((o : Int) + (p : Int)) (p : Int))
    (by simp only; omega)
  have hLx := leftLoop_exit d q ((o : Int) + (p : Int)).toNat
    (PassState.mk ((o : Int) + (p : Int)) (p : Int) 0 0 ((o : Int) + (p : Int)) (p : Int))
    (by simp only; omega)
  have hRq := (rightPass_inv d q ((o : Int) + (p : Int)) (p : Int)).2.2.2.2.2 (by omega)
  simp only at hR hL
  obtain ⟨r1, r2, r3, r4, r5⟩ := hR
  obtain ⟨l1, l2, l3, l4, l5, l6⟩ := hL
  unfold rightPass at hRq ⊢
  unfold leftPass
  refine ⟨?_, ?_, ?_, ?_⟩
  · rcases hRx with hx | hx
    · rw [r3]; by_contra hne
      apply hx; constructor <;> omega
    · omega
  · rcases hRx with hx | hx
    · rw [r2, r1]
      have : ¬ ((rightLoop d q ((d.length : Int) - ((o : Int) + (p : Int))).toNat
          (PassState.mk ((o : Int) + (p : Int)) (p : Int) 0 0 ((o : Int) + (p : Int))
            (p : Int))).q_pos + 1 < (q.length : Int)) := by
        intro hlt; apply hx; constructor <;> omega
      omega
    · omega
  · rcases hLx with hx | hx
    · rw [l3]; by_contra hne
      apply hx; constructor <;> omega
    · omega
  · rcases hLx with hx | hx
    · rw [l2, l1]
      have : ¬ ((leftLoop d q ((o : Int) + (p : Int)).toNat
          (PassState.mk ((o : Int) + (p : Int)) (p : Int) 0 0 ((o : Int) + (p : Int))
            (p : Int))).q_pos > 0) := by
        intro hlt; apply hx; constructor <;> omega
      omega
    · omega

/-! ## Claims: ungapped extension -/

/-- C7 (exact occurrences are recovered in full). For a database sequence `d`, a non-empty
query `q` with `d[o .. o+|q|) = q`, and a seed offset `p < |q|`, the call
`extendUngapped(d, q, o+p, p)` returns `db_start = o`, `db_end = o+|q|-1`, `q_start = 0`,
`q_end = |q|-1`, `score = 2*|q|` and `identity = 100`. -/
theorem extendUngapped_exact (d q : List Char) (o p : Nat) (hq : q ≠ [])
    (hocc : substr d o q.length = q) (hp : p < q.length) :
    (extendUngapped d q ((o : Int) + (p : Int)) (p : Int)).db_start = (o : Int) ∧
    (extendUngapped d q ((o : Int) + (p : Int)) (p : Int)).db_end =
      (o : Int) + (q.length : Int) - 1 ∧
    (extendUngapped d q ((o : Int) + (p : Int)) (p : Int)).q_start = 0 ∧
    (extendUngapped d q ((o : Int) + (p : Int)) (p : Int)).q_end = (q.length : Int) - 1 ∧
    (extendUngapped d q ((o : Int) + (p : Int)) (p : Int)).score = 2 * (q.length : Int) ∧
    (extendUngapped d q ((o : Int) + (p : Int)) (p : Int)).identity = 100 := by
  have hpos : 0 < q.length := List.length_pos.2 hq
  have hlen : o + q.length ≤ d.length := by
    have := congrArg List.length hocc
    simp only [substr, List.length_take, List.length_drop] at this
    omega
  have hm : ∀ j : Nat, j < q.length → charAt d ((o : Int) + (j : Int)) = charAt q (j : Int) := by
    intro j hj
    rw [← charAt_substr d o q.length j hlen hj, hocc]
  obtain ⟨e1, e2, e3, e4⟩ := passes_exact d q o p hlen hm hp
  have hs := extendUngapped_db_start d q ((o : Int) + (p : Int)) (p : Int)
  have he := extendUngapped_db_end d q ((o : Int) + (p : Int)) (p : Int)
  have hqs := extendUngapped_q_start d q ((o : Int) + (p : Int)) (p : Int)
  have hqe := extendUngapped_q_end d q ((o : Int) + (p : Int)) (p : Int)
  rw [e4] at hs
  rw [e2] at he
  rw [e3] at hqs
  rw [e1] at hqe
  have hn : ((o : Int) + (q.length : Int) - 1 - (o : Int) + 1).toNat = q.length := by
    have : (o : Int) + (q.length : Int) - 1 - (o : Int) + 1 = ((q.length : Nat) : Int) := by ring
    rw [this, Int.toNat_natCast]
  have hall := matchCount_all d q (o : Int) 0 q.length (by
    intro i hi; rw [zero_add]; exact hm i hi)
  refine ⟨hs, he, hqs, hqe, ?_, ?_⟩
  · rw [extendUngapped_score_sum, hs, he, hqs, hn, sum_pairScore, hall]; ring
  · rw [extendUngapped_identity_eq, hs, he, hqs, hn, hall]
    have hne : ((q.length : Nat) : ℚ) ≠ 0 := by
      exact_mod_cast (Nat.pos_iff_ne_zero.1 hpos)
    have hden : (o : Int) + (q.length : Int) - 1 - (o : Int) + 1 = ((q.length : Nat) : Int) := by
      ring
    rw [hden, Int.cast_natCast, mul_div_assoc, div_self hne, mul_one]

/-- Witness for C7: `d = AAACCCGGGTTT`, `q = CCCGGG`, seed `(3, 0)`: database range 3..8,
query range 0..5, score 12, identity 100. -/
theorem extendUngapped_exact_witness :
    (extendUngapped "AAACCCGGGTTT".toList "CCCGGG".toList 3 0).db_start = 3 ∧
    (extendUngapped "AAACCCGGGTTT".toList "CCCGGG".toList 3 0).db_end = 8 ∧
    (extendUngapped "AAACCCGGGTTT".toList "CCCGGG".toList 3 0).q_start = 0 ∧
    (extendUngapped "AAACCCGGGTTT".toList "CCCGGG".toList 3 0).q_end = 5 ∧
    (extendUngapped "AAACCCGGGTTT".toList "CCCGGG".toList 3 0).score = 12 ∧
    (extendUngapped "AAACCCGGGTTT".toList "CCCGGG".toList 3 0).identity = 100 :=
  extendUngapped_exact "AAACCCGGGTTT".toList "CCCGGG".toList 3 0 (by decide) (by decide)
    (by decide)

/-- C8 (authoritative score). With the seed inside both sequences, the score returned by
`extendUngapped` is the sum over `i` in `[0, db_end - db_start]` of `+2` when
`db_seq[db_start+i] = query[q_start+i]` and `-1` otherwise, which is `2*matches - mismatches`
over that range; the range lies inside both strings and the seed pair is one of its
position pairs (index `db_seed_pos - db_start`). -/
theorem extendUngapped_score_authoritative (db_seq query : List Char) (ds qs : Int)
    (hd0 : 0 ≤ ds) (hd1 : ds < (db_seq.length : Int))
    (hq0 : 0 ≤ qs) (hq1 : qs < (query.length : Int)) :
    (extendUngapped db_seq query ds qs).score =
      ∑ i ∈ Finset.range ((extendUngapped db_seq query ds qs).db_end -
          (extendUngapped db_seq query ds qs).db_start + 1).toNat,
        (if charAt db_seq ((extendUngapped db_seq query ds qs).db_start + (i : Int)) =
            charAt query ((extendUngapped db_seq query ds qs).q_start + (i : Int))
          then (2 : Int) else -1) ∧
    (extendUngapped db_seq query ds qs).score =
      2 * (matchCount db_seq query (extendUngapped db_seq query ds qs).db_start
          (extendUngapped db_seq query ds qs).q_start
          ((extendUngapped db_seq query ds qs).db_end -
            (extendUngapped db_seq query ds qs).db_start + 1).toNat : Int) -
        (((extendUngapped db_seq query ds qs).db_end -
            (extendUngapped db_seq query ds qs).db_start + 1) -
          (matchCount db_seq query (extendUngapped db_seq query ds qs).db_start
            (extendUngapped db_seq query ds qs).q_start
            ((extendUngapped db_seq query ds qs).db_end -
              (extendUngapped db_seq query ds qs).db_start + 1).toNat : Int)) ∧
    (0 ≤ (extendUngapped db_seq query ds qs).db_start ∧
      (extendUngapped db_seq query ds qs).db_start ≤ ds ∧
      ds ≤ (extendUngapped db_seq query ds qs).db_end ∧
      (extendUngapped db_seq query ds qs).db_end < (db_seq.length : Int)) ∧
    (0 ≤ (extendUngapped db_seq query ds qs).q_start ∧
      (extendUngapped db_seq query ds qs).q_start + (ds - (extendUngapped db_seq query ds qs).db_start)
        = qs ∧
      (extendUngapped db_seq query ds qs).q_end < (query.length : Int)) := by
  obtain ⟨h1, h2, h3, h4⟩ := extendUngapped_shape db_seq query ds qs
  obtain ⟨b1, b2, b3, b4⟩ := extendUngapped_bounds db_seq query ds qs hd0 hd1 hq0 hq1
  refine ⟨extendUngapped_score_sum db_seq query ds qs, ?_, ⟨b1, h3, h4, b2⟩, ⟨b3, by omega, b4⟩⟩
  rw [extendUngapped_score_sum, sum_pairScore, Int.toNat_of_nonneg (by omega)]
  ring

/-- Witness for C8: `db_seq = ACGTACGT`, `query = TCGTTCGA`, seed `(2, 2)`. -/
theorem extendUngapped_score_authoritative_witness :
    (extendUngapped "ACGTACGT".toList "TCGTTCGA".toList 2 2).score = 9 :=
  (extendUngapped_score_authoritative "ACGTACGT".toList "TCGTTCGA".toList 2 2 (by decide)
    (by decide) (by decide) (by decide)).1.trans (by decide)

/-- C9 (lockstep, no gaps). For every input, the result of `extendUngapped` satisfies
`db_end - db_start = q_end - q_start` and `db_start - q_start = db_end - q_end =
db_seed_pos - q_seed_pos`. -/
theorem extendUngapped_lockstep (db_seq query : List Char) (ds qs : Int) :
    (extendUngapped db_seq query ds qs).db_end - (extendUngapped db_seq query ds qs).db_start =
      (extendUngapped db_seq query ds qs).q_end - (extendUngapped db_seq query ds qs).q_start ∧
    (extendUngapped db_seq query ds qs).db_start - (extendUngapped db_seq query ds qs).q_start
      = ds - qs ∧
    (extendUngapped db_seq query ds qs).db_end - (extendUngapped db_seq query ds qs).q_end
      = ds - qs := by
  obtain ⟨h1, h2, _, _⟩ := extendUngapped_shape db_seq query ds qs
  exact ⟨by omega, h1, h2⟩

/-- C10 (identity formula). With the seed inside both sequences, the identity returned by
`extendUngapped`, as an exact rational, is `100 * matches / (db_end - db_start + 1)` where
`matches` counts the `i` in `[0, db_end - db_start]` with
`db_seq[db_start+i] = query[q_start+i]`; so `0 ≤ identity ≤ 100`, and
`score = 3*matches - (db_end - db_start + 1)`. -/
theorem extendUngapped_identity_formula (db_seq query : List Char) (ds qs : Int)
    (_hd0 : 0 ≤ ds) (_hd1 : ds < (db_seq.length : Int))
    (_hq0 : 0 ≤ qs) (_hq1 : qs < (query.length : Int)) :
    (extendUngapped db_seq query ds qs).identity =
      100 * ((matchCount db_seq query (extendUngapped db_seq query ds qs).db_start
          (extendUngapped db_seq query ds qs).q_start
          ((extendUngapped db_seq query ds qs).db_end -
            (extendUngapped db_seq query ds qs).db_start + 1).toNat : Nat) : ℚ) /
        (((extendUngapped db_seq query ds qs).db_end -
            (extendUngapped db_seq query ds qs).db_start + 1 : Int) : ℚ) ∧
    0 ≤ (extendUngapped db_seq query ds qs).identity ∧
    (extendUngapped db_seq query ds qs).identity ≤ 100 ∧
    (extendUngapped db_seq query ds qs).score =
      3 * (matchCount db_seq query (extendUngapped db_seq query ds qs).db_start
          (extendUngapped db_seq query ds qs).q_start
          ((extendUngapped db_seq query ds qs).db_end -
            (extendUngapped db_seq query ds qs).db_start + 1).toNat : Int) -
        ((extendUngapped db_seq query ds qs).db_end -
          (extendUngapped db_seq query ds qs).db_start + 1) := by
  obtain ⟨h1, h2, h3, h4⟩ := extendUngapped_shape db_seq query ds qs
  have hid := extendUngapped_identity_eq db_seq query ds qs
  have hle := matchCount_le db_seq query (extendUngapped db_seq query ds qs).db_start
    (extendUngapped db_seq query ds qs).q_start
    ((extendUngapped db_seq query ds qs).db_end -
      (extendUngapped db_seq query ds qs).db_start + 1).toNat
  have hn : (((extendUngapped db_seq query ds qs).db_end -
      (extendUngapped db_seq query ds qs).db_start + 1).toNat : Int) =
      (extendUngapped db_seq query ds qs).db_end -
        (extendUngapped db_seq query ds qs).db_start + 1 :=
    Int.toNat_of_nonneg (by omega)
  have hposZ : (0 : Int) < (extendUngapped db_seq query ds qs).db_end -
      (extendUngapped db_seq query ds qs).db_start + 1 := by omega
  have hposQ : (0 : ℚ) < (((extendUngapped db_seq query ds qs).db_end -
      (extendUngapped db_seq query ds qs).db_start + 1 : Int) : ℚ) := by exact_mod_cast hposZ
  have hleQ : ((matchCount db_seq query (extendUngapped db_seq query ds qs).db_start
      (extendUngapped db_seq query ds qs).q_start
      ((extendUngapped db_seq query ds qs).db_end -
        (extendUngapped db_seq query ds qs).db_start + 1).toNat : Nat) : ℚ) ≤
      (((extendUngapped db_seq query ds qs).db_end -
        (extendUngapped db_seq query ds qs).db_start + 1 : Int) : ℚ) := by
    rw [← hn]; exact_mod_cast hle
  refine ⟨hid, ?_, ?_, ?_⟩
  · rw [hid]; positivity
  · rw [hid, div_le_iff₀ hposQ]; nlinarith
  · rw [extendUngapped_score_sum, sum_pairScore, hn]

/-- Witness for C10: `db_seq = ACGTACGT`, `query = TCGTTCGA`, seed `(2, 2)`: range 1..6 with
5 matches, identity `250/3`, score 9. -/
theorem extendUngapped_identity_formula_witness :
    (extendUngapped "ACGTACGT".toList "TCGTTCGA".toList 2 2).identity = 250 / 3 ∧
    (extendUngapped "ACGTACGT".toList "TCGTTCGA".toList 2 2).score = 9 := by
  have h := extendUngapped_identity_formula "ACGTACGT".toList "TCGTTCGA".toList 2 2 (by decide)
    (by decide) (by decide) (by decide)
  have e1 : (extendUngapped "ACGTACGT".toList "TCGTTCGA".toList 2 2).db_start = 1 := by decide
  have e2 : (extendUngapped "ACGTACGT".toList "TCGTTCGA".toList 2 2).db_end = 6 := by decide
  have e3 : (extendUngapped "ACGTACGT".toList "TCGTTCGA".toList 2 2).q_start = 1 := by decide
  have e4 : matchCount "ACGTACGT".toList "TCGTTCGA".toList 1 1 6 = 5 := by decide
  have e5 : ((6 : Int) - 1 + 1).toNat = 6 := by decide
  rw [e1, e2, e3, e5, e4] at h
  exact ⟨h.1.trans (by norm_num), h.2.2.2.trans (by norm_num)⟩

/-! ## Lemmas: `findHSPs` -/

theorem findAtPosition_eq (query : List Char) (database : List Sequence) (index : KmerIndex)
    (k : Nat) (hsps : List HSP) (p : Nat) (h : p + k ≤ query.length) :
    findAtPosition query database index k hsps p = hsps ++ seedsAt query database index k p := by
  have hg : getKmerAt query p k = encodeKmer (substr query p k) := by
    simp [getKmerAt, Nat.not_lt.2 h]
  unfold findAtPosition seedsAt
  simp only [hg, windowValid_eq query p k h, ← isNucleotide_eq]
  by_cases hv : (substr query p k).all isNucleotide = true
  · have hv2 : (substr query p k).all (fun c => isNucleotide c) = true := hv
    rw [if_neg (by simp [hv]), if_pos hv2]
    unfold KmerIndex.occs
    cases index.find (encodeKmer (substr query p k)) with
    | none => simp
    | some hits => rfl
  · have hinv : ∃ c ∈ substr query p k, isNucleotide c = false := by
      simpa [List.all_eq_true] using hv
    have hv2 : ¬ (substr query p k).all (fun c => isNucleotide c) = true := hv
    rw [if_pos ⟨encodeKmer_invalid _ hinv, by simpa using hv⟩, if_neg hv2]
    simp

theorem foldl_findAtPosition (query : List Char) (database : List Sequence) (index : KmerIndex)
    (k : Nat) (l : List Nat) (hl : ∀ p ∈ l, p + k ≤ query.length) (hsps : List HSP) :
    l.foldl (findAtPosition query database index k) hsps =
      hsps ++ l.flatMap (seedsAt query database index k) := by
  induction l generalizing hsps with
  | nil => simp
  | cons p rest ih =>
    rw [List.foldl_cons, findAtPosition_eq _ _ _ _ _ _ (hl p (List.mem_cons_self _ _)),
      ih (fun x hx => hl x (List.mem_cons_of_mem _ hx)), List.flatMap_cons, List.append_assoc]

theorem findHSPs_eq (query : List Char) (database : List Sequence) (index : KmerIndex)
    (k : Nat) : findHSPs query database index k = seedEnumeration query database index k := by
  unfold findHSPs seedEnumeration
  rw [foldl_findAtPosition _ _ _ _ _ (by intro p hp; have := List.mem_range.1 hp; omega)]
  simp

theorem seedEnumeration_length (query : List Char) (database : List Sequence)
    (index : KmerIndex) (k : Nat) :
    (seedEnumeration query database index k).length = seedCount query index k := by
  unfold seedEnumeration seedCount
  rw [List.length_flatMap]
  congr 1
  apply List.map_congr_left
  intro p _
  simp only [Function.comp, seedsAt]
  by_cases hc : (substr query p k).all (fun c => decide (c ∈ alphabet)) = true
  · rw [if_pos hc, if_pos hc, List.length_map]
  · rw [if_neg hc, if_neg hc]; rfl

theorem mem_seedEnumeration_sid (query : List Char) (database : List Sequence)
    (index : KmerIndex) (k : Nat) (h : HSP) (hh : h ∈ seedEnumeration query database index k) :
    ∃ K i, (h.sid, i) ∈ index.occs K := by
  unfold seedEnumeration at hh
  obtain ⟨p, _, hp⟩ := List.mem_flatMap.1 hh
  unfold seedsAt at hp
  split_ifs at hp
  · obtain ⟨occ, hocc, rfl⟩ := List.mem_map.1 hp
    exact ⟨_, occ.2, hocc⟩
  · simp at hp

/-! ## Lemmas: `getAlignment` -/

theorem alignLoop_eq (db_seq query : List Char) (db_end q_end : Int) (n : Nat) :
    ∀ (fuel : Nat) (db_pos q_pos : Int) (lines : List Char × List Char × List Char),
      n ≤ fuel → min (db_end - db_pos) (q_end - q_pos) + 1 = (n : Int) →
      alignLoop db_seq query db_end q_end fuel db_pos q_pos lines =
        (lines.1 ++ (List.range n).map (fun (i : Nat) => charAt db_seq (db_pos + (i : Int))),
          lines.2.1 ++ (List.range n).map (fun (i : Nat) =>
            if charAt db_seq (db_pos + (i : Int)) = charAt query (q_pos + (i : Int))
            then '|' else ' '),
          lines.2.2 ++ (List.range n).map (fun (i : Nat) => charAt query (q_pos + (i : Int)))) := by
  induction n with
  | zero =>
    intro fuel db_pos q_pos lines _ hmin
    have hc : ¬ (db_pos ≤ db_end ∧ q_pos ≤ q_end) := by
      intro ⟨h1, h2⟩
      have : 0 ≤ min (db_end - db_pos) (q_end - q_pos) := le_min (by omega) (by omega)
      simp at hmin; omega
    cases fuel with
    | zero => simp [alignLoop]
    | succ f => rw [alignLoop, if_neg hc]; simp
  | succ n ih =>
    intro fuel db_pos q_pos lines hf hmin
    have hc : db_pos ≤ db_end ∧ q_pos ≤ q_end := by
      push_cast at hmin
      have h1 := min_le_left (db_end - db_pos) (q_end - q_pos)
      have h2 := min_le_right (db_end - db_pos) (q_end - q_pos)
      constructor <;> omega
    cases fuel with
    | zero => omega
    | succ f =>
      rw [alignLoop, if_pos hc]
      simp only
      rw [ih f (db_pos + 1) (q_pos + 1) _ (by omega) (by
        push_cast at hmin
        have : min (db_end - (db_pos + 1)) (q_end - (q_pos + 1)) =
            min (db_end - db_pos) (q_end - q_pos) - 1 := by
          rw [show db_end - (db_pos + 1) = db_end - db_pos - 1 by ring,
            show q_end - (q_pos + 1) = q_end - q_pos - 1 by ring]
          exact (min_sub_sub_right _ _ _)
        omega)]
      have e : ∀ i : Nat, (db_pos + 1 + (i : Int) = db_pos + ((i + 1 : Nat) : Int)) ∧
          (q_pos + 1 + (i : Int) = q_pos + ((i + 1 : Nat) : Int)) := by
        intro i; constructor <;> (push_cast; ring)
      simp only [fun i => (e i).1, fun i => (e i).2, List.range_succ_eq_map, List.map_cons,
        List.map_map, Nat.cast_zero, add_zero, List.append_assoc, List.singleton_append]
      rfl

theorem range_map_charAt (s : List Char) (a n : Nat) (h : a + n ≤ s.length) :
    (List.range n).map (fun (i : Nat) => charAt s ((a : Int) + (i : Int))) = substr s a n := by
  apply List.ext_getElem
  · simp [substr_length s a n h]
  · intro i h1 h2
    have hi : i < n := by simpa using h1
    rw [List.getElem_map, List.getElem_range, ← charAt_substr s a n i h hi,
      charAt_natCast (substr s a n) i h2]
    rfl

/-! ## Lemmas: occurrence counts -/

theorem occurrenceCount_pushBack (index : KmerIndex) (key : Nat) (occ : Occurrence) (s : Int) :
    occurrenceCount (index.pushBack key occ) s =
      occurrenceCount index s + (if occ.1 = s then 1 else 0) := by
  induction index with
  | nil =>
    by_cases h : occ.1 = s <;> simp [KmerIndex.pushBack, occurrenceCount, h]
  | cons e rest ih =>
    obtain ⟨k', l⟩ := e
    unfold occurrenceCount at ih ⊢
    by_cases hk : k' = key
    · by_cases h : occ.1 = s
      · simp [KmerIndex.pushBack, hk, h, List.countP_append, List.countP_cons]; omega
      · simp [KmerIndex.pushBack, hk, h, List.countP_append, List.countP_cons]
    · simp only [KmerIndex.pushBack, hk, if_false, List.map_cons, List.sum_cons, ih]
      omega

theorem occurrenceCount_foldl_indexPosition (seq : Sequence) (k : Nat) (s : Int) (n : Nat)
    (hn : n ≤ seq.seq.length + 1 - k) (index : KmerIndex) :
    occurrenceCount ((List.range n).foldl (indexPosition seq k) index) s =
      occurrenceCount index s + (if seq.index = s then
        ((List.range n).filter fun i =>
          (substr seq.seq i k).all fun c => decide (c ∈ alphabet)).length else 0) := by
  induction n with
  | zero => simp
  | succ n ih =>
    have hin : n + k ≤ seq.seq.length := by omega
    rw [List.range_succ, List.foldl_append, List.filter_append, List.length_append]
    simp only [List.foldl_cons, List.foldl_nil]
    rw [indexPosition_eq seq k _ n hin]
    simp only [← isNucleotide_eq] at ih ⊢
    by_cases hv : (substr seq.seq n k).all isNucleotide = true
    · have hv2 : (substr seq.seq n k).all (fun c => isNucleotide c) = true := hv
      rw [if_pos hv, occurrenceCount_pushBack, ih (by omega)]
      by_cases hs : seq.index = s
      · simp [hs, List.filter_cons, hv2]; omega
      · simp [hs]
    · have hv2 : ¬ (substr seq.seq n k).all (fun c => isNucleotide c) = true := hv
      rw [if_neg hv, ih (by omega)]
      by_cases hs : seq.index = s
      · simp [hs, List.filter_cons, hv2]
      · simp [hs]

theorem occurrenceCount_indexSequence (seq : Sequence) (k : Nat) (s : Int) (index : KmerIndex) :
    occurrenceCount (indexSequence seq k index) s =
      occurrenceCount index s + (if seq.index = s then validWindowCount seq.seq k else 0) :=
  occurrenceCount_foldl_indexPosition seq k s _ (Nat.le_refl _) index

theorem occurrenceCount_foldl_indexSequence (database : List Sequence) (k : Nat) (s : Int)
    (index : KmerIndex) :
    occurrenceCount (database.foldl (fun index seq => indexSequence seq k index) index) s =
      occurrenceCount index s +
        (database.map fun seq =>
          if seq.index = s then validWindowCount seq.seq k else 0).sum := by
  induction database generalizing index with
  | nil => simp
  | cons a rest ih =>
    rw [List.foldl_cons, ih, occurrenceCount_indexSequence, List.map_cons, List.sum_cons]
    omega

theorem sum_single_index (database : List Sequence) (f : Sequence → Nat)
    (hdist : database.Pairwise (fun a b => a.index ≠ b.index)) (S : Sequence)
    (hS : S ∈ database) :
    (database.map fun seq => if seq.index = S.index then f seq else 0).sum = f S := by
  induction database with
  | nil => cases hS
  | cons a rest ih =>
    rw [List.pairwise_cons] at hdist
    rw [List.map_cons, List.sum_cons]
    rcases List.mem_cons.1 hS with rfl | hS2
    · have hz : (rest.map fun seq => if seq.index = S.index then f seq else 0).sum = 0 := by
        apply List.sum_eq_zero
        intro x hx
        obtain ⟨b, hb, rfl⟩ := List.mem_map.1 hx
        rw [if_neg (fun h => hdist.1 b hb h.symm)]
      simp [hz]
    · rw [if_neg (hdist.1 S hS2), ih hdist.2 hS2]; simp

theorem occurrenceCount_buildIndex (database : List Sequence) (k : Nat)
    (hdist : database.Pairwise (fun a b => a.index ≠ b.index)) (S : Sequence)
    (hS : S ∈ database) :
    occurrenceCount (buildIndex database k) S.index = validWindowCount S.seq k := by
  unfold buildIndex
  rw [occurrenceCount_foldl_indexSequence,
    sum_single_index database (fun seq => validWindowCount seq.seq k) hdist S hS]
  simp [occurrenceCount]

/-! ## Claims: seed search, alignment rendering, occurrence counts -/

/-- C11 (`findHSPs` is the un-deduplicated seed enumeration). For a database whose entries
carry `index` equal to their list position, `k` in `[1,16]` and `index = buildIndex(database,
k)`, the list returned by `findHSPs` is, in order, the concatenation over the query positions
`p = 0 .. |query| - k` with an alphabet-valid window of one HSP per occurrence `(s, i)` listed
under the key of the window, with `sid = s` and the fields of
`extendUngapped(database[s].seq, query, i, p)`; its length is the sum of the lengths of these
occurrence lists, it is empty when `|query| < k`, and every `sid` is a position of the
database. -/
theorem findHSPs_enumeration (query : List Char) (database : List Sequence) (k : Nat)
    (hidx : ∀ (n : Nat) (h : n < database.length), (database.get ⟨n, h⟩).index = (n : Int))
    (_hk1 : 1 ≤ k) (_hk16 : k ≤ 16) :
    findHSPs query database (buildIndex database k) k =
      seedEnumeration query database (buildIndex database k) k ∧
    (findHSPs query database (buildIndex database k) k).length =
      seedCount query (buildIndex database k) k ∧
    (query.length < k → findHSPs query database (buildIndex database k) k = []) ∧
    (∀ h ∈ findHSPs query database (buildIndex database k) k,
      0 ≤ h.sid ∧ h.sid < (database.length : Int)) := by
  refine ⟨findHSPs_eq _ _ _ _, ?_, ?_, ?_⟩
  · rw [findHSPs_eq, seedEnumeration_length]
  · intro hlt
    rw [findHSPs_eq]
    unfold seedEnumeration
    have : query.length + 1 - k = 0 := by omega
    rw [this]; rfl
  · intro h hh
    rw [findHSPs_eq] at hh
    obtain ⟨K, i, hocc⟩ := mem_seedEnumeration_sid _ _ _ _ h hh
    rw [occs_buildIndex] at hocc
    obtain ⟨seq, hseq, n, _, _, _, hs, _⟩ := mem_dbOccurrences.1 hocc
    obtain ⟨m, hm, rfl⟩ := List.getElem_of_mem hseq
    have him : (database.get ⟨m, hm⟩).index = (m : Int) := hidx m hm
    simp only [List.get_eq_getElem] at him
    rw [hs, him]
    constructor
    · exact Int.natCast_nonneg m
    · exact_mod_cast hm

/-- Witness for C11: database `[AAACCCGGGTTT]`, query `CCCGGG`, `k = 3`: four seeds, each
extended to database range 3..8. -/
theorem findHSPs_enumeration_witness :
    (findHSPs "CCCGGG".toList [Sequence.mk [] [] "AAACCCGGGTTT".toList 0]
      (buildIndex [Sequence.mk [] [] "AAACCCGGGTTT".toList 0] 3) 3).length = 4 :=
  (findHSPs_enumeration "CCCGGG".toList [Sequence.mk [] [] "AAACCCGGGTTT".toList 0] 3
    (by intro n h; have : n = 0 := by simpa using h
        subst this; rfl)
    (by decide) (by decide)).2.1.trans (by decide)

/-- C17 (alignment rendering). When `db_end < db_start` or `q_end < q_start`, `getAlignment`
returns the empty string.  For in-bounds ranges with `db_start ≤ db_end` and
`q_start ≤ q_end` it returns `dbLine`, a line feed, `matchLine`, a line feed and `qLine`,
where with `n = min(db_end - db_start, q_end - q_start) + 1` the line `dbLine` is the `n`
characters of `db_seq` from `db_start`, `qLine` the `n` characters of `query` from `q_start`,
and `matchLine` has a bar where the two characters are equal and a blank elsewhere; the
three lines have length `n`. -/
theorem getAlignment_render (db_seq query : List Char) (db_start db_end q_start q_end : Int) :
    ((db_end < db_start ∨ q_end < q_start) →
      getAlignment db_seq query db_start db_end q_start q_end = []) ∧
    (0 ≤ db_start → db_start ≤ db_end → db_end < (db_seq.length : Int) →
      0 ≤ q_start → q_start ≤ q_end → q_end < (query.length : Int) →
      getAlignment db_seq query db_start db_end q_start q_end =
        substr db_seq db_start.toNat (min (db_end - db_start) (q_end - q_start) + 1).toNat ++
          [Char.ofNat 10] ++
          List.zipWith (fun a b => if a = b then '|' else ' ')
            (substr db_seq db_start.toNat (min (db_end - db_start) (q_end - q_start) + 1).toNat)
            (substr query q_start.toNat (min (db_end - db_start) (q_end - q_start) + 1).toNat) ++
          [Char.ofNat 10] ++
          substr query q_start.toNat (min (db_end - db_start) (q_end - q_start) + 1).toNat ∧
      (substr db_seq db_start.toNat
        (min (db_end - db_start) (q_end - q_start) + 1).toNat).length =
          (min (db_end - db_start) (q_end - q_start) + 1).toNat ∧
      (List.zipWith (fun a b => if a = b then '|' else ' ')
        (substr db_seq db_start.toNat (min (db_end - db_start) (q_end - q_start) + 1).toNat)
        (substr query q_start.toNat
          (min (db_end - db_start) (q_end - q_start) + 1).toNat)).length =
          (min (db_end - db_start) (q_end - q_start) + 1).toNat ∧
      (substr query q_start.toNat
        (min (db_end - db_start) (q_end - q_start) + 1).toNat).length =
          (min (db_end - db_start) (q_end - q_start) + 1).toNat) := by
  constructor
  · intro h
    unfold getAlignment
    rw [if_pos h]
  · intro hd0 hd1 hd2 hq0 hq1 hq2
    have hmin0 : 0 ≤ min (db_end - db_start) (q_end - q_start) := le_min (by omega) (by omega)
    have hminl := min_le_left (db_end - db_start) (q_end - q_start)
    have hminr := min_le_right (db_end - db_start) (q_end - q_start)
    generalize hn : (min (db_end - db_start) (q_end - q_start) + 1).toNat = n
    have hnI : min (db_end - db_start) (q_end - q_start) + 1 = (n : Int) := by
      rw [← hn, Int.toNat_of_nonneg (by omega)]
    have hdb : db_start.toNat + n ≤ db_seq.length := by omega
    have hq : q_start.toNat + n ≤ query.length := by omega
    have hl1 := substr_length db_seq db_start.toNat n hdb
    have hl2 := substr_length query q_start.toNat n hq
    have e1 := range_map_charAt db_seq db_start.toNat n hdb
    have e2 := range_map_charAt query q_start.toNat n hq
    rw [Int.toNat_of_nonneg hd0] at e1
    rw [Int.toNat_of_nonneg hq0] at e2
    refine ⟨?_, hl1, by simp [hl1, hl2], hl2⟩
    unfold getAlignment alignmentLines
    rw [if_neg (by omega), alignLoop_eq db_seq query db_end q_end n _ _ _ _ (by omega) hnI]
    simp only [List.nil_append]
    rw [← e1, ← e2, List.zipWith_map, List.zipWith_same]

/-- Witness for C17: `ACGTACGT` 1..6 against `TCGTTCGA` 1..6, and an inverted range. -/
theorem getAlignment_render_witness :
    getAlignment "ACGTACGT".toList "TCGTTCGA".toList 3 2 1 6 = [] ∧
    getAlignment "ACGTACGT".toList "TCGTTCGA".toList 1 6 1 6 =
      "CGTACG".toList ++ [Char.ofNat 10] ++ "||| ||".toList ++ [Char.ofNat 10] ++
        "CGTTCG".toList :=
  ⟨(getAlignment_render "ACGTACGT".toList "TCGTTCGA".toList 3 2 1 6).1 (Or.inl (by decide)),
    ((getAlignment_render "ACGTACGT".toList "TCGTTCGA".toList 1 6 1 6).2 (by decide)
      (by decide) (by decide) (by decide) (by decide) (by decide)).1.trans (by decide)⟩

/-- C18 (occurrence count bound). For a database whose entries have pairwise distinct
`index` fields, `k ≥ 1` and a sequence `S` of the database, the number of occurrences with
sequence index `S.index` over all keys of `buildIndex(database, k)` is at most
`max(0, |S| - k + 1)`, with equality exactly when every length-`k` window of `S` is over the
alphabet. -/
theorem occurrenceCount_bound (database : List Sequence) (k : Nat)
    (hdist : database.Pairwise (fun a b => a.index ≠ b.index)) (_hk1 : 1 ≤ k)
    (S : Sequence) (hS : S ∈ database) :
    (occurrenceCount (buildIndex database k) S.index : Int) ≤
        max 0 ((S.seq.length : Int) - (k : Int) + 1) ∧
    ((occurrenceCount (buildIndex database k) S.index : Int) =
        max 0 ((S.seq.length : Int) - (k : Int) + 1) ↔
      ∀ i : Nat, i + k ≤ S.seq.length → ∀ c ∈ substr S.seq i k, c ∈ alphabet) := by
  rw [occurrenceCount_buildIndex database k hdist S hS]
  have hmax : max 0 ((S.seq.length : Int) - (k : Int) + 1) =
      ((S.seq.length + 1 - k : Nat) : Int) := by
    rcases Nat.lt_or_ge S.seq.length k with h | h
    · rw [max_eq_left (by omega)]; omega
    · rw [max_eq_right (by omega)]; omega
  rw [hmax]
  have hle : validWindowCount S.seq k ≤ S.seq.length + 1 - k := by
    unfold validWindowCount
    exact (List.length_filter_le _ _).trans (by simp)
  refine ⟨by exact_mod_cast hle, ?_⟩
  rw [Nat.cast_inj]
  unfold validWindowCount
  constructor
  · intro heq i hi c hc
    have hlen : ((List.range (S.seq.length + 1 - k)).filter fun i =>
        (substr S.seq i k).all fun c => decide (c ∈ alphabet)).length =
        (List.range (S.seq.length + 1 - k)).length := by simpa using heq
    have := (List.filter_length_eq_length.1 hlen) i (List.mem_range.2 (by omega))
    simp only [List.all_eq_true, decide_eq_true_eq] at this
    exact this c hc
  · intro hall
    have : ((List.range (S.seq.length + 1 - k)).filter fun i =>
        (substr S.seq i k).all fun c => decide (c ∈ alphabet)).length =
        (List.range (S.seq.length + 1 - k)).length := by
      rw [List.filter_length_eq_length]
      intro i hi
      have hi2 := List.mem_range.1 hi
      simp only [List.all_eq_true, decide_eq_true_eq]
      exact hall i (by omega)
    simpa using this

/-- Witness for C18: in `[ACGTN, AAAA]` with `k = 2` the sequence `ACGTN` has 3 indexed
occurrences out of 4 windows. -/
theorem occurrenceCount_bound_witness :
    (occurrenceCount (buildIndex [Sequence.mk [] [] "ACGTN".toList 0,
        Sequence.mk [] [] "AAAA".toList 1] 2) 0 : Int) ≤ 4 :=
  (occurrenceCount_bound [Sequence.mk [] [] "ACGTN".toList 0,
      Sequence.mk [] [] "AAAA".toList 1] 2 (by decide) (by decide)
    (Sequence.mk [] [] "ACGTN".toList 0) (by decide)).1.trans (by decide)

/-! ## Lemmas: grouping -/

theorem groupPush_keys (groups : List (Int × List HSP)) (h : HSP) :
    (groupPush groups h).map Prod.fst =
      if h.sid ∈ groups.map Prod.fst then groups.map Prod.fst
      else groups.map Prod.fst ++ [h.sid] := by
  induction groups with
  | nil => simp [groupPush]
  | cons g rest ih =>
    obtain ⟨id, l⟩ := g
    by_cases hid : id = h.sid
    · simp [groupPush, hid]
    · have hne : ¬ h.sid = id := fun e => hid e.symm
      simp only [groupPush, if_neg hid, List.map_cons, ih, List.mem_cons, hne, false_or]
      split_ifs <;> simp

theorem groupPush_sids (groups : List (Int × List HSP)) (h : HSP)
    (hg : ∀ g ∈ groups, ∀ x ∈ g.2, x.sid = g.1) :
    ∀ g ∈ groupPush groups h, ∀ x ∈ g.2, x.sid = g.1 := by
  induction groups with
  | nil =>
    intro g hgm x hx
    simp only [groupPush, List.mem_singleton] at hgm
    subst hgm
    simp only [List.mem_singleton] at hx
    rw [hx]
  | cons g0 rest ih =>
    obtain ⟨id, l⟩ := g0
    intro g hgm x hx
    by_cases hid : id = h.sid
    · simp only [groupPush, if_pos hid, List.mem_cons] at hgm
      rcases hgm with rfl | hgm
      · simp only [List.mem_append, List.mem_singleton] at hx
        rcases hx with hx | rfl
        · exact hg (id, l) (List.mem_cons_self _ _) x hx
        · exact hid.symm
      · exact hg g (List.mem_cons_of_mem _ hgm) x hx
    · simp only [groupPush, if_neg hid, List.mem_cons] at hgm
      rcases hgm with rfl | hgm
      · exact hg (id, l) (List.mem_cons_self _ _) x hx
      · exact ih (fun g' hg' => hg g' (List.mem_cons_of_mem _ hg')) g hgm x hx

theorem groupPush_flat (groups : List (Int × List HSP)) (h : HSP) :
    ((groupPush groups h).flatMap Prod.snd).Perm (groups.flatMap Prod.snd ++ [h]) := by
  induction groups with
  | nil => simp [groupPush]
  | cons g rest ih =>
    obtain ⟨id, l⟩ := g
    by_cases hid : id = h.sid
    · simp only [groupPush, if_pos hid, List.flatMap_cons, List.append_assoc]
      exact List.Perm.append_left l List.perm_append_comm
    · simp only [groupPush, if_neg hid, List.flatMap_cons, List.append_assoc]
      exact List.Perm.append_left l ih

theorem foldl_groupPush (l : List HSP) (groups : List (Int × List HSP))
    (hn : (groups.map Prod.fst).Nodup) (hg : ∀ g ∈ groups, ∀ x ∈ g.2, x.sid = g.1) :
    ((l.foldl groupPush groups).map Prod.fst).Nodup ∧
    (∀ g ∈ l.foldl groupPush groups, ∀ x ∈ g.2, x.sid = g.1) ∧
    ((l.foldl groupPush groups).flatMap Prod.snd).Perm (groups.flatMap Prod.snd ++ l) := by
  induction l generalizing groups with
  | nil => exact ⟨hn, hg, by simp⟩
  | cons h rest ih =>
    have hn2 : ((groupPush groups h).map Prod.fst).Nodup := by
      rw [groupPush_keys]
      split_ifs with hm
      · exact hn
      · exact List.Nodup.append hn (List.nodup_singleton _) (by
          intro x hx1 hx2
          simp only [List.mem_singleton] at hx2
          subst hx2
          exact hm hx1)
    obtain ⟨k1, k2, k3⟩ := ih (groupPush groups h) hn2 (groupPush_sids groups h hg)
    refine ⟨k1, k2, k3.trans ?_⟩
    have := (groupPush_flat groups h).append_right rest
    simpa [List.append_assoc] using this

/-- The list swept by `mergeHSPsWith`: the sorted groups one after the other. -/
theorem mergeHSPsWith_eq_sweep (sort : List HSP → List HSP) (hsort : IsSortByStart sort)
    (hsps : List HSP) :
    ∃ L : List HSP, L.Perm hsps ∧
      L.Pairwise (fun a b => a.sid = b.sid → a.db_start ≤ b.db_start) ∧
      mergeHSPsWith sort hsps = sweep [] L := by
  obtain ⟨g1, g2, g3⟩ := foldl_groupPush hsps [] (by simp) (by simp)
  have hfold : ∀ (gs : List (Int × List HSP)) (init : List HSP),
      gs.foldl (fun merged g => sweep merged (sort g.2)) init =
        sweep init (gs.flatMap fun g => sort g.2) := by
    intro gs
    induction gs with
    | nil => intro init; rfl
    | cons g rest ih =>
      intro init
      rw [List.foldl_cons, ih, List.flatMap_cons]
      unfold sweep
      rw [List.foldl_append]
  refine ⟨(groupBySequence hsps).flatMap fun g => sort g.2, ?_, ?_, ?_⟩
  · have h1 : ((groupBySequence hsps).flatMap fun g => sort g.2).Perm
        ((groupBySequence hsps).flatMap Prod.snd) :=
      List.Perm.flatMap_left _ (fun g _ => (hsort g.2).1)
    exact h1.trans (by simpa using g3)
  · rw [List.pairwise_flatMap]
    constructor
    · intro g _
      exact (hsort g.2).2.imp
        (fun {a b : HSP} (h : a.db_start ≤ b.db_start) (_ : a.sid = b.sid) => h)
    · have hk : (groupBySequence hsps).Pairwise (fun a b => a.1 ≠ b.1) := by
        have := g1
        rwa [List.Nodup, List.pairwise_map] at this
      refine hk.imp_of_mem ?_
      intro a b ha hb hab x hx y hy hxy
      exfalso
      have hxa := g2 a ha x (((hsort a.2).1).subset hx)
      have hyb := g2 b hb y (((hsort b.2).1).subset hy)
      exact hab (by rw [← hxa, ← hyb, hxy])
  · unfold mergeHSPsWith
    split_ifs with he
    · have : hsps = [] := by simpa using he
      subst this
      rfl
    · exact hfold _ _

theorem isSortByStart_sortByStart : IsSortByStart sortByStart := by
  intro l
  haveI : IsTotal HSP (fun a b => a.db_start ≤ b.db_start) := ⟨fun a b => le_total _ _⟩
  haveI : IsTrans HSP (fun a b => a.db_start ≤ b.db_start) := ⟨fun a b c => le_trans⟩
  exact ⟨List.perm_insertionSort _ l, List.sorted_insertionSort _ l⟩

/-! ## Lemmas: the merge sweep -/

theorem overlaps_comm (a b : HSP) : overlaps a b = overlaps b a := by
  unfold overlaps
  rw [Bool.or_comm]

theorem overlaps_iff (a b : HSP) :
    overlaps a b = true ↔ b.db_start ≤ a.db_end ∧ a.db_start ≤ b.db_end := by
  unfold overlaps
  simp only [Bool.not_eq_true', Bool.or_eq_false_iff, decide_eq_false_iff_not, not_lt]

theorem better_le {h m : HSP} (hb : better h m = true) : m.score ≤ h.score := by
  unfold better at hb
  simp only [Bool.or_eq_true, decide_eq_true_eq, Bool.and_eq_true] at hb
  rcases hb with hb | ⟨hb, _⟩ <;> omega

theorem not_better_le {h m : HSP} (hb : ¬ better h m = true) : h.score ≤ m.score := by
  unfold better at hb
  simp only [Bool.or_eq_true, decide_eq_true_eq, Bool.and_eq_true, not_or] at hb
  omega

theorem hasOverlap_false_iff (merged : List HSP) (h : HSP) :
    hasOverlap merged h = false ↔ ∀ m ∈ merged, ¬ (m.sid = h.sid ∧ overlaps h m = true) := by
  unfold hasOverlap
  rw [List.any_eq_false]
  simp only [Bool.and_eq_true, decide_eq_true_eq]

theorem sweep_cons (merged : List HSP) (h : HSP) (rest : List HSP) :
    sweep merged (h :: rest) = sweep (mergeStep merged h) rest := rfl

theorem sweep_append (merged l1 l2 : List HSP) :
    sweep merged (l1 ++ l2) = sweep (sweep merged l1) l2 := by
  unfold sweep
  rw [List.foldl_append]

theorem mem_replaceOverlapping {merged : List HSP} {h x : HSP}
    (hx : x ∈ replaceOverlapping merged h) : x ∈ merged ∨ x = h := by
  induction merged with
  | nil => simp [replaceOverlapping] at hx
  | cons m rest ih =>
    unfold replaceOverlapping at hx
    split_ifs at hx with hc hb
    · rcases List.mem_cons.1 hx with rfl | hx
      · exact Or.inr rfl
      · exact Or.inl (List.mem_cons_of_mem _ hx)
    · exact Or.inl hx
    · rcases List.mem_cons.1 hx with rfl | hx
      · exact Or.inl (List.mem_cons_self _ _)
      · rcases ih hx with h1 | h1
        · exact Or.inl (List.mem_cons_of_mem _ h1)
        · exact Or.inr h1

theorem mem_mergeStep {merged : List HSP} {h x : HSP} (hx : x ∈ mergeStep merged h) :
    x ∈ merged ∨ x = h := by
  unfold mergeStep at hx
  split_ifs at hx
  · simpa using hx
  · exact mem_replaceOverlapping hx

theorem mem_sweep {L merged : List HSP} {x : HSP} (hx : x ∈ sweep merged L) :
    x ∈ merged ∨ x ∈ L := by
  induction L generalizing merged with
  | nil => exact Or.inl hx
  | cons h rest ih =>
    rw [sweep_cons] at hx
    rcases ih hx with h1 | h1
    · rcases mem_mergeStep h1 with h2 | rfl
      · exact Or.inl h2
      · exact Or.inr (List.mem_cons_self _ _)
    · exact Or.inr (List.mem_cons_of_mem _ h1)

theorem replaceOverlapping_keeps {merged : List HSP} {h x : HSP} (hx : x ∈ merged)
    (hno : ¬ (x.sid = h.sid ∧ overlaps h x = true)) : x ∈ replaceOverlapping merged h := by
  induction merged with
  | nil => cases hx
  | cons m rest ih =>
    unfold replaceOverlapping
    split_ifs with hc hb
    · rcases List.mem_cons.1 hx with rfl | hx
      · exact absurd hc hno
      · exact List.mem_cons_of_mem _ hx
    · exact hx
    · rcases List.mem_cons.1 hx with rfl | hx
      · exact List.mem_cons_self _ _
      · exact List.mem_cons_of_mem _ (ih hx)

theorem mergeStep_keeps {merged : List HSP} {h x : HSP} (hx : x ∈ merged)
    (hno : ¬ (x.sid = h.sid ∧ overlaps h x = true)) : x ∈ mergeStep merged h := by
  unfold mergeStep
  split_ifs
  · exact List.mem_append_left _ hx
  · exact replaceOverlapping_keeps hx hno

theorem sweep_keeps {L merged : List HSP} {x : HSP} (hx : x ∈ merged)
    (hno : ∀ h ∈ L, ¬ (x.sid = h.sid ∧ overlaps h x = true)) : x ∈ sweep merged L := by
  induction L generalizing merged with
  | nil => exact hx
  | cons h rest ih =>
    rw [sweep_cons]
    exact ih (mergeStep_keeps hx (hno h (List.mem_cons_self _ _)))
      (fun h' hh' => hno h' (List.mem_cons_of_mem _ hh'))

/-- A sweep over HSPs none of which conflicts with a kept one or with another keeps them
all, in order. -/
theorem sweep_disjoint (L merged : List HSP)
    (hp : (merged ++ L).Pairwise (fun a b => ¬ conflict a b)) :
    sweep merged L = merged ++ L := by
  induction L generalizing merged with
  | nil => simp [sweep]
  | cons h rest ih =>
    have hno : hasOverlap merged h = false := by
      rw [hasOverlap_false_iff]
      intro m hm hc
      rw [List.pairwise_append] at hp
      exact hp.2.2 m hm h (List.mem_cons_self _ _) ⟨hc.1, by rw [overlaps_comm]; exact hc.2⟩
    rw [sweep_cons]
    unfold mergeStep
    rw [if_pos hno, ih _ (by simpa [List.append_assoc] using hp)]
    simp

theorem replaceOverlapping_pairwise (merged : List HSP) (h : HSP)
    (hp : merged.Pairwise (fun a b => ¬ conflict a b))
    (hs : ∀ m ∈ merged, m.sid = h.sid → m.db_start ≤ h.db_start) :
    (replaceOverlapping merged h).Pairwise (fun a b => ¬ conflict a b) := by
  induction merged with
  | nil => simp [replaceOverlapping]
  | cons m rest ih =>
    rw [List.pairwise_cons] at hp
    unfold replaceOverlapping
    split_ifs with hc hb
    · rw [List.pairwise_cons]
      refine ⟨?_, hp.2⟩
      intro x hx hcx
      apply hp.1 x hx
      have hm := hs m (List.mem_cons_self _ _) hc.1
      have hxs := hs x (List.mem_cons_of_mem _ hx) hcx.1.symm
      have o1 := (overlaps_iff h m).1 hc.2
      have o2 := (overlaps_iff h x).1 hcx.2
      exact ⟨hc.1.trans hcx.1, (overlaps_iff m x).2 ⟨by omega, by omega⟩⟩
    · exact List.pairwise_cons.2 hp
    · rw [List.pairwise_cons]
      refine ⟨?_, ih hp.2 (fun x hx => hs x (List.mem_cons_of_mem _ hx))⟩
      intro x hx hcx
      rcases mem_replaceOverlapping hx with hx | rfl
      · exact hp.1 x hx hcx
      · exact hc ⟨hcx.1, by rw [overlaps_comm]; exact hcx.2⟩

theorem mergeStep_pairwise (merged : List HSP) (h : HSP)
    (hp : merged.Pairwise (fun a b => ¬ conflict a b))
    (hs : ∀ m ∈ merged, m.sid = h.sid → m.db_start ≤ h.db_start) :
    (mergeStep merged h).Pairwise (fun a b => ¬ conflict a b) := by
  unfold mergeStep
  split_ifs with hno
  · rw [List.pairwise_append]
    refine ⟨hp, List.pairwise_singleton _ _, ?_⟩
    intro m hm y hy hc
    rw [List.mem_singleton] at hy
    subst hy
    exact (hasOverlap_false_iff merged y).1 hno m hm
      ⟨hc.1, by rw [overlaps_comm]; exact hc.2⟩
  · exact replaceOverlapping_pairwise merged h hp hs

/-- The kept HSPs stay pairwise free of conflicts when the swept list is in ascending
`db_start` within each sequence. -/
theorem sweep_pairwise (L merged : List HSP)
    (hp : merged.Pairwise (fun a b => ¬ conflict a b))
    (hs : ∀ m ∈ merged, ∀ h ∈ L, m.sid = h.sid → m.db_start ≤ h.db_start)
    (hL : L.Pairwise (fun a b => a.sid = b.sid → a.db_start ≤ b.db_start)) :
    (sweep merged L).Pairwise (fun a b => ¬ conflict a b) := by
  induction L generalizing merged with
  | nil => exact hp
  | cons h rest ih =>
    rw [List.pairwise_cons] at hL
    rw [sweep_cons]
    apply ih
    · exact mergeStep_pairwise merged h hp (fun m hm => hs m hm h (List.mem_cons_self _ _))
    · intro m hm h' hh'
      rcases mem_mergeStep hm with hm | rfl
      · exact hs m hm h' (List.mem_cons_of_mem _ hh')
      · exact hL.1 h' hh'
    · exact hL.2

/-! ## Lemmas: supersession chains -/

theorem reach_sid_score {input : List HSP} {x y : HSP}
    (h : Relation.ReflTransGen (supersededBy input) x y) : y.sid = x.sid ∧ x.score ≤ y.score := by
  induction h with
  | refl => exact ⟨rfl, le_refl _⟩
  | tail _ hstep ih => exact ⟨hstep.2.1.symm.trans ih.1, ih.2.trans hstep.2.2.2⟩

theorem replaceOverlapping_reach (input merged : List HSP) (h : HSP) (hin : h ∈ input)
    (hm : ∀ m ∈ merged, m ∈ input) (ho : hasOverlap merged h = true) :
    (∃ m ∈ replaceOverlapping merged h, Relation.ReflTransGen (supersededBy input) h m) ∧
    (∀ x ∈ merged, x ∈ replaceOverlapping merged h ∨
      (h ∈ replaceOverlapping merged h ∧ supersededBy input x h)) := by
  induction merged with
  | nil => simp [hasOverlap] at ho
  | cons m rest ih =>
    unfold replaceOverlapping
    split_ifs with hc hb
    · refine ⟨⟨h, List.mem_cons_self _ _, Relation.ReflTransGen.refl⟩, ?_⟩
      intro x hx
      rcases List.mem_cons.1 hx with rfl | hx
      · exact Or.inr ⟨List.mem_cons_self _ _, hin, hc.1,
          by rw [overlaps_comm]; exact hc.2, better_le hb⟩
      · exact Or.inl (List.mem_cons_of_mem _ hx)
    · refine ⟨⟨m, List.mem_cons_self _ _, Relation.ReflTransGen.single
        ⟨hm m (List.mem_cons_self _ _), hc.1.symm, hc.2, not_better_le hb⟩⟩, ?_⟩
      intro x hx
      exact Or.inl hx
    · have ho2 : hasOverlap rest h = true := by
        unfold hasOverlap at ho ⊢
        rw [List.any_cons] at ho
        simp only [Bool.or_eq_true, Bool.and_eq_true, decide_eq_true_eq] at ho
        rcases ho with ho | ho
        · exact absurd ho hc
        · exact ho
      obtain ⟨⟨m', hm', hr⟩, hall⟩ := ih (fun y hy => hm y (List.mem_cons_of_mem _ hy)) ho2
      refine ⟨⟨m', List.mem_cons_of_mem _ hm', hr⟩, ?_⟩
      intro x hx
      rcases List.mem_cons.1 hx with rfl | hx
      · exact Or.inl (List.mem_cons_self _ _)
      · rcases hall x hx with h1 | ⟨h1, h2⟩
        · exact Or.inl (List.mem_cons_of_mem _ h1)
        · exact Or.inr ⟨List.mem_cons_of_mem _ h1, h2⟩

theorem mergeStep_reach (input merged : List HSP) (h : HSP) (hin : h ∈ input)
    (hm : ∀ m ∈ merged, m ∈ input) :
    (∃ m ∈ mergeStep merged h, Relation.ReflTransGen (supersededBy input) h m) ∧
    (∀ x, (∃ m ∈ merged, Relation.ReflTransGen (supersededBy input) x m) →
      ∃ m ∈ mergeStep merged h, Relation.ReflTransGen (supersededBy input) x m) := by
  unfold mergeStep
  split_ifs with hno
  · refine ⟨⟨h, by simp, Relation.ReflTransGen.refl⟩, ?_⟩
    rintro x ⟨m, hmm, hr⟩
    exact ⟨m, List.mem_append_left _ hmm, hr⟩
  · have ho : hasOverlap merged h = true := by simpa using hno
    obtain ⟨h1, h2⟩ := replaceOverlapping_reach input merged h hin hm ho
    refine ⟨h1, ?_⟩
    rintro x ⟨m, hmm, hr⟩
    rcases h2 m hmm with h3 | ⟨h3, h4⟩
    · exact ⟨m, h3, hr⟩
    · exact ⟨h, h3, hr.tail h4⟩

/-- Every swept HSP, and every HSP already represented by a kept one, is represented after
the sweep by a kept HSP that it reaches through supersessions. -/
theorem sweep_reach (input : List HSP) (L merged : List HSP) (hL : ∀ x ∈ L, x ∈ input)
    (hm : ∀ m ∈ merged, m ∈ input) (x : HSP)
    (hx : x ∈ L ∨ ∃ m ∈ merged, Relation.ReflTransGen (supersededBy input) x m) :
    ∃ m ∈ sweep merged L, Relation.ReflTransGen (supersededBy input) x m := by
  induction L generalizing merged with
  | nil =>
    rcases hx with hx | hx
    · cases hx
    · exact hx
  | cons h rest ih =>
    rw [sweep_cons]
    have hin := hL h (List.mem_cons_self _ _)
    obtain ⟨s1, s2⟩ := mergeStep_reach input merged h hin hm
    refine ih (mergeStep merged h) (fun y hy => hL y (List.mem_cons_of_mem _ hy)) ?_ ?_
    · intro m hmm
      rcases mem_mergeStep hmm with h1 | rfl
      · exact hm m h1
      · exact hin
    · rcases hx with hx | hx
      · rcases List.mem_cons.1 hx with rfl | hx
        · exact Or.inr s1
        · exact Or.inl hx
      · exact Or.inr (s2 x hx)

theorem mergeHSPsWith_subset (sort : List HSP → List HSP) (hsort : IsSortByStart sort)
    (input : List HSP) : ∀ m ∈ mergeHSPsWith sort input, m ∈ input := by
  obtain ⟨L, hperm, _, heq⟩ := mergeHSPsWith_eq_sweep sort hsort input
  intro m hm
  rw [heq] at hm
  rcases mem_sweep hm with h1 | h1
  · cases h1
  · exact hperm.subset h1

theorem mergeHSPsWith_reach (sort : List HSP → List HSP) (hsort : IsSortByStart sort)
    (input : List HSP) (h : HSP) (hin : h ∈ input) :
    ∃ m ∈ mergeHSPsWith sort input, Relation.ReflTransGen (supersededBy input) h m := by
  obtain ⟨L, hperm, _, heq⟩ := mergeHSPsWith_eq_sweep sort hsort input
  rw [heq]
  exact sweep_reach input L [] (fun x hx => hperm.subset hx) (by simp) h
    (Or.inl (hperm.symm.subset hin))

theorem exists_max_score (l : List HSP) (hl : l ≠ []) :
    ∃ h ∈ l, ∀ x ∈ l, x.score ≤ h.score := by
  induction l with
  | nil => exact absurd rfl hl
  | cons a rest ih =>
    by_cases hr : rest = []
    · subst hr
      exact ⟨a, by simp, by simp⟩
    · obtain ⟨h, hh, hmax⟩ := ih hr
      by_cases hc : a.score ≤ h.score
      · refine ⟨h, List.mem_cons_of_mem _ hh, ?_⟩
        intro x hx
        rcases List.mem_cons.1 hx with rfl | hx
        · exact hc
        · exact hmax x hx
      · refine ⟨a, List.mem_cons_self _ _, ?_⟩
        intro x hx
        rcases List.mem_cons.1 hx with rfl | hx
        · exact le_refl _
        · exact (hmax x hx).trans (by omega)

theorem perm_pair {l : List HSP} {a b : HSP} (h : l.Perm [a, b]) : l = [a, b] ∨ l = [b, a] := by
  have hlen := h.length_eq
  match l, hlen with
  | [x, y], _ =>
    have hx : x ∈ [a, b] := h.subset (List.mem_cons_self _ _)
    simp only [List.mem_cons, List.mem_singleton, List.not_mem_nil, or_false] at hx
    rcases hx with rfl | rfl
    · have := List.Perm.cons_inv h
      rw [List.perm_singleton] at this
      exact Or.inl (by rw [List.singleton_inj.1 this])
    · have h2 : [x, y].Perm [x, a] := h.trans (List.Perm.swap _ _ _)
      have := List.Perm.cons_inv h2
      rw [List.perm_singleton] at this
      exact Or.inr (by rw [List.singleton_inj.1 this])

theorem sweep_pair (a b : HSP) (hsid : a.sid = b.sid) (ho : overlaps a b = true)
    (hsc : a.score > b.score) : sweep [] [a, b] = [a] ∧ sweep [] [b, a] = [a] := by
  have ho2 : overlaps b a = true := by rw [overlaps_comm]; exact ho
  have hb1 : better b a = false := by
    unfold better
    simp only [Bool.or_eq_false_iff, decide_eq_false_iff_not, Bool.and_eq_false_imp,
      decide_eq_true_eq]
    constructor
    · omega
    · intro h; omega
  have hb2 : better a b = true := by
    unfold better
    simp [hsc]
  constructor
  · simp [sweep, mergeStep, hasOverlap, replaceOverlapping, hsid, ho2, hb1]
  · simp [sweep, mergeStep, hasOverlap, replaceOverlapping, hsid, ho, hb2]

theorem not_conflict_iff (a b : HSP) :
    ¬ conflict a b ↔ (a.sid = b.sid → a.db_end < b.db_start ∨ b.db_end < a.db_start) := by
  unfold conflict
  rw [overlaps_iff]
  constructor
  · intro h hs
    by_contra hc
    exact h ⟨hs, by omega, by omega⟩
  · rintro h ⟨hs, h1, h2⟩
    rcases h hs with h3 | h3 <;> omega

theorem sort_eq_self (sort : List HSP → List HSP) (hsort : IsSortByStart sort) (l : List HSP)
    (hl : l.Pairwise (fun a b => a.db_start < b.db_start)) : sort l = l := by
  obtain ⟨hperm, hsorted⟩ := hsort l
  refine List.Perm.eq_of_sorted ?_ hsorted (hl.imp (fun h => le_of_lt h)) hperm
  intro x y hx hy h1 h2
  by_contra hne
  have hne' : l.Pairwise (fun a b => a.db_start ≠ b.db_start) := hl.imp (fun h => ne_of_lt h)
  exact hne'.forall (fun _ _ h => h.symm) (hperm.subset hx) hy hne (le_antisymm h1 h2)

/-! ## Claims: merging -/

/-- C12 (merged output is non-redundant). Whatever order `std::sort` gives to HSPs of equal
`db_start`, for an input list in which each HSP has `db_start ≤ db_end`, any two entries at
different places of `mergeHSPs(input)` with the same `sid` have disjoint database ranges:
`a.db_end < b.db_start` or `b.db_end < a.db_start`. -/
theorem mergeHSPsWith_nonredundant (sort : List HSP → List HSP) (hsort : IsSortByStart sort)
    (input : List HSP) (_hrange : ∀ h ∈ input, h.db_start ≤ h.db_end) :
    (mergeHSPsWith sort input).Pairwise
      (fun a b => a.sid = b.sid → a.db_end < b.db_start ∨ b.db_end < a.db_start) := by
  obtain ⟨L, _, hL, heq⟩ := mergeHSPsWith_eq_sweep sort hsort input
  rw [heq]
  exact (sweep_pairwise L [] List.Pairwise.nil (by simp) hL).imp
    (fun {a b} h => (not_conflict_iff a b).1 h)

/-- Witness for C12: four HSPs of two sequences, two of them overlapping. -/
theorem mergeHSPsWith_nonredundant_witness :
    (mergeHSPsWith sortByStart
      [HSP.mk 1 0 10 0 10 5 100, HSP.mk 0 11 20 0 9 10 100, HSP.mk 1 8 20 0 12 20 100,
        HSP.mk 0 0 3 0 3 1 100]).Pairwise
      (fun a b => a.sid = b.sid → a.db_end < b.db_start ∨ b.db_end < a.db_start) :=
  mergeHSPsWith_nonredundant sortByStart isSortByStart_sortByStart
    [HSP.mk 1 0 10 0 10 5 100, HSP.mk 0 11 20 0 9 10 100, HSP.mk 1 8 20 0 12 20 100,
      HSP.mk 0 0 3 0 3 1 100] (by decide)

/-- C13 (overlap replacement rule). For two HSPs `a`, `b` on the same sequence with
`db_start ≤ db_end`, intersecting database ranges and `a.score > b.score`, both
`mergeHSPs([a, b])` and `mergeHSPs([b, a])` are the one-element list `[a]`, whatever order
`std::sort` gives to equal `db_start`. -/
theorem mergeHSPsWith_pair (sort : List HSP → List HSP) (hsort : IsSortByStart sort)
    (a b : HSP) (hsid : a.sid = b.sid) (_ha : a.db_start ≤ a.db_end)
    (_hb : b.db_start ≤ b.db_end)
    (ho : ¬ (a.db_end < b.db_start ∨ b.db_end < a.db_start)) (hsc : a.score > b.score) :
    mergeHSPsWith sort [a, b] = [a] ∧ mergeHSPsWith sort [b, a] = [a] := by
  have hov : overlaps a b = true := by
    rw [overlaps_iff]; constructor <;> omega
  obtain ⟨s1, s2⟩ := sweep_pair a b hsid hov hsc
  have g1 : groupBySequence [a, b] = [(a.sid, [a, b])] := by
    simp [groupBySequence, groupPush, hsid]
  have g2 : groupBySequence [b, a] = [(b.sid, [b, a])] := by
    simp [groupBySequence, groupPush, hsid]
  constructor
  · unfold mergeHSPsWith
    rw [g1]
    simp only [List.isEmpty_cons, Bool.false_eq_true, if_false, List.foldl_cons, List.foldl_nil]
    rcases perm_pair (hsort [a, b]).1 with h | h <;> rw [h]
    · exact s1
    · exact s2
  · unfold mergeHSPsWith
    rw [g2]
    simp only [List.isEmpty_cons, Bool.false_eq_true, if_false, List.foldl_cons, List.foldl_nil]
    rcases perm_pair (hsort [b, a]).1 with h | h <;> rw [h]
    · exact s2
    · exact s1

/-- Witness for C13: ranges `[10,20]` score 15 and `[15,25]` score 22 merge to the `[15,25]`
HSP only. -/
theorem mergeHSPsWith_pair_witness :
    mergeHSPsWith sortByStart [HSP.mk 0 15 25 0 10 22 100, HSP.mk 0 10 20 0 10 15 100] =
        [HSP.mk 0 15 25 0 10 22 100] ∧
      mergeHSPsWith sortByStart [HSP.mk 0 10 20 0 10 15 100, HSP.mk 0 15 25 0 10 22 100] =
        [HSP.mk 0 15 25 0 10 22 100] :=
  mergeHSPsWith_pair sortByStart isSortByStart_sortByStart (HSP.mk 0 15 25 0 10 22 100)
    (HSP.mk 0 10 20 0 10 15 100) rfl (by decide) (by decide) (by decide) (by decide)

/-- C14 as stated fails: for the input `[0,10]` score 5, `[8,20]` score 10, `[18,30]` score
20 on one sequence, the sweep replaces the first by the second and the second by the third;
the output is the third HSP alone, whose range does not meet `[0,10]`.  No sorting order
changes this, the three `db_start` being distinct. -/
theorem superseded_overlap_counterexample :
    ¬ ∃ sort : List HSP → List HSP, IsSortByStart sort ∧
      ∃ m ∈ mergeHSPsWith sort
          [HSP.mk 0 0 10 0 10 5 100, HSP.mk 0 8 20 0 12 10 100, HSP.mk 0 18 30 0 12 20 100],
        m.sid = (0 : Int) ∧ ¬ (m.db_end < 0 ∨ (10 : Int) < m.db_start) ∧ (5 : Int) ≤ m.score := by
  rintro ⟨sort, hsort, m, hm, _, hov, _⟩
  have hg : groupBySequence
      [HSP.mk 0 0 10 0 10 5 100, HSP.mk 0 8 20 0 12 10 100, HSP.mk 0 18 30 0 12 20 100] =
      [(0, [HSP.mk 0 0 10 0 10 5 100, HSP.mk 0 8 20 0 12 10 100,
        HSP.mk 0 18 30 0 12 20 100])] := by decide
  have hs := sort_eq_self sort hsort
    [HSP.mk 0 0 10 0 10 5 100, HSP.mk 0 8 20 0 12 10 100, HSP.mk 0 18 30 0 12 20 100]
    (by decide)
  have hsw : sweep []
      [HSP.mk 0 0 10 0 10 5 100, HSP.mk 0 8 20 0 12 10 100, HSP.mk 0 18 30 0 12 20 100] =
      [HSP.mk 0 18 30 0 12 20 100] := by decide
  unfold mergeHSPsWith at hm
  rw [hg] at hm
  simp only [List.isEmpty_cons, Bool.false_eq_true, if_false, List.foldl_cons,
    List.foldl_nil] at hm
  rw [hs, hsw, List.mem_singleton] at hm
  subst hm
  exact hov (Or.inr (by decide))

/-- C14 (amended). An HSP is discarded only when superseded, directly or through a chain of
supersessions: for every input list and every HSP `h` in it, `mergeHSPs(input)` contains an
HSP `m` with `m.sid = h.sid` and `m.score ≥ h.score` that is reached from `h` by a chain of
input HSPs of that sequence, each intersecting the database range of its predecessor and
scoring at least as much (`m` is `h` itself when the chain is empty). -/
theorem mergeHSPsWith_superseded (sort : List HSP → List HSP) (hsort : IsSortByStart sort)
    (input : List HSP) (h : HSP) (hin : h ∈ input) :
    ∃ m ∈ mergeHSPsWith sort input, m.sid = h.sid ∧ h.score ≤ m.score ∧
      Relation.ReflTransGen (supersededBy input) h m := by
  obtain ⟨m, hm, hr⟩ := mergeHSPsWith_reach sort hsort input h hin
  exact ⟨m, hm, (reach_sid_score hr).1, (reach_sid_score hr).2, hr⟩

/-- Witness for C14 (amended): the first HSP of the chain `[0,10]`, `[8,20]`, `[18,30]`. -/
theorem mergeHSPsWith_superseded_witness :
    ∃ m ∈ mergeHSPsWith sortByStart
        [HSP.mk 0 0 10 0 10 5 100, HSP.mk 0 8 20 0 12 10 100, HSP.mk 0 18 30 0 12 20 100],
      m.sid = (HSP.mk 0 0 10 0 10 5 100).sid ∧ (HSP.mk 0 0 10 0 10 5 100).score ≤ m.score ∧
        Relation.ReflTransGen (supersededBy
          [HSP.mk 0 0 10 0 10 5 100, HSP.mk 0 8 20 0 12 10 100, HSP.mk 0 18 30 0 12 20 100])
          (HSP.mk 0 0 10 0 10 5 100) m :=
  mergeHSPsWith_superseded sortByStart isSortByStart_sortByStart
    [HSP.mk 0 0 10 0 10 5 100, HSP.mk 0 8 20 0 12 10 100, HSP.mk 0 18 30 0 12 20 100]
    (HSP.mk 0 0 10 0 10 5 100) (by decide)

/-- C15 (the best-scoring candidate of every sequence survives). For every input list and
every `sid` occurring in it, the scores of the entries of `mergeHSPs(input)` with that `sid`
and the scores of the input entries with that `sid` have the same maximum `M`; and some
entry of `mergeHSPs(input)` scores at least as much as every input entry. -/
theorem mergeHSPsWith_best_survives (sort : List HSP → List HSP) (hsort : IsSortByStart sort)
    (input : List HSP) (s : Int) (hs : ∃ h ∈ input, h.sid = s) :
    (∃ M : Int,
      IsGreatest {x | ∃ m ∈ mergeHSPsWith sort input, m.sid = s ∧ m.score = x} M ∧
      IsGreatest {x | ∃ h ∈ input, h.sid = s ∧ h.score = x} M) ∧
    (∃ m ∈ mergeHSPsWith sort input, ∀ h ∈ input, h.score ≤ m.score) := by
  obtain ⟨h0, h0in, h0s⟩ := hs
  have hsub := mergeHSPsWith_subset sort hsort input
  constructor
  · have hF : input.filter (fun h => decide (h.sid = s)) ≠ [] := by
      intro he
      have : h0 ∈ input.filter (fun h => decide (h.sid = s)) := by
        simp [List.mem_filter, h0in, h0s]
      rw [he] at this
      cases this
    obtain ⟨g, hg, hmax⟩ := exists_max_score _ hF
    simp only [List.mem_filter, decide_eq_true_eq] at hg hmax
    obtain ⟨m, hm, hr⟩ := mergeHSPsWith_reach sort hsort input g hg.1
    obtain ⟨r1, r2⟩ := reach_sid_score hr
    have hms : m.sid = s := r1.trans hg.2
    have hle := hmax m ⟨hsub m hm, hms⟩
    refine ⟨g.score, ⟨⟨m, hm, hms, by omega⟩, ?_⟩, ⟨⟨g, hg.1, hg.2, rfl⟩, ?_⟩⟩
    · rintro x ⟨m', hm', hs', rfl⟩
      exact hmax m' ⟨hsub m' hm', hs'⟩
    · rintro x ⟨h', hh', hs', rfl⟩
      exact hmax h' ⟨hh', hs'⟩
  · obtain ⟨g, hg, hmax⟩ := exists_max_score input (List.ne_nil_of_mem h0in)
    obtain ⟨m, hm, hr⟩ := mergeHSPsWith_reach sort hsort input g hg
    exact ⟨m, hm, fun h hh => (hmax h hh).trans (reach_sid_score hr).2⟩

/-- Witness for C15 on the chain `[0,10]` score 5, `[8,20]` score 10, `[18,30]` score 20. -/
theorem mergeHSPsWith_best_survives_witness :
    (∃ M : Int,
      IsGreatest {x | ∃ m ∈ mergeHSPsWith sortByStart
        [HSP.mk 0 0 10 0 10 5 100, HSP.mk 0 8 20 0 12 10 100, HSP.mk 0 18 30 0 12 20 100],
        m.sid = 0 ∧ m.score = x} M ∧
      IsGreatest {x | ∃ h ∈
        [HSP.mk 0 0 10 0 10 5 100, HSP.mk 0 8 20 0 12 10 100, HSP.mk 0 18 30 0 12 20 100],
        h.sid = 0 ∧ h.score = x} M) ∧
    (∃ m ∈ mergeHSPsWith sortByStart
        [HSP.mk 0 0 10 0 10 5 100, HSP.mk 0 8 20 0 12 10 100, HSP.mk 0 18 30 0 12 20 100],
      ∀ h ∈ [HSP.mk 0 0 10 0 10 5 100, HSP.mk 0 8 20 0 12 10 100,
        HSP.mk 0 18 30 0 12 20 100], h.score ≤ m.score) :=
  mergeHSPsWith_best_survives sortByStart isSortByStart_sortByStart
    [HSP.mk 0 0 10 0 10 5 100, HSP.mk 0 8 20 0 12 10 100, HSP.mk 0 18 30 0 12 20 100] 0
    ⟨HSP.mk 0 0 10 0 10 5 100, by decide, rfl⟩

/-- C16 (merge idempotence on merged lists). For a list of HSPs in which no two entries with
the same `sid` have intersecting database ranges, `mergeHSPs` returns a permutation of the
list. -/
theorem mergeHSPsWith_idempotent (sort : List HSP → List HSP) (hsort : IsSortByStart sort)
    (input : List HSP)
    (hd : input.Pairwise
      (fun a b => a.sid = b.sid → a.db_end < b.db_start ∨ b.db_end < a.db_start)) :
    (mergeHSPsWith sort input).Perm input := by
  obtain ⟨L, hperm, _, heq⟩ := mergeHSPsWith_eq_sweep sort hsort input
  have hd2 : input.Pairwise (fun a b => ¬ conflict a b) :=
    hd.imp (fun {a b} h => (not_conflict_iff a b).2 h)
  have hL : L.Pairwise (fun a b => ¬ conflict a b) :=
    hperm.symm.pairwise hd2 (by
      intro x y hxy hc
      exact hxy ⟨hc.1.symm, by rw [overlaps_comm]; exact hc.2⟩)
  rw [heq, sweep_disjoint L [] (by simpa using hL)]
  simpa using hperm

/-- Witness for C16: three pairwise disjoint HSPs of two sequences. -/
theorem mergeHSPsWith_idempotent_witness :
    (mergeHSPsWith sortByStart
      [HSP.mk 1 11 20 0 9 5 100, HSP.mk 0 0 10 0 10 7 100, HSP.mk 1 0 10 0 10 9 100]).Perm
      [HSP.mk 1 11 20 0 9 5 100, HSP.mk 0 0 10 0 10 7 100, HSP.mk 1 0 10 0 10 9 100] :=
  mergeHSPsWith_idempotent sortByStart isSortByStart_sortByStart
    [HSP.mk 1 11 20 0 9 5 100, HSP.mk 0 0 10 0 10 7 100, HSP.mk 1 0 10 0 10 9 100]
    (by decide)

/-- C19 (isolated HSPs always survive). For every input list, an HSP `h` whose database
range intersects the range of no other input entry with the same `sid` is in
`mergeHSPs(input)`. -/
theorem mergeHSPsWith_isolated (sort : List HSP → List HSP) (hsort : IsSortByStart sort)
    (l1 : List HSP) (h : HSP) (l2 : List HSP)
    (hiso : ∀ x ∈ l1 ++ l2, x.sid = h.sid → h.db_end < x.db_start ∨ x.db_end < h.db_start) :
    h ∈ mergeHSPsWith sort (l1 ++ h :: l2) := by
  obtain ⟨L, hperm, _, heq⟩ := mergeHSPsWith_eq_sweep sort hsort (l1 ++ h :: l2)
  have hL : h ∈ L := hperm.symm.subset (by simp)
  obtain ⟨s, t, rfl⟩ := List.append_of_mem hL
  have hst : (s ++ t).Perm (l1 ++ l2) :=
    List.Perm.cons_inv ((List.perm_middle.symm.trans hperm).trans List.perm_middle)
  have hno : ∀ x ∈ s ++ t, ¬ (x.sid = h.sid ∧ overlaps h x = true) := by
    intro x hx hc
    have o := (overlaps_iff h x).1 hc.2
    rcases hiso x (hst.subset hx) hc.1 with h1 | h1 <;> omega
  rw [heq, sweep_append, sweep_cons]
  apply sweep_keeps
  · unfold mergeStep
    rw [if_pos ((hasOverlap_false_iff _ _).2 (fun m hm => by
      rcases mem_sweep hm with h1 | h1
      · cases h1
      · exact hno m (List.mem_append_left _ h1)))]
    simp
  · intro x hx hc
    exact hno x (List.mem_append_right _ hx) ⟨hc.1.symm, by rw [overlaps_comm]; exact hc.2⟩

/-- Witness for C19: the adjacent ranges `[0,10]` and `[11,20]` of one sequence are both
kept, the lower-scoring one included. -/
theorem mergeHSPsWith_isolated_witness :
    HSP.mk 0 0 10 0 10 3 100 ∈
      mergeHSPsWith sortByStart ([] ++ HSP.mk 0 0 10 0 10 3 100 :: [HSP.mk 0 11 20 0 9 50 100]) ∧
    HSP.mk 0 11 20 0 9 50 100 ∈
      mergeHSPsWith sortByStart ([HSP.mk 0 0 10 0 10 3 100] ++ HSP.mk 0 11 20 0 9 50 100 :: []) :=
  ⟨mergeHSPsWith_isolated sortByStart isSortByStart_sortByStart [] (HSP.mk 0 0 10 0 10 3 100)
      [HSP.mk 0 11 20 0 9 50 100] (by decide),
    mergeHSPsWith_isolated sortByStart isSortByStart_sortByStart [HSP.mk 0 0 10 0 10 3 100]
      (HSP.mk 0 11 20 0 9 50 100) [] (by decide)⟩

/-! ## Lemmas: the X-drop bound -/

theorem passStep_xdrop (db_seq query : List Char) (ds qs delta : Int) (s : PassState)
    (hinv : XdropInv db_seq query ds qs delta s) (hnb : ¬ s.score < s.best_score - 20) :
    XdropInv db_seq query ds qs delta (passStep db_seq query delta s) := by
  obtain ⟨n, b, hdb, hq, hbest, hbn, hsb, hJ, hrunb, hrunn⟩ := hinv
  have hrun := hrunn hnb
  have hpd : s.db_pos + delta = ds + delta * ((n + 1 : Nat) : Int) := by
    rw [hdb]; push_cast; ring
  have hpq : s.q_pos + delta = qs + delta * ((n + 1 : Nat) : Int) := by
    rw [hq]; push_cast; ring
  have hsc := passStep_score db_seq query delta s
  rw [hpd, hpq] at hsc
  have hext : ∀ j : Nat, 1 ≤ j → j + 20 ≤ n + 1 →
      ¬ stepMismatch db_seq query ds qs delta (n + 1) →
      ∃ t : Nat, t ≤ 20 ∧ ¬ stepMismatch db_seq query ds qs delta (j + t) := by
    intro j hj hjn hmatch
    rcases Nat.lt_or_ge n (j + 20) with h1 | h1
    · have : j + 20 = n + 1 := by omega
      exact ⟨20, le_refl _, by rw [this]; exact hmatch⟩
    · exact hrun j hj h1
  by_cases hm : stepMismatch db_seq query ds qs delta (n + 1)
  · -- mismatch: the score drops by one, the best pair stays
    have hps : pairScore db_seq query (ds + delta * ((n + 1 : Nat) : Int))
        (qs + delta * ((n + 1 : Nat) : Int)) = -1 := by
      unfold pairScore; rw [if_neg hm]
    rw [hps] at hsc
    rcases passStep_best db_seq query delta s with ⟨b1, _, b3, _⟩ | ⟨_, _, _, b4⟩
    · have hJ' : ∀ r : Nat, r ≤ n + 1 →
          (∀ t : Nat, t < r → stepMismatch db_seq query ds qs delta (n + 1 - t)) →
          (passStep db_seq query delta s).score + (r : Int) ≤
            (passStep db_seq query delta s).best_score := by
        intro r hr hall
        rw [hsc, b3]
        cases r with
        | zero => simp; omega
        | succ r' =>
          have := hJ r' (by omega) (fun t ht => by
            have := hall (t + 1) (by omega)
            rwa [show n + 1 - (t + 1) = n - t by omega] at this)
          push_cast; omega
      refine ⟨n + 1, b, by rw [passStep_db_pos, hpd], by rw [passStep_q_pos, hpq],
        by rw [b1, hbest], by omega, by rw [hsc, b3]; omega, hJ', hrunb, ?_⟩
      intro hnb' j hj hjn
      rcases Nat.lt_or_ge n (j + 20) with h1 | h1
      · by_contra hcon
        push_neg at hcon
        have h21 := hJ' 21 (by omega) (fun t ht => by
          have := hcon (20 - t) (by omega)
          rwa [show j + (20 - t) = n + 1 - t by omega] at this)
        apply hnb'
        push_cast at h21
        omega
      · exact hrun j hj h1
    · exfalso; omega
  · -- match: the score rises by two
    have hps : pairScore db_seq query (ds + delta * ((n + 1 : Nat) : Int))
        (qs + delta * ((n + 1 : Nat) : Int)) = 2 := by
      unfold pairScore stepMismatch at *
      rw [if_pos (not_not.1 hm)]
    rw [hps] at hsc
    have hJ' : ∀ r : Nat, r ≤ n + 1 →
        (∀ t : Nat, t < r → stepMismatch db_seq query ds qs delta (n + 1 - t)) →
        (passStep db_seq query delta s).score ≤ (passStep db_seq query delta s).best_score →
        (passStep db_seq query delta s).score + (r : Int) ≤
          (passStep db_seq query delta s).best_score := by
      intro r hr hall hle
      cases r with
      | zero => simpa using hle
      | succ r' => exact absurd (hall 0 (by omega)) hm
    rcases passStep_best db_seq query delta s with ⟨b1, _, b3, b4⟩ | ⟨b1, _, b3, _⟩
    · exact ⟨n + 1, b, by rw [passStep_db_pos, hpd], by rw [passStep_q_pos, hpq],
        by rw [b1, hbest], by omega, by rw [b3]; exact b4,
        fun r hr hall => hJ' r hr hall (by rw [b3]; exact b4), hrunb,
        fun _ j hj hjn => hext j hj hjn hm⟩
    · exact ⟨n + 1, n + 1, by rw [passStep_db_pos, hpd], by rw [passStep_q_pos, hpq],
        by rw [b1, hpd], le_refl _, by rw [b3],
        fun r hr hall => hJ' r hr hall (by rw [b3]),
        fun j hj hjn => hext j hj hjn hm, fun _ j hj hjn => hext j hj hjn hm⟩

theorem xdropInv_init (db_seq query : List Char) (ds qs delta : Int) :
    XdropInv db_seq query ds qs delta (PassState.mk ds qs 0 0 ds qs) := by
  refine ⟨0, 0, by simp, by simp, by simp, le_refl _, le_refl _, ?_, ?_, ?_⟩
  · intro r hr _
    have : r = 0 := by omega
    subst this; simp
  · intro j _ hj; omega
  · intro _ j _ hj; omega

/-- Invariants of the rightward loop that may use that the drop test has not fired at the
head of an iteration. -/
theorem rightLoop_induct_head (db_seq query : List Char) (P : PassState → Prop)
    (hstep : ∀ s, P s → ¬ s.score < s.best_score - 20 → P (passStep db_seq query 1 s))
    (fuel : Nat) (st : PassState) (h0 : P st) (hnb : ¬ st.score < st.best_score - 20) :
    P (rightLoop db_seq query fuel st) := by
  induction fuel generalizing st with
  | zero => exact h0
  | succ n ih =>
    rw [rightLoop_succ]
    split_ifs with hc hb
    · exact hstep st h0 hnb
    · exact ih _ (hstep st h0 hnb) hb
    · exact h0

/-- Invariants of the leftward loop that may use that the drop test has not fired at the
head of an iteration. -/
theorem leftLoop_induct_head (db_seq query : List Char) (P : PassState → Prop)
    (hstep : ∀ s, P s → ¬ s.score < s.best_score - 20 → P (passStep db_seq query (-1) s))
    (fuel : Nat) (st : PassState) (h0 : P st) (hnb : ¬ st.score < st.best_score - 20) :
    P (leftLoop db_seq query fuel st) := by
  induction fuel generalizing st with
  | zero => exact h0
  | succ n ih =>
    rw [leftLoop_succ]
    split_ifs with hc hb
    · exact hstep st h0 hnb
    · exact ih _ (hstep st h0 hnb) hb
    · exact h0

theorem rightPass_xdrop (db_seq query : List Char) (ds qs : Int) :
    XdropInv db_seq query ds qs 1 (rightPass db_seq query ds qs) :=
  rightLoop_induct_head db_seq query (XdropInv db_seq query ds qs 1)
    (fun s hs hnb => passStep_xdrop db_seq query ds qs 1 s hs hnb) _ _
    (xdropInv_init db_seq query ds qs 1) (by simp)

theorem leftPass_xdrop (db_seq query : List Char) (ds qs : Int) :
    XdropInv db_seq query ds qs (-1) (leftPass db_seq query ds qs) :=
  leftLoop_induct_head db_seq query (XdropInv db_seq query ds qs (-1))
    (fun s hs hnb => passStep_xdrop db_seq query ds qs (-1) s hs hnb) _ _
    (xdropInv_init db_seq query ds qs (-1)) (by simp)

/-! ## Lemmas: boundary seeds and cursor bounds -/

theorem rightLoop_stop (db_seq query : List Char) (fuel : Nat) (st : PassState)
    (h : ¬ (st.db_pos + 1 < (db_seq.length : Int) ∧ st.q_pos + 1 < (query.length : Int))) :
    rightLoop db_seq query fuel st = st := by
  cases fuel with
  | zero => rfl
  | succ n => rw [rightLoop_succ, if_neg h]

theorem leftLoop_stop (db_seq query : List Char) (fuel : Nat) (st : PassState)
    (h : ¬ (st.db_pos > 0 ∧ st.q_pos > 0)) : leftLoop db_seq query fuel st = st := by
  cases fuel with
  | zero => rfl
  | succ n => rw [leftLoop_succ, if_neg h]

/-- Every state the rightward loop can be in, after any number of iterations, has its cursor
inside both strings when the seed is; these are the positions the loop reads. -/
theorem rightLoop_cursor (db_seq query : List Char) (ds qs : Int)
    (hd0 : 0 ≤ ds) (hd1 : ds < (db_seq.length : Int))
    (hq0 : 0 ≤ qs) (hq1 : qs < (query.length : Int)) (fuel : Nat) :
    0 ≤ (rightLoop db_seq query fuel (PassState.mk ds qs 0 0 ds qs)).db_pos ∧
    (rightLoop db_seq query fuel (PassState.mk ds qs 0 0 ds qs)).db_pos < (db_seq.length : Int) ∧
    0 ≤ (rightLoop db_seq query fuel (PassState.mk ds qs 0 0 ds qs)).q_pos ∧
    (rightLoop db_seq query fuel (PassState.mk ds qs 0 0 ds qs)).q_pos < (query.length : Int) := by
  apply rightLoop_induct db_seq query (fun s => 0 ≤ s.db_pos ∧ s.db_pos < (db_seq.length : Int) ∧
    0 ≤ s.q_pos ∧ s.q_pos < (query.length : Int))
  · intro s ⟨h1, h2, h3, h4⟩ hc1 hc2
    rw [passStep_db_pos, passStep_q_pos]
    refine ⟨?_, ?_, ?_, ?_⟩ <;> omega
  · exact ⟨hd0, hd1, hq0, hq1⟩

/-- Every state the leftward loop can be in has its cursor inside both strings when the seed
is. -/
theorem leftLoop_cursor (db_seq query : List Char) (ds qs : Int)
    (hd0 : 0 ≤ ds) (hd1 : ds < (db_seq.length : Int))
    (hq0 : 0 ≤ qs) (hq1 : qs < (query.length : Int)) (fuel : Nat) :
    0 ≤ (leftLoop db_seq query fuel (PassState.mk ds qs 0 0 ds qs)).db_pos ∧
    (leftLoop db_seq query fuel (PassState.mk ds qs 0 0 ds qs)).db_pos < (db_seq.length : Int) ∧
    0 ≤ (leftLoop db_seq query fuel (PassState.mk ds qs 0 0 ds qs)).q_pos ∧
    (leftLoop db_seq query fuel (PassState.mk ds qs 0 0 ds qs)).q_pos < (query.length : Int) := by
  apply leftLoop_induct db_seq query (fun s => 0 ≤ s.db_pos ∧ s.db_pos < (db_seq.length : Int) ∧
    0 ≤ s.q_pos ∧ s.q_pos < (query.length : Int))
  · intro s ⟨h1, h2, h3, h4⟩ hc1 hc2
    rw [passStep_db_pos, passStep_q_pos]
    refine ⟨?_, ?_, ?_, ?_⟩ <;> omega
  · exact ⟨hd0, hd1, hq0, hq1⟩

/-! ## Claims: boundary seeds and bounds -/

/-- C22 (boundary seeds). With the seed inside both sequences: if `db_seed_pos = 0` or
`q_seed_pos = 0` then `db_start = db_seed_pos` and `q_start = q_seed_pos`; if
`db_seed_pos = |db_seq| - 1` or `q_seed_pos = |query| - 1` then `db_end = db_seed_pos` and
`q_end = q_seed_pos`. -/
theorem extendUngapped_boundary (db_seq query : List Char) (ds qs : Int)
    (_hd0 : 0 ≤ ds) (_hd1 : ds < (db_seq.length : Int))
    (_hq0 : 0 ≤ qs) (_hq1 : qs < (query.length : Int)) :
    ((ds = 0 ∨ qs = 0) →
      (extendUngapped db_seq query ds qs).db_start = ds ∧
      (extendUngapped db_seq query ds qs).q_start = qs) ∧
    ((ds = (db_seq.length : Int) - 1 ∨ qs = (query.length : Int) - 1) →
      (extendUngapped db_seq query ds qs).db_end = ds ∧
      (extendUngapped db_seq query ds qs).q_end = qs) := by
  constructor
  · intro h
    rw [extendUngapped_db_start, extendUngapped_q_start]
    unfold leftPass
    rw [leftLoop_stop _ _ _ _ (by simp only; omega)]
    exact ⟨rfl, rfl⟩
  · intro h
    rw [extendUngapped_db_end, extendUngapped_q_end]
    unfold rightPass
    rw [rightLoop_stop _ _ _ _ (by simp only; omega)]
    exact ⟨rfl, rfl⟩

/-- Witness for C22: `ACGT` against `CGTA` with the seed `(0, 3)`, blocked on both sides. -/
theorem extendUngapped_boundary_witness :
    ((extendUngapped "ACGT".toList "CGTA".toList 0 3).db_start = 0 ∧
      (extendUngapped "ACGT".toList "CGTA".toList 0 3).q_start = 3) ∧
    ((extendUngapped "ACGT".toList "CGTA".toList 0 3).db_end = 0 ∧
      (extendUngapped "ACGT".toList "CGTA".toList 0 3).q_end = 3) :=
  ⟨(extendUngapped_boundary "ACGT".toList "CGTA".toList 0 3 (by decide) (by decide) (by decide)
      (by decide)).1 (Or.inl rfl),
    (extendUngapped_boundary "ACGT".toList "CGTA".toList 0 3 (by decide) (by decide) (by decide)
      (by decide)).2 (Or.inr (by decide))⟩

/-- C25 (extension stays in bounds and contains the seed). With `0 ≤ db_seed_pos < |db_seq|`
and `0 ≤ q_seed_pos < |query|`, `extendUngapped` returns
`0 ≤ db_start ≤ db_seed_pos ≤ db_end < |db_seq|` and
`0 ≤ q_start ≤ q_seed_pos ≤ q_end < |query|`; the cursor of either pass is inside both strings
after any number of iterations, and the positions `db_start + i`, `q_start + i` read by the
score recomputation and by `calculateIdentity` (`i ≤ db_end - db_start`) are inside the
strings. -/
theorem extendUngapped_in_bounds (db_seq query : List Char) (ds qs : Int)
    (hd0 : 0 ≤ ds) (hd1 : ds < (db_seq.length : Int))
    (hq0 : 0 ≤ qs) (hq1 : qs < (query.length : Int)) :
    (0 ≤ (extendUngapped db_seq query ds qs).db_start ∧
      (extendUngapped db_seq query ds qs).db_start ≤ ds ∧
      ds ≤ (extendUngapped db_seq query ds qs).db_end ∧
      (extendUngapped db_seq query ds qs).db_end < (db_seq.length : Int)) ∧
    (0 ≤ (extendUngapped db_seq query ds qs).q_start ∧
      (extendUngapped db_seq query ds qs).q_start ≤ qs ∧
      qs ≤ (extendUngapped db_seq query ds qs).q_end ∧
      (extendUngapped db_seq query ds qs).q_end < (query.length : Int)) ∧
    (∀ fuel : Nat,
      (0 ≤ (rightLoop db_seq query fuel (PassState.mk ds qs 0 0 ds qs)).db_pos ∧
        (rightLoop db_seq query fuel (PassState.mk ds qs 0 0 ds qs)).db_pos <
          (db_seq.length : Int) ∧
        0 ≤ (rightLoop db_seq query fuel (PassState.mk ds qs 0 0 ds qs)).q_pos ∧
        (rightLoop db_seq query fuel (PassState.mk ds qs 0 0 ds qs)).q_pos <
          (query.length : Int)) ∧
      (0 ≤ (leftLoop db_seq query fuel (PassState.mk ds qs 0 0 ds qs)).db_pos ∧
        (leftLoop db_seq query fuel (PassState.mk ds qs 0 0 ds qs)).db_pos <
          (db_seq.length : Int) ∧
        0 ≤ (leftLoop db_seq query fuel (PassState.mk ds qs 0 0 ds qs)).q_pos ∧
        (leftLoop db_seq query fuel (PassState.mk ds qs 0 0 ds qs)).q_pos <
          (query.length : Int))) ∧
    (∀ i : Int, 0 ≤ i →
      i ≤ (extendUngapped db_seq query ds qs).db_end -
        (extendUngapped db_seq query ds qs).db_start →
      (0 ≤ (extendUngapped db_seq query ds qs).db_start + i ∧
        (extendUngapped db_seq query ds qs).db_start + i < (db_seq.length : Int)) ∧
      (0 ≤ (extendUngapped db_seq query ds qs).q_start + i ∧
        (extendUngapped db_seq query ds qs).q_start + i < (query.length : Int))) := by
  obtain ⟨h1, h2, h3, h4⟩ := extendUngapped_shape db_seq query ds qs
  obtain ⟨b1, b2, b3, b4⟩ := extendUngapped_bounds db_seq query ds qs hd0 hd1 hq0 hq1
  refine ⟨⟨b1, h3, h4, b2⟩, ⟨b3, by omega, by omega, b4⟩, ?_, ?_⟩
  · intro fuel
    exact ⟨rightLoop_cursor db_seq query ds qs hd0 hd1 hq0 hq1 fuel,
      leftLoop_cursor db_seq query ds qs hd0 hd1 hq0 hq1 fuel⟩
  · intro i hi0 hi1
    refine ⟨⟨by omega, by omega⟩, ⟨by omega, by omega⟩⟩

/-- Witness for C25: `ACGTACGT` against `TCGTTCGA`, seed `(2, 2)`: ranges 1..6 and 1..6. -/
theorem extendUngapped_in_bounds_witness :
    (0 ≤ (extendUngapped "ACGTACGT".toList "TCGTTCGA".toList 2 2).db_start ∧
      (extendUngapped "ACGTACGT".toList "TCGTTCGA".toList 2 2).db_start ≤ 2 ∧
      2 ≤ (extendUngapped "ACGTACGT".toList "TCGTTCGA".toList 2 2).db_end ∧
      (extendUngapped "ACGTACGT".toList "TCGTTCGA".toList 2 2).db_end <
        (("ACGTACGT".toList.length : Nat) : Int)) ∧
    (0 ≤ (extendUngapped "ACGTACGT".toList "TCGTTCGA".toList 2 2).q_start ∧
      (extendUngapped "ACGTACGT".toList "TCGTTCGA".toList 2 2).q_start ≤ 2 ∧
      2 ≤ (extendUngapped "ACGTACGT".toList "TCGTTCGA".toList 2 2).q_end ∧
      (extendUngapped "ACGTACGT".toList "TCGTTCGA".toList 2 2).q_end <
        (("TCGTTCGA".toList.length : Nat) : Int)) :=
  ⟨(extendUngapped_in_bounds "ACGTACGT".toList "TCGTTCGA".toList 2 2 (by decide) (by decide)
      (by decide) (by decide)).1,
    (extendUngapped_in_bounds "ACGTACGT".toList "TCGTTCGA".toList 2 2 (by decide) (by decide)
      (by decide) (by decide)).2.1⟩

/-! ## Lemmas: merge only selects -/

theorem replaceOverlapping_subperm (merged : List HSP) (h : HSP) :
    (replaceOverlapping merged h).Subperm (merged ++ [h]) := by
  induction merged with
  | nil => simp [replaceOverlapping]
  | cons m rest ih =>
    unfold replaceOverlapping
    split_ifs with hc hb
    · exact List.Subperm.cons_right m (List.perm_append_singleton h rest).symm.subperm
    · exact (List.sublist_append_left (m :: rest) [h]).subperm
    · exact (List.subperm_cons m).2 ih

theorem mergeStep_subperm (merged : List HSP) (h : HSP) :
    (mergeStep merged h).Subperm (merged ++ [h]) := by
  unfold mergeStep
  split_ifs
  · exact List.Subperm.refl _
  · exact replaceOverlapping_subperm merged h

theorem sweep_subperm (L merged : List HSP) : (sweep merged L).Subperm (merged ++ L) := by
  induction L generalizing merged with
  | nil => simpa [sweep] using List.Subperm.refl merged
  | cons h rest ih =>
    rw [sweep_cons]
    refine (ih (mergeStep merged h)).trans ?_
    have := (List.subperm_append_right rest).2 (mergeStep_subperm merged h)
    simpa [List.append_assoc] using this

theorem mergeHSPsWith_subperm (sort : List HSP → List HSP) (hsort : IsSortByStart sort)
    (input : List HSP) : (mergeHSPsWith sort input).Subperm input := by
  obtain ⟨L, hperm, _, heq⟩ := mergeHSPsWith_eq_sweep sort hsort input
  rw [heq]
  have h1 : (sweep [] L).Subperm L := by simpa using sweep_subperm L []
  exact h1.trans hperm.subperm

/-! ## Claims: merge only selects -/

/-- C26 (merge only selects). For every input list, `mergeHSPs(input)` is a sub-multiset of
the input: every output entry is an input entry and no entry is output more often than it
occurs in the input; the output is at most as long as the input, the `sid`s of the output
are those of the input, and the output is empty exactly when the input is. -/
theorem mergeHSPsWith_selects (sort : List HSP → List HSP) (hsort : IsSortByStart sort)
    (input : List HSP) :
    (mergeHSPsWith sort input).Subperm input ∧
    (∀ m ∈ mergeHSPsWith sort input, m ∈ input) ∧
    (∀ m : HSP, (mergeHSPsWith sort input).count m ≤ input.count m) ∧
    (mergeHSPsWith sort input).length ≤ input.length ∧
    (∀ s : Int, (∃ m ∈ mergeHSPsWith sort input, m.sid = s) ↔ (∃ h ∈ input, h.sid = s)) ∧
    (mergeHSPsWith sort input = [] ↔ input = []) := by
  have hsp := mergeHSPsWith_subperm sort hsort input
  have hsub := mergeHSPsWith_subset sort hsort input
  refine ⟨hsp, hsub, fun m => hsp.count_le m, hsp.length_le, ?_, ?_⟩
  · intro s
    constructor
    · rintro ⟨m, hm, hs⟩
      exact ⟨m, hsub m hm, hs⟩
    · rintro ⟨h, hh, hs⟩
      obtain ⟨m, hm, hr⟩ := mergeHSPsWith_reach sort hsort input h hh
      exact ⟨m, hm, (reach_sid_score hr).1.trans hs⟩
  · constructor
    · intro he
      by_contra hne
      obtain ⟨h, hh⟩ := List.exists_mem_of_ne_nil input hne
      obtain ⟨m, hm, _⟩ := mergeHSPsWith_reach sort hsort input h hh
      rw [he] at hm
      cases hm
    · intro he
      subst he
      rfl

/-- Witness for C26: the chain `[0,10]`, `[8,20]`, `[18,30]` of one sequence and one HSP of
another sequence; two entries come out. -/
theorem mergeHSPsWith_selects_witness :
    (mergeHSPsWith sortByStart
      [HSP.mk 0 0 10 0 10 5 100, HSP.mk 0 8 20 0 12 10 100, HSP.mk 1 4 9 0 5 7 100,
        HSP.mk 0 18 30 0 12 20 100]).length ≤ 4 :=
  (mergeHSPsWith_selects sortByStart isSortByStart_sortByStart
    [HSP.mk 0 0 10 0 10 5 100, HSP.mk 0 8 20 0 12 10 100, HSP.mk 1 4 9 0 5 7 100,
      HSP.mk 0 18 30 0 12 20 100]).2.2.2.1

/-! ## Lemmas: directional scores -/

theorem cumScore_succ (db_seq query : List Char) (ds qs delta : Int) (n : Nat) :
    cumScore db_seq query ds qs delta (n + 1) =
      cumScore db_seq query ds qs delta n +
        pairScore db_seq query (ds + delta * ((n + 1 : Nat) : Int))
          (qs + delta * ((n + 1 : Nat) : Int)) := by
  unfold cumScore
  rw [Finset.sum_range_succ]
  push_cast
  rfl

theorem passStep_runningMax (db_seq query : List Char) (ds qs delta : Int) (s : PassState)
    (hinv : RunningMax db_seq query ds qs delta s) :
    RunningMax db_seq query ds qs delta (passStep db_seq query delta s) := by
  obtain ⟨n, b, hdb, hq, hbdb, hbq, hbn, hsc, hbs, hmax⟩ := hinv
  have hpd : s.db_pos + delta = ds + delta * ((n + 1 : Nat) : Int) := by
    rw [hdb]; push_cast; ring
  have hpq : s.q_pos + delta = qs + delta * ((n + 1 : Nat) : Int) := by
    rw [hq]; push_cast; ring
  have hs' : (passStep db_seq query delta s).score =
      cumScore db_seq query ds qs delta (n + 1) := by
    rw [passStep_score, hpd, hpq, cumScore_succ, hsc]
  rcases passStep_best db_seq query delta s with ⟨b1, b2, b3, b4⟩ | ⟨b1, b2, b3, b4⟩
  · refine ⟨n + 1, b, by rw [passStep_db_pos, hpd], by rw [passStep_q_pos, hpq],
      by rw [b1, hbdb], by rw [b2, hbq], by omega, hs', by rw [b3, hbs], ?_⟩
    intro i hi
    rw [b3]
    rcases Nat.lt_or_ge n i with h1 | h1
    · have : i = n + 1 := by omega
      subst this
      rw [← hs']; exact b4
    · exact hmax i h1
  · refine ⟨n + 1, n + 1, by rw [passStep_db_pos, hpd], by rw [passStep_q_pos, hpq],
      by rw [b1, hpd], by rw [b2, hpq], le_refl _, hs', by rw [b3, hs'], ?_⟩
    intro i hi
    rw [b3]
    rcases Nat.lt_or_ge n i with h1 | h1
    · have : i = n + 1 := by omega
      subst this
      rw [hs']
    · exact (hmax i h1).trans (le_of_lt b4)

theorem runningMax_init (db_seq query : List Char) (ds qs delta : Int) :
    RunningMax db_seq query ds qs delta (PassState.mk ds qs 0 0 ds qs) := by
  refine ⟨0, 0, by simp, by simp, by simp, by simp, le_refl _, by simp [cumScore],
    by simp [cumScore], ?_⟩
  intro i hi
  have : i = 0 := by omega
  subst this
  simp [cumScore]

theorem rightPass_runningMax (db_seq query : List Char) (ds qs : Int) :
    RunningMax db_seq query ds qs 1 (rightPass db_seq query ds qs) :=
  rightLoop_induct db_seq query (RunningMax db_seq query ds qs 1)
    (fun s hs _ _ => passStep_runningMax db_seq query ds qs 1 s hs) _ _
    (runningMax_init db_seq query ds qs 1)

theorem leftPass_runningMax (db_seq query : List Char) (ds qs : Int) :
    RunningMax db_seq query ds qs (-1) (leftPass db_seq query ds qs) :=
  leftLoop_induct db_seq query (RunningMax db_seq query ds qs (-1))
    (fun s hs _ _ => passStep_runningMax db_seq query ds qs (-1) s hs) _ _
    (runningMax_init db_seq query ds qs (-1))

theorem runningMax_nonneg {db_seq query : List Char} {ds qs delta : Int} {s : PassState}
    (h : RunningMax db_seq query ds qs delta s) : 0 ≤ s.best_score := by
  obtain ⟨n, b, _, _, _, _, _, _, _, hmax⟩ := h
  have := hmax 0 (Nat.zero_le _)
  simpa [cumScore] using this

/-- The recomputed score is the sum of the two directional best scores and the score of the
seed pair. -/
theorem extendUngapped_score_split (db_seq query : List Char) (ds qs : Int) :
    (extendUngapped db_seq query ds qs).score =
      (rightPass db_seq query ds qs).best_score + (leftPass db_seq query ds qs).best_score +
        pairScore db_seq query ds qs := by
  obtain ⟨nR, bR, _, _, hRdb, hRq, _, _, hRs, _⟩ := rightPass_runningMax db_seq query ds qs
  obtain ⟨nL, bL, _, _, hLdb, hLq, _, _, hLs, _⟩ := leftPass_runningMax db_seq query ds qs
  rw [extendUngapped_score_sum, extendUngapped_db_start, extendUngapped_db_end,
    extendUngapped_q_start, hRdb, hLdb, hLq, hRs, hLs]
  have hN : (ds + 1 * (bR : Int) - (ds + -1 * (bL : Int)) + 1).toNat = bL + (1 + bR) := by
    have : ds + 1 * (bR : Int) - (ds + -1 * (bL : Int)) + 1 = ((bL + (1 + bR) : Nat) : Int) := by
      push_cast; ring
    rw [this, Int.toNat_natCast]
  rw [hN, Finset.sum_range_add, Finset.sum_range_add, Finset.sum_range_one]
  have hseed : pairScore db_seq query (ds + -1 * (bL : Int) + ((bL + 0 : Nat) : Int))
      (qs + -1 * (bL : Int) + ((bL + 0 : Nat) : Int)) = pairScore db_seq query ds qs := by
    congr 1 <;> (push_cast; ring)
  have hright : ∑ x ∈ Finset.range bR,
      pairScore db_seq query (ds + -1 * (bL : Int) + ((bL + (1 + x) : Nat) : Int))
        (qs + -1 * (bL : Int) + ((bL + (1 + x) : Nat) : Int)) =
      cumScore db_seq query ds qs 1 bR := by
    unfold cumScore
    apply Finset.sum_congr rfl
    intro x _
    congr 1 <;> (push_cast; ring)
  have hleft : ∑ x ∈ Finset.range bL,
      pairScore db_seq query (ds + -1 * (bL : Int) + (x : Int))
        (qs + -1 * (bL : Int) + (x : Int)) =
      cumScore db_seq query ds qs (-1) bL := by
    unfold cumScore
    rw [← Finset.sum_range_reflect]
    apply Finset.sum_congr rfl
    intro x hx
    have hx' := Finset.mem_range.1 hx
    have hc : ((bL - 1 - x : Nat) : Int) = (bL : Int) - 1 - (x : Int) := by omega
    rw [hc]
    congr 1 <;> ring
  rw [hseed, hright, hleft]
  ring

/-! ## Lemmas: the stop rule -/

theorem bestUpTo_succ (db_seq query : List Char) (ds qs delta : Int) (i : Nat) :
    bestUpTo db_seq query ds qs delta (i + 1) =
      max (bestUpTo db_seq query ds qs delta i) (cumScore db_seq query ds qs delta (i + 1)) :=
  rfl

theorem cumScore_le_bestUpTo (db_seq query : List Char) (ds qs delta : Int) (n i : Nat)
    (h : i ≤ n) :
    cumScore db_seq query ds qs delta i ≤ bestUpTo db_seq query ds qs delta n := by
  induction n with
  | zero =>
    have : i = 0 := by omega
    subst this
    simp [cumScore, bestUpTo]
  | succ n ih =>
    rw [bestUpTo_succ]
    rcases Nat.lt_or_ge n i with h1 | h1
    · have : i = n + 1 := by omega
      subst this
      exact le_max_right _ _
    · exact (ih h1).trans (le_max_left _ _)

theorem dropped_false_iff (db_seq query : List Char) (ds qs delta : Int) (i : Nat) :
    dropped db_seq query ds qs delta i = false ↔
      bestUpTo db_seq query ds qs delta i - 20 ≤ cumScore db_seq query ds qs delta i := by
  unfold dropped
  rw [decide_eq_false_iff_not, not_lt]

theorem dropped_iff (db_seq query : List Char) (ds qs delta : Int) (i : Nat) :
    dropped db_seq query ds qs delta i = true ↔
      cumScore db_seq query ds qs delta i < bestUpTo db_seq query ds qs delta i - 20 := by
  unfold dropped
  rw [decide_eq_true_iff]

theorem passStep_stopRule (db_seq query : List Char) (ds qs delta : Int) (s : PassState)
    (hinv : StopRule db_seq query ds qs delta s) (hnb : ¬ s.score < s.best_score - 20) :
    StopRule db_seq query ds qs delta (passStep db_seq query delta s) := by
  obtain ⟨n, b, hdb, hq, hbdb, hbq, hbn, hsc, hbs, hcb, hfirst, hnd⟩ := hinv
  have hpd : s.db_pos + delta = ds + delta * ((n + 1 : Nat) : Int) := by
    rw [hdb]; push_cast; ring
  have hpq : s.q_pos + delta = qs + delta * ((n + 1 : Nat) : Int) := by
    rw [hq]; push_cast; ring
  have hs' : (passStep db_seq query delta s).score =
      cumScore db_seq query ds qs delta (n + 1) := by
    rw [passStep_score, hpd, hpq, cumScore_succ, hsc]
  have hnd' : ∀ i : Nat, i < n + 1 → dropped db_seq query ds qs delta i = false := by
    intro i hi
    rcases Nat.lt_or_ge i n with h1 | h1
    · exact hnd i h1
    · have : i = n := by omega
      subst this
      rw [dropped_false_iff, ← hsc, ← hbs]
      omega
  rcases passStep_best db_seq query delta s with ⟨b1, b2, b3, b4⟩ | ⟨b1, b2, b3, b4⟩
  · have hmax : bestUpTo db_seq query ds qs delta (n + 1) =
        bestUpTo db_seq query ds qs delta n := by
      rw [bestUpTo_succ, ← hs', ← hbs]
      exact max_eq_left b4
    exact ⟨n + 1, b, by rw [passStep_db_pos, hpd], by rw [passStep_q_pos, hpq],
      by rw [b1, hbdb], by rw [b2, hbq], by omega, hs', by rw [b3, hbs, hmax],
      by rw [hmax]; exact hcb, hfirst, hnd'⟩
  · have hmax : bestUpTo db_seq query ds qs delta (n + 1) =
        cumScore db_seq query ds qs delta (n + 1) := by
      rw [bestUpTo_succ, ← hs', ← hbs]
      exact max_eq_right (le_of_lt b4)
    refine ⟨n + 1, n + 1, by rw [passStep_db_pos, hpd], by rw [passStep_q_pos, hpq],
      by rw [b1, hpd], by rw [b2, hpq], le_refl _, hs', by rw [b3, hs', hmax],
      hmax.symm, ?_, hnd'⟩
    intro i hi
    have h1 := cumScore_le_bestUpTo db_seq query ds qs delta n i (by omega)
    rw [← hs']
    rw [← hbs] at h1
    omega

theorem stopRule_init (db_seq query : List Char) (ds qs delta : Int) :
    StopRule db_seq query ds qs delta (PassState.mk ds qs 0 0 ds qs) := by
  refine ⟨0, 0, by simp, by simp, by simp, by simp, le_refl _, by simp [cumScore],
    by simp [bestUpTo], by simp [cumScore, bestUpTo], ?_, ?_⟩
  · intro i hi; omega
  · intro i hi; omega

theorem rightPass_stopRule (db_seq query : List Char) (ds qs : Int) :
    StopRule db_seq query ds qs 1 (rightPass db_seq query ds qs) :=
  rightLoop_induct_head db_seq query (StopRule db_seq query ds qs 1)
    (fun s hs hnb => passStep_stopRule db_seq query ds qs 1 s hs hnb) _ _
    (stopRule_init db_seq query ds qs 1) (by simp)

theorem leftPass_stopRule (db_seq query : List Char) (ds qs : Int) :
    StopRule db_seq query ds qs (-1) (leftPass db_seq query ds qs) :=
  leftLoop_induct_head db_seq query (StopRule db_seq query ds qs (-1))
    (fun s hs hnb => passStep_stopRule db_seq query ds qs (-1) s hs hnb) _ _
    (stopRule_init db_seq query ds qs (-1)) (by simp)

theorem rightPass_exit (db_seq query : List Char) (ds qs : Int) :
    ¬ ((rightPass db_seq query ds qs).db_pos + 1 < (db_seq.length : Int) ∧
        (rightPass db_seq query ds qs).q_pos + 1 < (query.length : Int)) ∨
      (rightPass db_seq query ds qs).score < (rightPass db_seq query ds qs).best_score - 20 :=
  rightLoop_exit db_seq query _ _ (by simp only; omega)

theorem leftPass_exit (db_seq query : List Char) (ds qs : Int) :
    ¬ ((leftPass db_seq query ds qs).db_pos > 0 ∧ (leftPass db_seq query ds qs).q_pos > 0) ∨
      (leftPass db_seq query ds qs).score < (leftPass db_seq query ds qs).best_score - 20 :=
  leftLoop_exit db_seq query _ _ (by simp only; omega)

/-- Every step the rightward pass makes starts from a cursor that has a further position
in both sequences. -/
theorem rightPass_inside (db_seq query : List Char) (ds qs : Int) :
    ∃ n : Nat, (rightPass db_seq query ds qs).db_pos = ds + (n : Int) ∧
      ∀ i : Nat, i < n →
        ds + (i : Int) + 1 < (db_seq.length : Int) ∧ qs + (i : Int) + 1 < (query.length : Int) := by
  have h := rightLoop_induct db_seq query
    (fun s => ∃ n : Nat, s.db_pos = ds + (n : Int) ∧ s.q_pos = qs + (n : Int) ∧
      ∀ i : Nat, i < n →
        ds + (i : Int) + 1 < (db_seq.length : Int) ∧ qs + (i : Int) + 1 < (query.length : Int))
    (by
      rintro s ⟨n, hdb, hq, hin⟩ hc1 hc2
      refine ⟨n + 1, by rw [passStep_db_pos, hdb]; push_cast; ring,
        by rw [passStep_q_pos, hq]; push_cast; ring, ?_⟩
      intro i hi
      rcases Nat.lt_or_ge i n with h1 | h1
      · exact hin i h1
      · have : i = n := by omega
        subst this
        rw [hdb] at hc1
        rw [hq] at hc2
        exact ⟨hc1, hc2⟩)
    ((db_seq.length : Int) - ds).toNat (PassState.mk ds qs 0 0 ds qs)
    ⟨0, by simp, by simp, fun i hi => absurd hi (Nat.not_lt_zero i)⟩
  obtain ⟨n, hdb, _, hin⟩ := h
  exact ⟨n, hdb, hin⟩

/-- Every step the leftward pass makes starts from a cursor that is not at the start of
either sequence. -/
theorem leftPass_inside (db_seq query : List Char) (ds qs : Int) :
    ∃ n : Nat, (leftPass db_seq query ds qs).db_pos = ds - (n : Int) ∧
      ∀ i : Nat, i < n → ds - (i : Int) > 0 ∧ qs - (i : Int) > 0 := by
  have h := leftLoop_induct db_seq query
    (fun s => ∃ n : Nat, s.db_pos = ds - (n : Int) ∧ s.q_pos = qs - (n : Int) ∧
      ∀ i : Nat, i < n → ds - (i : Int) > 0 ∧ qs - (i : Int) > 0)
    (by
      rintro s ⟨n, hdb, hq, hin⟩ hc1 hc2
      refine ⟨n + 1, by rw [passStep_db_pos, hdb]; push_cast; ring,
        by rw [passStep_q_pos, hq]; push_cast; ring, ?_⟩
      intro i hi
      rcases Nat.lt_or_ge i n with h1 | h1
      · exact hin i h1
      · have : i = n := by omega
        subst this
        rw [hdb] at hc1
        rw [hq] at hc2
        exact ⟨hc1, hc2⟩)
    ds.toNat (PassState.mk ds qs 0 0 ds qs)
    ⟨0, by simp, by simp, fun i hi => absurd hi (Nat.not_lt_zero i)⟩
  obtain ⟨n, hdb, _, hin⟩ := h
  exact ⟨n, hdb, hin⟩

/-! ## Claims: the X-drop bound -/

/-- C20 (X-drop bound). With the seed inside both sequences, the part of the result of
`extendUngapped` strictly right of the seed (database positions `db_seed_pos+1 .. db_end`)
and the part strictly left of it (`db_start .. db_seed_pos-1`) contain no run of more than
20 consecutive mismatching position pairs: any 21 consecutive positions `j .. j+20` of such a
part hold a position whose pair on the seed's diagonal matches.  This is so because of the
stop rule, stated for each direction: the pass makes `n` steps, where `n` is the first step
count at which the cumulative score is more than 20 below the best cumulative score so far
(`dropped`), or at which the next step would leave a sequence (at every step count before
`n` neither is the case); and the result ends `b ≤ n` steps from the seed, where `b` is the
first step count that reaches the best cumulative score of the first `n` steps. -/
theorem extendUngapped_xdrop (db_seq query : List Char) (ds qs : Int)
    (_hd0 : 0 ≤ ds) (_hd1 : ds < (db_seq.length : Int))
    (_hq0 : 0 ≤ qs) (_hq1 : qs < (query.length : Int)) :
    (∀ j : Int, ds < j → j + 20 ≤ (extendUngapped db_seq query ds qs).db_end →
      ∃ t : Int, 0 ≤ t ∧ t ≤ 20 ∧
        charAt db_seq (j + t) = charAt query (j + t - (ds - qs))) ∧
    (∀ j : Int, (extendUngapped db_seq query ds qs).db_start ≤ j → j + 20 < ds →
      ∃ t : Int, 0 ≤ t ∧ t ≤ 20 ∧
        charAt db_seq (j + t) = charAt query (j + t - (ds - qs))) ∧
    (∃ n b : Nat, b ≤ n ∧
      (∀ i : Nat, i < n → dropped db_seq query ds qs 1 i = false ∧
        ds + (i : Int) + 1 < (db_seq.length : Int) ∧
        qs + (i : Int) + 1 < (query.length : Int)) ∧
      (dropped db_seq query ds qs 1 n = true ∨
        ¬ (ds + (n : Int) + 1 < (db_seq.length : Int) ∧
            qs + (n : Int) + 1 < (query.length : Int))) ∧
      cumScore db_seq query ds qs 1 b = bestUpTo db_seq query ds qs 1 n ∧
      (∀ i : Nat, i < b → cumScore db_seq query ds qs 1 i < cumScore db_seq query ds qs 1 b) ∧
      (extendUngapped db_seq query ds qs).db_end = ds + (b : Int) ∧
      (extendUngapped db_seq query ds qs).q_end = qs + (b : Int)) ∧
    (∃ n b : Nat, b ≤ n ∧
      (∀ i : Nat, i < n → dropped db_seq query ds qs (-1) i = false ∧
        ds - (i : Int) > 0 ∧ qs - (i : Int) > 0) ∧
      (dropped db_seq query ds qs (-1) n = true ∨
        ¬ (ds - (n : Int) > 0 ∧ qs - (n : Int) > 0)) ∧
      cumScore db_seq query ds qs (-1) b = bestUpTo db_seq query ds qs (-1) n ∧
      (∀ i : Nat, i < b →
        cumScore db_seq query ds qs (-1) i < cumScore db_seq query ds qs (-1) b) ∧
      (extendUngapped db_seq query ds qs).db_start = ds - (b : Int) ∧
      (extendUngapped db_seq query ds qs).q_start = qs - (b : Int)) := by
  refine ⟨?_, ?_, ?_, ?_⟩
  · intro j hj hje
    obtain ⟨n, b, _, _, hbest, _, _, _, hrun, _⟩ := rightPass_xdrop db_seq query ds qs
    rw [extendUngapped_db_end, hbest] at hje
    obtain ⟨t, ht, hmt⟩ := hrun (j - ds).toNat (by omega) (by omega)
    refine ⟨(t : Int), by omega, by omega, ?_⟩
    unfold stepMismatch at hmt
    have e1 : ds + 1 * (((j - ds).toNat + t : Nat) : Int) = j + (t : Int) := by
      push_cast; rw [Int.toNat_of_nonneg (by omega)]; ring
    have e2 : qs + 1 * (((j - ds).toNat + t : Nat) : Int) = j + (t : Int) - (ds - qs) := by
      push_cast; rw [Int.toNat_of_nonneg (by omega)]; ring
    rw [e1, e2] at hmt
    exact not_not.1 hmt
  · intro j hj hje
    obtain ⟨n, b, _, _, hbest, _, _, _, hrun, _⟩ := leftPass_xdrop db_seq query ds qs
    rw [extendUngapped_db_start, hbest] at hj
    obtain ⟨t, ht, hmt⟩ := hrun (ds - j - 20).toNat (by omega) (by omega)
    refine ⟨20 - (t : Int), by omega, by omega, ?_⟩
    unfold stepMismatch at hmt
    have e1 : ds + -1 * (((ds - j - 20).toNat + t : Nat) : Int) = j + (20 - (t : Int)) := by
      push_cast; rw [Int.toNat_of_nonneg (by omega)]; ring
    have e2 : qs + -1 * (((ds - j - 20).toNat + t : Nat) : Int) =
        j + (20 - (t : Int)) - (ds - qs) := by
      push_cast; rw [Int.toNat_of_nonneg (by omega)]; ring
    rw [e1, e2] at hmt
    exact not_not.1 hmt
  · obtain ⟨n, b, hdb, hq, hbdb, hbq, hbn, hsc, hbs, hcb, hfirst, hnd⟩ :=
      rightPass_stopRule db_seq query ds qs
    obtain ⟨n2, hdb2, hin⟩ := rightPass_inside db_seq query ds qs
    have hn : n2 = n := by
      rw [hdb] at hdb2
      omega
    subst hn
    refine ⟨n2, b, hbn, fun i hi => ⟨hnd i hi, hin i hi⟩, ?_, hcb, hfirst, ?_, ?_⟩
    · rcases rightPass_exit db_seq query ds qs with h | h
      · right
        rw [hdb, hq] at h
        simpa using h
      · left
        rw [dropped_iff, ← hsc, ← hbs]
        exact h
    · rw [extendUngapped_db_end, hbdb]; ring
    · rw [extendUngapped_q_end, hbq]; ring
  · obtain ⟨n, b, hdb, hq, hbdb, hbq, hbn, hsc, hbs, hcb, hfirst, hnd⟩ :=
      leftPass_stopRule db_seq query ds qs
    obtain ⟨n2, hdb2, hin⟩ := leftPass_inside db_seq query ds qs
    have hn : n2 = n := by
      rw [hdb] at hdb2
      omega
    subst hn
    refine ⟨n2, b, hbn, fun i hi => ⟨hnd i hi, hin i hi⟩, ?_, hcb, hfirst, ?_, ?_⟩
    · rcases leftPass_exit db_seq query ds qs with h | h
      · right
        rw [hdb, hq] at h
        intro hc
        apply h
        constructor <;> omega
      · left
        rw [dropped_iff, ← hsc, ← hbs]
        exact h
    · rw [extendUngapped_db_start, hbdb]; ring
    · rw [extendUngapped_q_start, hbq]; ring

/-- Witness for C20: `xdropDb` against `xdropQuery` with the seed at position 31.  A drop of
exactly 20 does not stop a pass: both passes cross their run of 20 mismatches and the result
is the whole range 0-62 (the drop test is `false` after the 20 mismatches of either side);
the 21 positions from 32 and from 10 each hold a match.  With a run of 21 mismatches right of
the seed the drop test is `true` after the 21st, and the result ends at the seed. -/
theorem extendUngapped_xdrop_witness :
    (extendUngapped xdropDb xdropQuery 31 31).db_start = 0 ∧
    (extendUngapped xdropDb xdropQuery 31 31).db_end = 62 ∧
    (∃ t : Int, 0 ≤ t ∧ t ≤ 20 ∧
      charAt xdropDb (32 + t) = charAt xdropQuery (32 + t - (31 - 31))) ∧
    (∃ t : Int, 0 ≤ t ∧ t ≤ 20 ∧
      charAt xdropDb (10 + t) = charAt xdropQuery (10 + t - (31 - 31))) ∧
    dropped xdropDb xdropQuery 31 31 1 20 = false ∧
    dropped xdropDb xdropQuery 31 31 (-1) 20 = false ∧
    (extendUngapped (['A'] ++ List.replicate 21 'C' ++ List.replicate 30 'G')
      (['A'] ++ List.replicate 21 'T' ++ List.replicate 30 'G') 0 0).db_end = 0 ∧
    dropped (['A'] ++ List.replicate 21 'C' ++ List.replicate 30 'G')
      (['A'] ++ List.replicate 21 'T' ++ List.replicate 30 'G') 0 0 1 21 = true :=
  have h := extendUngapped_xdrop xdropDb xdropQuery 31 31 (by decide) (by decide) (by decide)
    (by decide)
  have hs : (extendUngapped xdropDb xdropQuery 31 31).db_start = 0 := by decide
  have he : (extendUngapped xdropDb xdropQuery 31 31).db_end = 62 := by decide
  ⟨hs, he, h.1 32 (by decide) (by rw [he]; decide), h.2.1 10 (by rw [hs]; decide) (by decide),
    by decide, by decide, by decide, by decide⟩

/-! ## Lemmas: the seed k-mer -/

/-- On a seed whose `k`-mer occurs at `i` in the database sequence and at `p` in the query,
the rightward pass from `(i, p)` reaches at least the last pair of the `k`-mer with a best
score of at least `2 (k - 1)`. -/
theorem rightPass_covers_kmer (d q : List Char) (i p k : Nat) (hk : 1 ≤ k)
    (hd : i + k ≤ d.length) (hq : p + k ≤ q.length)
    (hm : ∀ t : Nat, t < k → charAt d ((i : Int) + (t : Int)) = charAt q ((p : Int) + (t : Int))) :
    (i : Int) + (k : Int) - 1 ≤ (rightPass d q (i : Int) (p : Int)).best_db ∧
    2 * ((k : Int) - 1) ≤ (rightPass d q (i : Int) (p : Int)).best_score := by
  have hP := rightLoop_induct d q (fun s : PassState => ∃ n b : Nat,
      s.db_pos = (i : Int) + (n : Int) ∧ s.q_pos = (p : Int) + (n : Int) ∧
      s.best_db = (i : Int) + (b : Int) ∧
      (n + 1 ≤ k → b = n ∧ s.score = 2 * (n : Int) ∧ s.best_score = 2 * (n : Int)) ∧
      (k ≤ n + 1 → k ≤ b + 1 ∧ 2 * ((k : Int) - 1) ≤ s.best_score)) (by
      rintro s ⟨n, b, hdb, hqp, hb, h1, h2⟩ _ _
      rcases Nat.lt_or_ge (n + 1) k with hlt | hge
      · obtain ⟨e1, e2, e3⟩ := h1 (by omega)
        have hmm : charAt d (s.db_pos + 1) = charAt q (s.q_pos + 1) := by
          have := hm (n + 1) hlt
          rw [hdb, hqp]
          push_cast at this
          rw [add_assoc, add_assoc]
          exact this
        rw [passStep_match d q 1 s hmm (by rw [e2, e3])]
        refine ⟨n + 1, n + 1, by simp only; rw [hdb]; push_cast; ring,
          by simp only; rw [hqp]; push_cast; ring,
          by simp only; rw [hdb]; push_cast; ring, ?_, ?_⟩
        · intro _
          refine ⟨rfl, ?_, ?_⟩ <;> (simp only; rw [e2]; push_cast; ring)
        · intro hk2
          refine ⟨hk2, ?_⟩
          simp only
          rw [e2]
          have : (k : Int) ≤ (n : Int) + 2 := by exact_mod_cast hk2
          omega
      · obtain ⟨e1, e2⟩ := h2 hge
        rcases passStep_best d q 1 s with ⟨b1, _, b3, _⟩ | ⟨b1, _, b3, b4⟩
        · exact ⟨n + 1, b, by rw [passStep_db_pos, hdb]; push_cast; ring,
            by rw [passStep_q_pos, hqp]; push_cast; ring, by rw [b1, hb],
            fun h => by omega, fun _ => ⟨e1, by rw [b3]; exact e2⟩⟩
        · exact ⟨n + 1, n + 1, by rw [passStep_db_pos, hdb]; push_cast; ring,
            by rw [passStep_q_pos, hqp]; push_cast; ring,
            by rw [b1, hdb]; push_cast; ring,
            fun h => by omega, fun _ => ⟨by omega, by rw [b3]; omega⟩⟩)
    ((d.length : Int) - (i : Int)).toNat
    (PassState.mk (i : Int) (p : Int) 0 0 (i : Int) (p : Int))
    ⟨0, 0, by simp, by simp, by simp, fun _ => ⟨rfl, by simp, by simp⟩, fun h => by
      have : k = 1 := by omega
      subst this
      simp⟩
  have hX := rightLoop_exit d q ((d.length : Int) - (i : Int)).toNat
    (PassState.mk (i : Int) (p : Int) 0 0 (i : Int) (p : Int)) (by simp only; omega)
  obtain ⟨n, b, hdb, hqp, hb, h1, h2⟩ := hP
  unfold rightPass
  have hkn : k ≤ n + 1 := by
    by_contra hlt
    obtain ⟨_, e2, e3⟩ := h1 (by omega)
    rcases hX with hx | hx
    · apply hx
      rw [hdb, hqp]
      constructor <;> omega
    · omega
  obtain ⟨e1, e2⟩ := h2 hkn
  rw [hb]
  exact ⟨by omega, e2⟩

theorem encodeKmer_inj_upper (s t : List Char) (hlen : s.length = t.length)
    (hk : s.length ≤ 16) (hs : ∀ c ∈ s, c ∈ upperAlphabet) (ht : ∀ c ∈ t, c ∈ upperAlphabet)
    (h : encodeKmer s = encodeKmer t) : s = t := by
  have es : encodeKmer s = kmerValue s :=
    encodeKmer_valid s (fun c hc => (isNucleotide_iff c).2 (upper_subset (hs c hc))) hk
  have et : encodeKmer t = kmerValue t :=
    encodeKmer_valid t (fun c hc => (isNucleotide_iff c).2 (upper_subset (ht c hc)))
      (by omega)
  have ds := decodeKmer_kmerValue s hs
  have dt := decodeKmer_kmerValue t ht
  rw [es, et] at h
  rw [← ds, ← dt, h, hlen]

theorem upper_of_not_lower {c : Char} (h1 : c ∈ alphabet) (h2 : c ∉ ['a', 'c', 'g', 't']) :
    c ∈ upperAlphabet := by
  simp only [alphabet, upperAlphabet, List.mem_cons, List.mem_singleton, List.not_mem_nil,
    or_false, not_or] at h1 h2 ⊢
  tauto

theorem mem_of_mem_substr {seq : List Char} {i k : Nat} {c : Char} (h : c ∈ substr seq i k) :
    c ∈ seq :=
  List.mem_of_mem_drop (List.mem_of_mem_take h)

/-- The extension of a seed at the start of a common `k`-mer contains the `k`-mer and scores
at least `2k`. -/
theorem extendUngapped_contains_kmer (d q : List Char) (i p k : Nat) (hk : 1 ≤ k)
    (hd : i + k ≤ d.length) (hq : p + k ≤ q.length)
    (heq : substr d i k = substr q p k) :
    (extendUngapped d q (i : Int) (p : Int)).db_start ≤ (i : Int) ∧
    (i : Int) + (k : Int) - 1 ≤ (extendUngapped d q (i : Int) (p : Int)).db_end ∧
    (extendUngapped d q (i : Int) (p : Int)).db_start -
      (extendUngapped d q (i : Int) (p : Int)).q_start = (i : Int) - (p : Int) ∧
    2 * (k : Int) ≤ (extendUngapped d q (i : Int) (p : Int)).score := by
  have hm : ∀ t : Nat, t < k →
      charAt d ((i : Int) + (t : Int)) = charAt q ((p : Int) + (t : Int)) := by
    intro t ht
    rw [← charAt_substr d i k t hd ht, ← charAt_substr q p k t hq ht, heq]
  obtain ⟨c1, c2⟩ := rightPass_covers_kmer d q i p k hk hd hq hm
  obtain ⟨s1, _, s3, _⟩ := extendUngapped_shape d q (i : Int) (p : Int)
  have hL := runningMax_nonneg (leftPass_runningMax d q (i : Int) (p : Int))
  have hseed : pairScore d q (i : Int) (p : Int) = 2 := by
    have := hm 0 (by omega)
    simp only [Nat.cast_zero, add_zero] at this
    unfold pairScore
    rw [if_pos this]
  refine ⟨s3, by rw [extendUngapped_db_end]; exact c1, s1, ?_⟩
  rw [extendUngapped_score_split, hseed]
  omega

/-! ## Claims: seed contribution and seed k-mer -/

/-- C21 (seed contribution). With the seed inside both sequences, the score returned by
`extendUngapped` is the best score of the rightward pass plus the best score of the leftward
pass plus the score of the seed pair (`+2` when `db_seq[db_seed_pos] = query[q_seed_pos]`,
`-1` otherwise); each best score is the largest cumulative score the pass reached (the
cumulative score at its best pair, at least every cumulative score up to the cursor, and at
least 0). -/
theorem extendUngapped_seed_contribution (db_seq query : List Char) (ds qs : Int)
    (_hd0 : 0 ≤ ds) (_hd1 : ds < (db_seq.length : Int))
    (_hq0 : 0 ≤ qs) (_hq1 : qs < (query.length : Int)) :
    (extendUngapped db_seq query ds qs).score =
      (rightPass db_seq query ds qs).best_score + (leftPass db_seq query ds qs).best_score +
        (if charAt db_seq ds = charAt query qs then 2 else -1) ∧
    RunningMax db_seq query ds qs 1 (rightPass db_seq query ds qs) ∧
    RunningMax db_seq query ds qs (-1) (leftPass db_seq query ds qs) ∧
    0 ≤ (rightPass db_seq query ds qs).best_score ∧
    0 ≤ (leftPass db_seq query ds qs).best_score :=
  ⟨extendUngapped_score_split db_seq query ds qs, rightPass_runningMax db_seq query ds qs,
    leftPass_runningMax db_seq query ds qs,
    runningMax_nonneg (rightPass_runningMax db_seq query ds qs),
    runningMax_nonneg (leftPass_runningMax db_seq query ds qs)⟩

/-- Witness for C21: `ACGTACGT` against `TCGTTCGA`, seed `(2, 2)`: rightward best 5,
leftward best 2, seed pair 2, score 9. -/
theorem extendUngapped_seed_contribution_witness :
    (extendUngapped "ACGTACGT".toList "TCGTTCGA".toList 2 2).score = 5 + 2 + 2 :=
  (extendUngapped_seed_contribution "ACGTACGT".toList "TCGTTCGA".toList 2 2 (by decide)
    (by decide) (by decide) (by decide)).1.trans (by decide)

/-- C24 (every reported HSP contains its whole seed k-mer). For `k` in `[1,16]`, a database
whose entries carry `index` equal to their list position and hold no lowercase `a c g t`, a
query without lowercase `a c g t`, and `index = buildIndex(database, k)`, every HSP `h` of
`findHSPs` has positions `i`, `p` with `database[h.sid].seq[i .. i+k) = query[p .. p+k)`,
`h.db_start ≤ i`, `i + k - 1 ≤ h.db_end`, `h.db_start - h.q_start = i - p` and
`h.score ≥ 2k`. -/
theorem findHSPs_contains_seed (query : List Char) (database : List Sequence) (k : Nat)
    (hidx : ∀ (n : Nat) (h : n < database.length), (database.get ⟨n, h⟩).index = (n : Int))
    (hk1 : 1 ≤ k) (hk16 : k ≤ 16)
    (hdb : ∀ seq ∈ database, ∀ c ∈ seq.seq, c ∉ ['a', 'c', 'g', 't'])
    (hqu : ∀ c ∈ query, c ∉ ['a', 'c', 'g', 't'])
    (h : HSP) (hh : h ∈ findHSPs query database (buildIndex database k) k) :
    ∃ (i p : Nat) (seq : Sequence), 0 ≤ h.sid ∧ database[h.sid.toNat]? = some seq ∧
      i + k ≤ seq.seq.length ∧ p + k ≤ query.length ∧
      substr seq.seq i k = substr query p k ∧
      h.db_start ≤ (i : Int) ∧ (i : Int) + (k : Int) - 1 ≤ h.db_end ∧
      h.db_start - h.q_start = (i : Int) - (p : Int) ∧ 2 * (k : Int) ≤ h.score := by
  rw [findHSPs_eq] at hh
  unfold seedEnumeration at hh
  obtain ⟨p, hp, hmem⟩ := List.mem_flatMap.1 hh
  have hpk : p + k ≤ query.length := by
    have := List.mem_range.1 hp
    omega
  unfold seedsAt at hmem
  split_ifs at hmem with hv
  swap
  · simp at hmem
  obtain ⟨occ, hocc, rfl⟩ := List.mem_map.1 hmem
  obtain ⟨s, i⟩ := occ
  rw [occs_buildIndex] at hocc
  obtain ⟨seq, hseq, n, hn, hvs, hkey, hs, hi⟩ := mem_dbOccurrences.1 hocc
  obtain ⟨m, hm, rfl⟩ := List.getElem_of_mem hseq
  have him : (database.get ⟨m, hm⟩).index = (m : Int) := hidx m hm
  simp only [List.get_eq_getElem] at him
  have hsm : s = (m : Int) := hs.trans him
  have hget : database[(m : Int).toNat]? = some database[m] := by
    rw [Int.toNat_natCast]; exact List.getElem?_eq_getElem hm
  have hseqAt : dbSeqAt database (m : Int) = database[m].seq := by
    unfold dbSeqAt
    rw [if_pos (Int.natCast_nonneg m), hget]
  have hvq : ∀ c ∈ substr query p k, c ∈ alphabet := by
    simpa [List.all_eq_true] using hv
  have hwin : substr database[m].seq n k = substr query p k := by
    apply encodeKmer_inj_upper
    · rw [substr_length _ _ _ hn, substr_length _ _ _ hpk]
    · rw [substr_length _ _ _ hn]; exact hk16
    · intro c hc
      exact upper_of_not_lower (hvs c hc) (hdb _ hseq c (mem_of_mem_substr hc))
    · intro c hc
      exact upper_of_not_lower (hvq c hc) (hqu c (mem_of_mem_substr hc))
    · exact hkey
  obtain ⟨e1, e2, e3, e4⟩ := extendUngapped_contains_kmer database[m].seq query n p k hk1 hn
    hpk hwin
  subst hsm hi
  refine ⟨n, p, database[m], Int.natCast_nonneg m, hget, hn, hpk, hwin, ?_, ?_, ?_, ?_⟩
  · simp only [hseqAt]; exact e1
  · simp only [hseqAt]; exact e2
  · simp only [hseqAt]; exact e3
  · simp only [hseqAt]; exact e4

/-- Witness for C24: database `[AAACCCGGGTTT]`, query `CCCGGG`, `k = 3`, and the first HSP
that `findHSPs` returns. -/
theorem findHSPs_contains_seed_witness :
    ∃ (i p : Nat) (seq : Sequence),
      0 ≤ ((findHSPs "CCCGGG".toList [Sequence.mk [] [] "AAACCCGGGTTT".toList 0]
        (buildIndex [Sequence.mk [] [] "AAACCCGGGTTT".toList 0] 3) 3).get
          ⟨0, by decide⟩).sid ∧
      [Sequence.mk [] [] "AAACCCGGGTTT".toList 0][((findHSPs "CCCGGG".toList
        [Sequence.mk [] [] "AAACCCGGGTTT".toList 0]
        (buildIndex [Sequence.mk [] [] "AAACCCGGGTTT".toList 0] 3) 3).get
          ⟨0, by decide⟩).sid.toNat]? = some seq ∧
      i + 3 ≤ seq.seq.length ∧ p + 3 ≤ "CCCGGG".toList.length ∧
      substr seq.seq i 3 = substr "CCCGGG".toList p 3 ∧
      ((findHSPs "CCCGGG".toList [Sequence.mk [] [] "AAACCCGGGTTT".toList 0]
        (buildIndex [Sequence.mk [] [] "AAACCCGGGTTT".toList 0] 3) 3).get
          ⟨0, by decide⟩).db_start ≤ (i : Int) ∧
      (i : Int) + ((3 : Nat) : Int) - 1 ≤
        ((findHSPs "CCCGGG".toList [Sequence.mk [] [] "AAACCCGGGTTT".toList 0]
          (buildIndex [Sequence.mk [] [] "AAACCCGGGTTT".toList 0] 3) 3).get
            ⟨0, by decide⟩).db_end ∧
      ((findHSPs "CCCGGG".toList [Sequence.mk [] [] "AAACCCGGGTTT".toList 0]
        (buildIndex [Sequence.mk [] [] "AAACCCGGGTTT".toList 0] 3) 3).get
          ⟨0, by decide⟩).db_start -
        ((findHSPs "CCCGGG".toList [Sequence.mk [] [] "AAACCCGGGTTT".toList 0]
          (buildIndex [Sequence.mk [] [] "AAACCCGGGTTT".toList 0] 3) 3).get
            ⟨0, by decide⟩).q_start = (i : Int) - (p : Int) ∧
      2 * ((3 : Nat) : Int) ≤
        ((findHSPs "CCCGGG".toList [Sequence.mk [] [] "AAACCCGGGTTT".toList 0]
          (buildIndex [Sequence.mk [] [] "AAACCCGGGTTT".toList 0] 3) 3).get
            ⟨0, by decide⟩).score :=
  findHSPs_contains_seed "CCCGGG".toList [Sequence.mk [] [] "AAACCCGGGTTT".toList 0] 3
    (by intro n h; have : n = 0 := by simpa using h
        subst this; rfl)
    (by decide) (by decide) (by decide) (by decide) _ (List.get_mem _ _ _)

/-! ## Lemmas: ranking -/

theorem rankBefore_iff (a b : HSP) :
    rankBefore a b = true ↔
      a.score > b.score ∨ (a.score = b.score ∧ a.identity > b.identity) := by
  unfold rankBefore
  by_cases h : a.score = b.score
  · simp [h]
  · simp only [ne_eq, h, not_false_eq_true, if_true, decide_eq_true_eq, false_and, or_false]

theorem rankBefore_false_iff (a b : HSP) :
    rankBefore b a = false ↔
      a.score > b.score ∨ (a.score = b.score ∧ a.identity ≥ b.identity) := by
  rw [← Bool.not_eq_true, rankBefore_iff]
  constructor
  · intro h
    by_contra hc
    apply h
    rcases lt_trichotomy a.score b.score with h1 | h1 | h1
    · exact Or.inl h1
    · right
      refine ⟨h1.symm, ?_⟩
      by_contra h2
      exact hc (Or.inr ⟨h1, not_lt.1 h2⟩)
    · exact absurd (Or.inl h1) hc
  · rintro (h | ⟨h1, h2⟩) (h3 | ⟨h3, h4⟩)
    · omega
    · omega
    · omega
    · exact absurd h4 (not_lt.2 h2)

theorem rankBefore_irrefl (a : HSP) : rankBefore a a = false := by
  rw [rankBefore_false_iff]
  exact Or.inr ⟨rfl, le_refl _⟩

theorem rankBefore_trans (a b c : HSP) (h1 : rankBefore a b = true)
    (h2 : rankBefore b c = true) : rankBefore a c = true := by
  rw [rankBefore_iff] at h1 h2 ⊢
  rcases h1 with h1 | ⟨h1, h1'⟩ <;> rcases h2 with h2 | ⟨h2, h2'⟩
  · exact Or.inl (by omega)
  · exact Or.inl (by omega)
  · exact Or.inl (by omega)
  · exact Or.inr ⟨h1.trans h2, lt_trans h2' h1'⟩

theorem rankBefore_false_trans (a b c : HSP) (h1 : rankBefore b a = false)
    (h2 : rankBefore c b = false) : rankBefore c a = false := by
  rw [rankBefore_false_iff] at h1 h2 ⊢
  rcases h1 with h1 | ⟨h1, h1'⟩ <;> rcases h2 with h2 | ⟨h2, h2'⟩
  · exact Or.inl (by omega)
  · exact Or.inl (by omega)
  · exact Or.inl (by omega)
  · exact Or.inr ⟨h1.trans h2, le_trans h2' h1'⟩

theorem rankBefore_total (a b : HSP) : rankBefore b a = false ∨ rankBefore a b = false := by
  rw [rankBefore_false_iff, rankBefore_false_iff]
  rcases lt_trichotomy a.score b.score with h | h | h
  · exact Or.inr (Or.inl h)
  · rcases le_total a.identity b.identity with h2 | h2
    · exact Or.inr (Or.inr ⟨h.symm, h2⟩)
    · exact Or.inl (Or.inr ⟨h, h2⟩)
  · exact Or.inl (Or.inl h)

/-- A sequence extended against itself from a pair on the main diagonal has identity 100. -/
theorem extendUngapped_self_identity (q : List Char) (p : Int) :
    (extendUngapped q q p p).identity = 100 := by
  obtain ⟨h1, _, h3, h4⟩ := extendUngapped_shape q q p p
  have hs : (extendUngapped q q p p).db_start = (extendUngapped q q p p).q_start := by omega
  have hn : (extendUngapped q q p p).db_end - (extendUngapped q q p p).db_start + 1 =
      ((((extendUngapped q q p p).db_end -
        (extendUngapped q q p p).db_start + 1).toNat : Nat) : Int) := by
    rw [Int.toNat_of_nonneg]; omega
  have hpos : 0 < ((extendUngapped q q p p).db_end -
      (extendUngapped q q p p).db_start + 1).toNat := by omega
  rw [extendUngapped_identity_eq, matchCount_all _ _ _ _ _ (fun i _ => by rw [hs]), hn,
    Int.toNat_natCast, Int.cast_natCast, mul_div_assoc, div_self, mul_one]
  exact_mod_cast hpos.ne'

/-- Two lists of HSPs with the same integer fields, entry by entry, and one identity
throughout are equal. -/
theorem hsp_list_ext (c : ℚ) : ∀ (l1 l2 : List HSP),
    l1.map (fun h => (h.sid, h.db_start, h.db_end, h.q_start, h.q_end, h.score)) =
      l2.map (fun h => (h.sid, h.db_start, h.db_end, h.q_start, h.q_end, h.score)) →
    (∀ h ∈ l1, h.identity = c) → (∀ h ∈ l2, h.identity = c) → l1 = l2
  | [], [], _, _, _ => rfl
  | [], _ :: _, h, _, _ => by simp at h
  | _ :: _, [], h, _, _ => by simp at h
  | a :: l1, b :: l2, h, h1, h2 => by
    simp only [List.map_cons, List.cons.injEq, Prod.mk.injEq] at h
    obtain ⟨⟨e1, e2, e3, e4, e5, e6⟩, ht⟩ := h
    have ea := h1 a (List.mem_cons_self _ _)
    have eb := h2 b (List.mem_cons_self _ _)
    have hab : a = b := by
      cases a; cases b
      simp only at e1 e2 e3 e4 e5 e6 ea eb
      subst e1 e2 e3 e4 e5 e6 ea eb
      rfl
    rw [hab, hsp_list_ext c l1 l2 ht (fun h hh => h1 h (List.mem_cons_of_mem _ hh))
      (fun h hh => h2 h (List.mem_cons_of_mem _ hh))]

set_option maxRecDepth 100000 in
theorem findHSPs_tiedDb :
    findHSPs "ACGTTGCAAGCT".toList tiedDb (buildIndex tiedDb 11) 11 = tiedHits ++ tiedHits := by
  refine hsp_list_ext 100 _ _ (by decide) ?_ ?_
  · intro h hh
    rw [findHSPs_eq] at hh
    unfold seedEnumeration at hh
    obtain ⟨p, hp, hhp⟩ := List.mem_flatMap.1 hh
    have hp2 : p ∈ List.range 2 := hp
    unfold seedsAt at hhp
    split_ifs at hhp
    · obtain ⟨occ, hocc, rfl⟩ := List.mem_map.1 hhp
      have key : ∀ p ∈ List.range 2, ∀ occ ∈ (buildIndex tiedDb 11).occs
          (encodeKmer (substr "ACGTTGCAAGCT".toList p 11)),
          dbSeqAt tiedDb occ.1 = "ACGTTGCAAGCT".toList ∧ occ.2 = (p : Int) := by
        decide
      obtain ⟨k1, k2⟩ := key p hp2 occ hocc
      simp only
      rw [k1, k2]
      exact extendUngapped_self_identity _ _
    · simp at hhp
  · intro h hh
    have : ∀ h ∈ tiedHits ++ tiedHits, h.identity = 100 := by
      intro h hh
      simp only [tiedHits, List.mem_append, List.mem_map, List.mem_range, or_self] at hh
      obtain ⟨i, _, rfl⟩ := hh
      rfl
    exact this h hh

theorem mergeHSPsWith_congr (sort1 sort2 : List HSP → List HSP) (hsps : List HSP)
    (h : ∀ g ∈ groupBySequence hsps, sort1 g.2 = sort2 g.2) :
    mergeHSPsWith sort1 hsps = mergeHSPsWith sort2 hsps := by
  unfold mergeHSPsWith
  split_ifs
  · rfl
  · exact List.foldl_ext _ _ _ (fun merged g hg => by rw [h g hg])

set_option maxRecDepth 100000 in
/-- Steps 3 and 4 of `main` on the failing input of C23 give `tiedHits`, whatever order
`std::sort` gives to HSPs of equal `db_start`. -/
theorem mergeHSPsWith_tiedDb (sort : List HSP → List HSP) (hsort : IsSortByStart sort) :
    mergeHSPsWith sort (findHSPs "ACGTTGCAAGCT".toList tiedDb (buildIndex tiedDb 11) 11) =
      tiedHits := by
  rw [findHSPs_tiedDb, mergeHSPsWith_congr sort sortByStart]
  · decide
  · intro g hg
    have key : ∀ g ∈ groupBySequence (tiedHits ++ tiedHits), ∃ h ∈ g.2, g.2 = [h, h] := by
      decide
    obtain ⟨h, _, e⟩ := key g hg
    rw [e]
    have h1 : sort [h, h] = [h, h] := by
      rcases perm_pair (hsort [h, h]).1 with h1 | h1 <;> exact h1
    have h2 : sortByStart [h, h] = [h, h] := by
      rcases perm_pair (isSortByStart_sortByStart [h, h]).1 with h1 | h1 <;> exact h1
    rw [h1, h2]

/-! ## Claims: ranking -/

/-- C23 (the ranking step on tied hits). The comparator of the ranking step puts `a` before
`b` exactly when `a.score > b.score`, or the scores are equal and `a.identity > b.identity`;
it is a strict weak order (irreflexive, transitive, with transitive incomparability).  For
the query `ACGTTGCAAGCT` and the database `tiedDb`, steps 3 and 4 of `main` hand the list
`tiedHits` to the ranking step.  It has twenty distinct HSPs and is in ranked order, and the
comparator answers `false` for every pair of them in both directions, so every permutation
of the list is ordered for it: the comparator gives `std::sort`, which is not a stable sort,
nothing that would keep the twenty entries in their places. -/
theorem rankBefore_tiedHits :
    (∀ a b : HSP, rankBefore a b = true ↔
      a.score > b.score ∨ (a.score = b.score ∧ a.identity > b.identity)) ∧
    (∀ a : HSP, rankBefore a a = false) ∧
    (∀ a b c : HSP, rankBefore a b = true → rankBefore b c = true → rankBefore a c = true) ∧
    (∀ a b c : HSP, rankBefore a b = false → rankBefore b a = false →
      rankBefore b c = false → rankBefore c b = false →
      rankBefore a c = false ∧ rankBefore c a = false) ∧
    (∀ sort : List HSP → List HSP, IsSortByStart sort →
      mergeHSPsWith sort (findHSPs "ACGTTGCAAGCT".toList tiedDb (buildIndex tiedDb 11) 11) =
        tiedHits) ∧
    tiedHits.length = 20 ∧ tiedHits.Nodup ∧
    tiedHits.Pairwise (fun a b => rankBefore b a = false) ∧
    (∀ a ∈ tiedHits, ∀ b ∈ tiedHits, rankBefore a b = false) ∧
    (∀ l : List HSP, l.Perm tiedHits → l.Pairwise (fun a b => rankBefore b a = false)) := by
  have hall : ∀ a ∈ tiedHits, ∀ b ∈ tiedHits, rankBefore a b = false := by
    intro a ha b hb
    simp only [tiedHits, List.mem_map, List.mem_range] at ha hb
    obtain ⟨i, _, rfl⟩ := ha
    obtain ⟨j, _, rfl⟩ := hb
    simp [rankBefore]
  refine ⟨rankBefore_iff, rankBefore_irrefl, rankBefore_trans, ?_, mergeHSPsWith_tiedDb,
    by simp [tiedHits], ?_, ?_, hall, ?_⟩
  · intro a b c h1 h2 h3 h4
    exact ⟨rankBefore_false_trans c b a h3 h1, rankBefore_false_trans a b c h2 h4⟩
  · unfold tiedHits
    refine (List.nodup_range 20).map ?_
    intro i j h
    have : (i : Int) = (j : Int) := congrArg HSP.sid h
    exact_mod_cast this
  · exact List.pairwise_of_forall_mem_list (fun a ha b hb => hall b hb a ha)
  · intro l hl
    exact List.pairwise_of_forall_mem_list
      (fun a ha b hb => hall b (hl.subset hb) a (hl.subset ha))

end Blastn
